import Mathlib

/-!
# Nucleation methods of MatrixFreePDE (src/nucleation/nucleation.cc)

A shallow embedding of the nucleation methods of the phase-field solver and a
verification of the statements made about them.

Conventions of the embedding.

* `double` is an arbitrary linearly ordered field `α` with a floor function, so
  every definition runs on `ℚ` and every theorem holds over `ℝ`.  The square
  root of the C library is passed in as the function `sqrt`.
* `dealii::Point<dim>`, `dealii::Tensor<1, dim>` and the `std::vector<double>`
  objects that are indexed by an axis are functions on `Fin dim`.
* A `dealii::VectorizedArray<double>` with `lanes` entries is a function on
  `Fin lanes`; its arithmetic acts lane by lane.
* The triangulation is the list of its active cells in iteration order; a cell
  carries what `FEValues` returns for it.
* The random generator is a stream `rand : Nat → α` together with the number of
  values already taken from it.
* An `unsigned int` is a natural number; where the source forms a difference or
  a product of two of them, the result is reduced modulo `2 ^ 32`.
-/

namespace Cmath

variable {α : Type} [LinearOrderedField α] [FloorRing α]

/-- The function `round` of the C library: the nearest integer, a halfway case
going away from zero. -/
def round (x : α) : ℤ :=
  if 0 ≤ x then ⌊x + 1 / 2⌋ else ⌈x - 1 / 2⌉

end Cmath

/-- Boundary condition kinds of `core/boundary_conditions/varBCs.h`.  The header
is not part of the translated file; the nucleation methods only ever compare a
kind with `PERIODIC`. -/
inductive boundaryType where
  | NATURAL
  | DIRICHLET
  | PERIODIC
  | NON_UNIFORM_DIRICHLET
  | NEUMANN
  deriving DecidableEq, Repr

/-- Boundary conditions of one variable: entry `2 * i` is the kind on the lower
face of axis `i`, entry `2 * i + 1` the one on the upper face. -/
structure varBCs where
  var_BC_type : Nat → boundaryType

/-- A point or a rank one tensor in `dim` dimensions. -/
abbrev Point (dim : Nat) (α : Type) : Type := Fin dim → α

namespace Tensor

variable {α : Type} [LinearOrderedField α] {dim : Nat}

/-- Product of a rank two tensor with a rank one tensor: `(R * v)[i]` is the sum
over `j` of `R[i][j] * v[j]`. -/
def contract (R : Fin dim → Fin dim → α) (v : Fin dim → α) : Fin dim → α :=
  fun i => Finset.univ.sum (fun j => R i j * v j)

/-- Sum of the squares of the components, `Tensor::norm_square`. -/
def norm_square (v : Fin dim → α) : α :=
  Finset.univ.sum (fun i => v i * v i)

/-- Euclidean norm, `Tensor::norm`: the square root of `norm_square`. -/
def norm (sqrt : α → α) (v : Fin dim → α) : α :=
  sqrt (norm_square v)

end Tensor

/-- The nucleus record of `nucleation/nucleus.h`. -/
structure nucleus (dim : Nat) (α : Type) where
  index : Nat
  center : Point dim α
  semiaxes : Fin dim → α
  seededTime : α
  seedingTime : α
  seedingTimestep : Nat
  orderParameterIndex : Nat

/-- The members of `userInputs` that the nucleation methods read. -/
structure userInputParameters (dim : Nat) (α : Type) where
  nucleation_occurs : Bool
  steps_between_nucleation_attempts : Nat
  dtValue : α
  nucleation_start_time : α
  nucleation_end_time : α
  h_adaptivity : Bool
  min_distance_between_nuclei : α
  min_distance_between_nuclei_OP : α
  nucleation_need_value : List Nat
  nucleating_variable_indices : List Nat
  multiple_nuclei_per_order_parameter : Bool
  BC_list : Nat → varBCs
  domain_size : Fin dim → α
  subdivisions : Fin dim → Nat
  nucleation_order_parameter_cutoff : α
  max_refinement_level : Nat
  min_refinement_level : Nat
  get_no_nucleation_border_thickness : Nat → α
  get_nucleus_semiaxes : Nat → Fin dim → α
  get_nucleus_freeze_semiaxes : Nat → Fin dim → α
  get_nucleus_hold_time : Nat → α
  get_nucleus_rotation_matrix : Nat → Fin dim → Fin dim → α

/-- The container of averaged variable values handed to the probability law.  Its
class is declared outside the translated file; it is taken as the partial map its
two call sites use: `set` records a pair, and a lookup finds the value recorded
for an index or nothing. -/
structure variableValueContainer (α : Type) where
  entries : List (Nat × α)

namespace variableValueContainer

variable {α : Type}

/-- The container right after its declaration. -/
def empty : variableValueContainer α := ⟨[]⟩

/-- The call `variable_values.set(global_variable_index, variable_value)`. -/
def set (c : variableValueContainer α) (global_variable_index : Nat) (variable_value : α) :
    variableValueContainer α :=
  ⟨c.entries ++ [(global_variable_index, variable_value)]⟩

/-- The call `variable_values(global_variable_index)`: the first value recorded
for the index, `none` when the index was never recorded. -/
def get (c : variableValueContainer α) (global_variable_index : Nat) : Option α :=
  (c.entries.find? (fun e => e.1 == global_variable_index)).map Prod.snd

end variableValueContainer

/-- What `FEValues` and the solution vectors give for one active cell:
`q_points q` is the location of quadrature point `q`, `JxW q` its weight and
`function_values v q` the value of field `v` there. -/
structure Cell (dim : Nat) (α : Type) where
  is_locally_owned : Bool
  level : Nat
  q_points : Nat → Point dim α
  JxW : Nat → α
  function_values : Nat → Nat → α

namespace MatrixFreePDE

variable {α : Type} [LinearOrderedField α] [FloorRing α] {dim : Nat}

/-- The scalar `weightedDistanceFromNucleusCenter` (source lines 579 to 607). -/
def weightedDistanceFromNucleusCenter (sqrt : α → α) (userInputs : userInputParameters dim α)
    (center : Point dim α) (semiaxes : Fin dim → α) (q_point_loc : Point dim α)
    (var_index : Nat) : α :=
  let shortest_edist_tensor : Fin dim → α := fun i => center i - q_point_loc i
  let shortest_edist_tensor : Fin dim → α := fun i =>
    if (userInputs.BC_list var_index).var_BC_type (2 * i) = boundaryType.PERIODIC then
      shortest_edist_tensor i -
        (Cmath.round (shortest_edist_tensor i / userInputs.domain_size i) : α) *
          userInputs.domain_size i
    else shortest_edist_tensor i
  let shortest_edist_tensor : Fin dim → α :=
    Tensor.contract (userInputs.get_nucleus_rotation_matrix var_index) shortest_edist_tensor
  let shortest_edist_tensor : Fin dim → α := fun i => shortest_edist_tensor i / semiaxes i
  Tensor.norm sqrt shortest_edist_tensor

/-- The `VectorizedArray` overload of `weightedDistanceFromNucleusCenter` (source
lines 612 to 650): `q_point_loc j k` is coordinate `j` of the point in lane `k`. -/
def weightedDistanceFromNucleusCenterVectorized (sqrt : α → α)
    (userInputs : userInputParameters dim α) {lanes : Nat}
    (center : Point dim α) (semiaxes : Fin dim → α) (q_point_loc : Fin dim → Fin lanes → α)
    (var_index : Nat) : Fin lanes → α :=
  let shortest_edist_tensor : Fin dim → Fin lanes → α := fun j =>
    let component : Fin lanes → α := fun k => center j - q_point_loc j k
    if (userInputs.BC_list var_index).var_BC_type (2 * j) = boundaryType.PERIODIC then
      fun k =>
        component k -
          (Cmath.round (component k / userInputs.domain_size j) : α) * userInputs.domain_size j
    else component
  let shortest_edist_tensor : Fin dim → Fin lanes → α := fun i k =>
    Finset.univ.sum (fun j => userInputs.get_nucleus_rotation_matrix var_index i j *
      shortest_edist_tensor j k)
  let shortest_edist_tensor : Fin dim → Fin lanes → α := fun j k =>
    shortest_edist_tensor j k / semiaxes j
  let weighted_dist : Fin lanes → α := fun k =>
    Finset.univ.sum (fun j => shortest_edist_tensor j k * shortest_edist_tensor j k)
  fun k => sqrt (weighted_dist k)

/-- The distance as the specification words it: displacement `point - center`,
shortest representative on every periodic axis, rotation, division by the
semiaxes, Euclidean norm. -/
def specWeightedDistance (sqrt : α → α) (userInputs : userInputParameters dim α)
    (center : Point dim α) (semiaxes : Fin dim → α) (point : Point dim α)
    (var_index : Nat) : α :=
  let d : Fin dim → α := fun i => point i - center i
  let wrapped : Fin dim → α := fun i =>
    if (userInputs.BC_list var_index).var_BC_type (2 * i) = boundaryType.PERIODIC then
      d i - (Cmath.round (d i / userInputs.domain_size i) : α) * userInputs.domain_size i
    else d i
  let rotated : Fin dim → α := fun i =>
    Finset.univ.sum (fun j => userInputs.get_nucleus_rotation_matrix var_index i j * wrapped j)
  let scaled : Fin dim → α := fun i => rotated i / semiaxes i
  sqrt (Finset.univ.sum (fun i => scaled i * scaled i))

/-! ### safetyCheckNewNuclei (source lines 382 to 476) -/

/-- Inner loop of the order parameter check (lines 404 to 412): walk the batch
and, at the first `this_nucleus2` with the order parameter of `this_nucleus1`,
push the id of `this_nucleus1` and leave the loop. -/
def uniquenessInner (this_nucleus1 : nucleus dim α) :
    List (nucleus dim α) → List Nat → List Nat
  | [], conflict_ids => conflict_ids
  | this_nucleus2 :: rest, conflict_ids =>
      if this_nucleus1.orderParameterIndex = this_nucleus2.orderParameterIndex then
        conflict_ids ++ [this_nucleus1.index]
      else uniquenessInner this_nucleus1 rest conflict_ids

/-- Outer loop of the order parameter check (lines 402 to 413): both loops range
over the same batch `newnuclei`. -/
def uniquenessPass (newnuclei : List (nucleus dim α)) (conflict_ids : List Nat) : List Nat :=
  newnuclei.foldl (fun ids this_nucleus1 => uniquenessInner this_nucleus1 newnuclei ids)
    conflict_ids

/-- The value `sum_op` of lines 452 to 458: the values of the nucleating
variables at one quadrature point, added up. -/
def overlapSumOp (userInputs : userInputParameters dim α) (dof : Cell dim α)
    (q_point : Nat) : α :=
  userInputs.nucleating_variable_indices.foldl
    (fun sum_op v => sum_op + dof.function_values v q_point) 0

/-- Quadrature points cycle (lines 439 to 468) over the points still to visit.
The state is `(isClose, conflict_ids)`; a hit sets the flag, pushes the id and
leaves the loop. -/
def quadratureCycle (sqrt : α → α) (userInputs : userInputParameters dim α)
    (thisNucleus : nucleus dim α) (dof : Cell dim α) :
    List Nat → Bool × List Nat → Bool × List Nat
  | [], st => st
  | q_point :: rest, st =>
      let weighted_dist := weightedDistanceFromNucleusCenter sqrt userInputs thisNucleus.center
        (userInputs.get_nucleus_freeze_semiaxes thisNucleus.orderParameterIndex)
        (dof.q_points q_point) thisNucleus.orderParameterIndex
      if weighted_dist < 1 then
        if overlapSumOp userInputs dof q_point > 1 / 10 then
          (true, st.2 ++ [thisNucleus.index])
        else quadratureCycle sqrt userInputs thisNucleus dof rest st
      else quadratureCycle sqrt userInputs thisNucleus dof rest st

/-- Element cycle (lines 423 to 474) over the cells still to visit: cells of
other processes are passed over, and the loop is left once `isClose` is set. -/
def elementCycle (sqrt : α → α) (userInputs : userInputParameters dim α)
    (num_quad_points : Nat) (thisNucleus : nucleus dim α) :
    List (Cell dim α) → Bool × List Nat → Bool × List Nat
  | [], st => st
  | dof :: rest, st =>
      if dof.is_locally_owned then
        let st1 := quadratureCycle sqrt userInputs thisNucleus dof
          (List.range num_quad_points) st
        if st1.1 then st1
        else elementCycle sqrt userInputs num_quad_points thisNucleus rest st1
      else elementCycle sqrt userInputs num_quad_points thisNucleus rest st

/-- The method `safetyCheckNewNuclei`: the value returned is `conflict_ids` as
the method leaves it. -/
def safetyCheckNewNuclei (sqrt : α → α) (userInputs : userInputParameters dim α)
    (num_quad_points : Nat) (cells : List (Cell dim α))
    (newnuclei : List (nucleus dim α)) (conflict_ids : List Nat) : List Nat :=
  let conflict_ids :=
    if !userInputs.multiple_nuclei_per_order_parameter then
      uniquenessPass newnuclei conflict_ids
    else conflict_ids
  newnuclei.foldl
    (fun ids thisNucleus =>
      (elementCycle sqrt userInputs num_quad_points thisNucleus cells (false, ids)).2)
    conflict_ids

/-! ### getLocalNucleiList (source lines 123 to 376) -/

/-- What one pass of `getLocalNucleiList` has done so far: the candidates pushed
to `newnuclei`, how many values were taken from the random generator, and the
order parameter of every call of `getNucleationProbability`, in call order. -/
structure LocalPass (dim : Nat) (α : Type) where
  newnuclei : List (nucleus dim α)
  draws : Nat
  oracle_calls : List Nat

/-- The value `element_volume` of lines 177 to 189. -/
def element_volume (num_quad_points : Nat) (dof : Cell dim α) : α :=
  (List.range num_quad_points).foldl (fun vol q_point => vol + dof.JxW q_point) 0

/-- The point `ele_center` of lines 178 to 189. -/
def ele_center (num_quad_points : Nat) (dof : Cell dim α) : Point dim α :=
  (List.range num_quad_points).foldl
    (fun c q_point => fun i => c i + dof.q_points q_point i / (num_quad_points : α))
    (fun _ => 0)

/-- The container `variable_values` of lines 193 to 203: for every entry of
`nucleation_need_value` the weighted average of that field over the cell. -/
def averagedValues (userInputs : userInputParameters dim α) (num_quad_points : Nat)
    (dof : Cell dim α) : variableValueContainer α :=
  userInputs.nucleation_need_value.foldl
    (fun variable_values v =>
      let ele_val := (List.range num_quad_points).foldl
        (fun acc q_point => acc + dof.function_values v q_point * dof.JxW q_point) 0
      variable_values.set v (ele_val / element_volume num_quad_points dof))
    variableValueContainer.empty

/-- The counter `numbercurrnuclei` of lines 216 to 221. -/
def numbercurrnuclei (nuclei : List (nucleus dim α)) (variable_index : Nat) : Nat :=
  nuclei.foldl
    (fun count nuc => if nuc.orderParameterIndex = variable_index then count + 1 else count) 0

/-- One sweep over the quadrature points of lines 263 to 276, updating the pair
`(ele_origin, ele_max)`. -/
def boxSweep (num_quad_points : Nat) (dof : Cell dim α)
    (box : (Fin dim → α) × (Fin dim → α)) : (Fin dim → α) × (Fin dim → α) :=
  (List.range num_quad_points).foldl
    (fun b q_point =>
      (fun i => if dof.q_points q_point i < b.1 i then dof.q_points q_point i else b.1 i,
       fun i => if dof.q_points q_point i > b.2 i then dof.q_points q_point i else b.2 i))
    box

/-- The pair `(ele_origin, ele_max)` of lines 251 to 277: both start at
quadrature point 0 and the sweep is run `dim` times by the outer loop. -/
def ele_box (num_quad_points : Nat) (dof : Cell dim α) :
    (Fin dim → α) × (Fin dim → α) :=
  (List.finRange dim).foldl (fun b _ => boxSweep num_quad_points dof b)
    (dof.q_points 0, dof.q_points 0)

/-- The point `nuc_ele_pos` of lines 280 to 285; `draws` values were taken from
the generator before `randvec[0]`. -/
def nuc_ele_pos (rand : Nat → α) (num_quad_points : Nat) (dof : Cell dim α)
    (draws : Nat) : Point dim α :=
  fun j =>
    (ele_box num_quad_points dof).1 j +
      ((ele_box num_quad_points dof).2 j - (ele_box num_quad_points dof).1 j) *
        rand (draws + j.val)

/-- The flag `insafetyzone_j` of lines 291 to 300. -/
def insafetyzone_j (userInputs : userInputParameters dim α) (variable_index : Nat)
    (pos : Point dim α) (j : Fin dim) : Bool :=
  let periodic_j : Bool :=
    decide ((userInputs.BC_list 1).var_BC_type (2 * j) = boundaryType.PERIODIC)
  periodic_j ||
    (decide (pos j > userInputs.get_no_nucleation_border_thickness variable_index) &&
     decide (pos j <
      userInputs.domain_size j - userInputs.get_no_nucleation_border_thickness variable_index))

/-- The flag `insafetyzone` after the loop of lines 288 to 302. -/
def insafetyzone (userInputs : userInputParameters dim α) (variable_index : Nat)
    (pos : Point dim α) : Bool :=
  (List.finRange dim).foldl
    (fun safe j => safe && insafetyzone_j userInputs variable_index pos j) true

/-- The value `sum_op` of lines 311 to 326 at one quadrature point: every pair of
an entry of `nucleation_need_value` and an equal entry of
`nucleating_variable_indices` adds the value of that field. -/
def cutoffSumOp (userInputs : userInputParameters dim α) (dof : Cell dim α)
    (q_point : Nat) : α :=
  userInputs.nucleation_need_value.foldl
    (fun sum_op need =>
      userInputs.nucleating_variable_indices.foldl
        (fun sum_op op => if need = op then sum_op + dof.function_values need q_point
          else sum_op)
        sum_op)
    0

/-- The flag `anyqp_OK` after the loop of lines 308 to 331. -/
def anyqp_OK (userInputs : userInputParameters dim α) (num_quad_points : Nat)
    (dof : Cell dim α) : Bool :=
  (List.range num_quad_points).foldl
    (fun ok q_point =>
      if cutoffSumOp userInputs dof q_point < userInputs.nucleation_order_parameter_cutoff
      then true else ok)
    false

/-- The record `temp` of lines 355 to 364. -/
def prospectiveNucleus (userInputs : userInputParameters dim α)
    (nuclei : List (nucleus dim α)) (t : α) (inc : Nat) (variable_index : Nat)
    (pos : Point dim α) : nucleus dim α where
  index := nuclei.length
  center := pos
  semiaxes := userInputs.get_nucleus_semiaxes variable_index
  seededTime := t
  seedingTime := userInputs.get_nucleus_hold_time variable_index
  seedingTimestep := inc
  orderParameterIndex := variable_index

/-- The branch taken when `rand_val <= Prob` holds (lines 241 to 368); `s` is the
pass after the draw of `rand_val`. -/
def placeNucleus (rand : Nat → α) (userInputs : userInputParameters dim α)
    (nuclei : List (nucleus dim α)) (t : α) (inc : Nat) (num_quad_points : Nat)
    (dof : Cell dim α) (variable_index : Nat) (s : LocalPass dim α) : LocalPass dim α :=
  let pos := nuc_ele_pos rand num_quad_points dof s.draws
  let s2 : LocalPass dim α := { s with draws := s.draws + dim }
  if insafetyzone userInputs variable_index pos then
    if anyqp_OK userInputs num_quad_points dof then
      { s2 with newnuclei := s2.newnuclei ++
          [prospectiveNucleus userInputs nuclei t inc variable_index pos] }
    else s2
  else s2

/-- The body of the loop over the nucleating order parameters (lines 212 to 369)
for one cell and one order parameter. -/
def nucleationAttempt (rand : Nat → α)
    (getNucleationProbability : variableValueContainer α → α → Point dim α → Nat → α)
    (userInputs : userInputParameters dim α) (nuclei : List (nucleus dim α)) (t : α)
    (inc : Nat) (num_quad_points : Nat) (dof : Cell dim α) (variable_index : Nat)
    (s : LocalPass dim α) : LocalPass dim α :=
  if numbercurrnuclei nuclei variable_index = 0 ∨
      userInputs.multiple_nuclei_per_order_parameter = true then
    let rand_val := rand s.draws
    let Prob := getNucleationProbability (averagedValues userInputs num_quad_points dof)
      (element_volume num_quad_points dof) (ele_center num_quad_points dof) variable_index
    let s1 : LocalPass dim α :=
      { s with draws := s.draws + 1, oracle_calls := s.oracle_calls ++ [variable_index] }
    if rand_val ≤ Prob then
      placeNucleus rand userInputs nuclei t inc num_quad_points dof variable_index s1
    else s1
  else s

/-- The loop over the nucleating order parameters (lines 210 to 370) for one
cell. -/
def channelLoop (rand : Nat → α)
    (getNucleationProbability : variableValueContainer α → α → Point dim α → Nat → α)
    (userInputs : userInputParameters dim α) (nuclei : List (nucleus dim α)) (t : α)
    (inc : Nat) (num_quad_points : Nat) (dof : Cell dim α) (s : LocalPass dim α) :
    LocalPass dim α :=
  userInputs.nucleating_variable_indices.foldl
    (fun s variable_index =>
      nucleationAttempt rand getNucleationProbability userInputs nuclei t inc
        num_quad_points dof variable_index s)
    s

/-- The body of the element cycle (lines 160 to 371) for one active cell.  The
lookup `variable_values(83+83+1)` of line 206 has to find a value for the pass to
go on; the model has no result when it does not. -/
def cellStep (rand : Nat → α)
    (getNucleationProbability : variableValueContainer α → α → Point dim α → Nat → α)
    (userInputs : userInputParameters dim α) (nuclei : List (nucleus dim α)) (t : α)
    (inc : Nat) (num_quad_points : Nat) (s : LocalPass dim α) (dof : Cell dim α) :
    Option (LocalPass dim α) :=
  if dof.is_locally_owned then
    match (averagedValues userInputs num_quad_points dof).get (83 + 83 + 1) with
    | none => none
    | some _ =>
        some (channelLoop rand getNucleationProbability userInputs nuclei t inc
          num_quad_points dof s)
  else some s

/-- The method `getLocalNucleiList`: one pass over the active cells, starting
with the list `newnuclei` it is handed and a fresh generator. -/
def getLocalNucleiList (rand : Nat → α)
    (getNucleationProbability : variableValueContainer α → α → Point dim α → Nat → α)
    (userInputs : userInputParameters dim α) (nuclei : List (nucleus dim α)) (t : α)
    (inc : Nat) (num_quad_points : Nat) (cells : List (Cell dim α))
    (newnuclei : List (nucleus dim α)) : Option (LocalPass dim α) :=
  cells.foldlM
    (cellStep rand getNucleationProbability userInputs nuclei t inc num_quad_points)
    { newnuclei := newnuclei, draws := 0, oracle_calls := [] }

/-- The pass over a list of cells when every lookup of line 206 finds a value. -/
def passOver (rand : Nat → α)
    (getNucleationProbability : variableValueContainer α → α → Point dim α → Nat → α)
    (userInputs : userInputParameters dim α) (nuclei : List (nucleus dim α)) (t : α)
    (inc : Nat) (num_quad_points : Nat) (cells : List (Cell dim α)) (s : LocalPass dim α) :
    LocalPass dim α :=
  cells.foldl
    (fun s dof => if dof.is_locally_owned = true then
        channelLoop rand getNucleationProbability userInputs nuclei t inc num_quad_points dof s
      else s)
    s

/-! ### refineMeshNearNuclei (source lines 481 to 574) -/

/-- The function `Point::distance` of the finite element library: the square
root of the sum of the squared coordinate differences. -/
def pointDistance (sqrt : α → α) (p q : Point dim α) : α :=
  sqrt (Finset.univ.sum (fun i => (p i - q i) * (p i - q i)))

/-- The mesh as the refinement loop sees it: the active cells in iteration order
and the member `totalDOFs`. -/
structure Mesh (dim : Nat) (α : Type) where
  cells : List (Cell dim α)
  totalDOFs : Nat

/-- The value `diag_dist` of lines 513 to 520 for a cell at the given level.  The
product `subdivisions[i] * subdivisions[i]` of line 517 is formed in the unsigned
32 bit type of the counts and only then becomes a `double`, so it is the product
modulo `2 ^ 32`. -/
def diag_dist (sqrt : α → α) (userInputs : userInputParameters dim α) (level : Nat) : α :=
  sqrt ((List.finRange dim).foldl
    (fun diag i => diag + (userInputs.domain_size i * userInputs.domain_size i) /
      (((userInputs.subdivisions i * userInputs.subdivisions i) % 2 ^ 32 : Nat) : α)) 0) /
    (2 * 2 ^ level)

/-- The loop over the new nuclei at one quadrature point (lines 524 to 549): the
value is `mark_refine` when the loop is left. -/
def refineNucleusLoop (sqrt : α → α) (userInputs : userInputParameters dim α)
    (dof : Cell dim α) (q_point : Nat) : List (nucleus dim α) → Bool
  | [] => false
  | thisNucleus :: rest =>
      let weighted_dist := weightedDistanceFromNucleusCenter sqrt userInputs thisNucleus.center
        (userInputs.get_nucleus_freeze_semiaxes thisNucleus.orderParameterIndex)
        (dof.q_points q_point) thisNucleus.orderParameterIndex
      if weighted_dist < 1 ∨
          pointDistance sqrt thisNucleus.center (dof.q_points q_point) <
            diag_dist sqrt userInputs dof.level then
        if dof.level < userInputs.max_refinement_level then true
        else refineNucleusLoop sqrt userInputs dof q_point rest
      else refineNucleusLoop sqrt userInputs dof q_point rest

/-- The loop over the quadrature points still to visit (lines 522 to 554). -/
def refineQuadratureLoop (sqrt : α → α) (userInputs : userInputParameters dim α)
    (newnuclei : List (nucleus dim α)) (dof : Cell dim α) : List Nat → Bool
  | [] => false
  | q_point :: rest =>
      if refineNucleusLoop sqrt userInputs dof q_point newnuclei then true
      else refineQuadratureLoop sqrt userInputs newnuclei dof rest

/-- Whether the body of the cell loop (lines 504 to 559) sets the refine flag of
the cell. -/
def cellRefineFlag (sqrt : α → α) (userInputs : userInputParameters dim α)
    (num_quad_points : Nat) (newnuclei : List (nucleus dim α)) (dof : Cell dim α) : Bool :=
  if dof.is_locally_owned then
    refineQuadratureLoop sqrt userInputs newnuclei dof (List.range num_quad_points)
  else false

/-- The refine flags one round sets, cell by cell. -/
def refineFlags (sqrt : α → α) (userInputs : userInputParameters dim α)
    (num_quad_points : Nat) (newnuclei : List (nucleus dim α))
    (cells : List (Cell dim α)) : List Bool :=
  cells.map (cellRefineFlag sqrt userInputs num_quad_points newnuclei)

/-- The loop bound `max_refinement_level - min_refinement_level` of line 498, a
difference of unsigned 32 bit numbers. -/
def remeshBound (userInputs : userInputParameters dim α) : Nat :=
  (userInputs.max_refinement_level + 2 ^ 32 - userInputs.min_refinement_level) % 2 ^ 32

/-- The remeshing loop of lines 497 to 573 with `remaining` rounds left.
`refine_and_reinit` stands for the calls `AMR.refine_grid(); reinit();` of the
mesh manager: it gets the refine flags and the mesh and returns the new mesh.
The value is the final mesh and, for every round performed, the unknown count
before and after it. -/
def remeshLoop (refine_and_reinit : List Bool → Mesh dim α → Mesh dim α) (sqrt : α → α)
    (userInputs : userInputParameters dim α) (num_quad_points : Nat)
    (newnuclei : List (nucleus dim α)) :
    Nat → Mesh dim α → Nat → Mesh dim α × List (Nat × Nat)
  | 0, mesh, _ => (mesh, [])
  | remaining + 1, mesh, numDoF_preremesh =>
      let refined := refine_and_reinit
        (refineFlags sqrt userInputs num_quad_points newnuclei mesh.cells) mesh
      if refined.totalDOFs = numDoF_preremesh then
        (refined, [(mesh.totalDOFs, refined.totalDOFs)])
      else
        let later := remeshLoop refine_and_reinit sqrt userInputs num_quad_points newnuclei
          remaining refined refined.totalDOFs
        (later.1, (mesh.totalDOFs, refined.totalDOFs) :: later.2)

/-- The method `refineMeshNearNuclei`. -/
def refineMeshNearNuclei (refine_and_reinit : List Bool → Mesh dim α → Mesh dim α)
    (sqrt : α → α) (userInputs : userInputParameters dim α) (num_quad_points : Nat)
    (mesh : Mesh dim α) (newnuclei : List (nucleus dim α)) :
    Mesh dim α × List (Nat × Nat) :=
  remeshLoop refine_and_reinit sqrt userInputs num_quad_points newnuclei
    (remeshBound userInputs) mesh mesh.totalDOFs

/-! ### getNewNuclei and updateNucleiList (source lines 14 to 118) -/

/-- The class `parallelNucleationList` of `nucleation/parallelNucleationList.h`,
which is not part of the translated file: an object of unknown state `σ` built
from the local candidates, and its two methods, each returning the new state of
the object and the list it hands back. -/
structure parallelNucleationList (dim : Nat) (α : Type) (σ : Type) where
  construct : List (nucleus dim α) → σ
  buildGlobalNucleiList : σ → α → α → Nat → σ × List (nucleus dim α)
  removeSubsetOfNuclei : σ → List Nat → Nat → σ × List (nucleus dim α)

/-- What the methods of the solver use besides the inputs: the square root, the
random generator of the pass, the probability law, the distribution of the
constraints over the solution fields (lines 30 to 36), the reconciler and the mesh
manager. -/
structure Collaborators (dim : Nat) (α : Type) (σ : Type) where
  sqrt : α → α
  rand : Nat → α
  getNucleationProbability : variableValueContainer α → α → Point dim α → Nat → α
  distribute : List (Cell dim α) → List (Cell dim α)
  reconciler : parallelNucleationList dim α σ
  refine_and_reinit : List Bool → Mesh dim α → Mesh dim α

/-- The members of the solver that `updateNucleiList` reads and writes. -/
structure Solver (dim : Nat) (α : Type) where
  nuclei : List (nucleus dim α)
  mesh : Mesh dim α
  currentTime : α
  currentIncrement : Nat

/-- The batch that `getNewNuclei` hands to `safetyCheckNewNuclei`: the list
`buildGlobalNucleiList` returns for the local candidates (lines 105 to 109),
together with the state of the reconciler after the call. -/
def reconciledBatch {σ : Type} (ext : Collaborators dim α σ)
    (userInputs : userInputParameters dim α) (nuclei : List (nucleus dim α))
    (local_candidates : List (nucleus dim α)) : σ × List (nucleus dim α) :=
  ext.reconciler.buildGlobalNucleiList (ext.reconciler.construct local_candidates)
    userInputs.min_distance_between_nuclei userInputs.min_distance_between_nuclei_OP
    nuclei.length

/-- The method `getNewNuclei` (lines 91 to 118); it has no result when the local
pass has none. -/
def getNewNuclei {σ : Type} (ext : Collaborators dim α σ)
    (userInputs : userInputParameters dim α) (num_quad_points : Nat)
    (nuclei : List (nucleus dim α)) (cells : List (Cell dim α)) (t : α) (inc : Nat) :
    Option (List (nucleus dim α)) :=
  match getLocalNucleiList ext.rand ext.getNucleationProbability userInputs nuclei t inc
      num_quad_points cells [] with
  | none => none
  | some pass =>
      let built := reconciledBatch ext userInputs nuclei pass.newnuclei
      let conflict_ids :=
        safetyCheckNewNuclei ext.sqrt userInputs num_quad_points cells built.2 []
      some (ext.reconciler.removeSubsetOfNuclei built.1 conflict_ids nuclei.length).2

/-- What a call of `updateNucleiList` did: the solver afterwards, whether
`getNewNuclei` was called, and the rounds of `refineMeshNearNuclei` when it was
called. -/
structure UpdateReport (dim : Nat) (α : Type) where
  solver : Solver dim α
  attempted : Bool
  refinement : Option (List (Nat × Nat))

/-- The method `updateNucleiList` (lines 14 to 86).  The remainder of line 20
has no value when `steps_between_nucleation_attempts` is 0; the model has no
result then, as it has none when `getNewNuclei` has none. -/
def updateNucleiList {σ : Type} (ext : Collaborators dim α σ)
    (userInputs : userInputParameters dim α) (num_quad_points : Nat) (s : Solver dim α) :
    Option (UpdateReport dim α) :=
  if userInputs.nucleation_occurs then
    if userInputs.steps_between_nucleation_attempts = 0 then none
    else if s.currentIncrement % userInputs.steps_between_nucleation_attempts = 0 ∨
        s.currentIncrement = 1 then
      if userInputs.dtValue * (s.currentIncrement : α) ≥ userInputs.nucleation_start_time ∧
          userInputs.dtValue * (s.currentIncrement : α) ≤ userInputs.nucleation_end_time then
        let cells := ext.distribute s.mesh.cells
        match getNewNuclei ext userInputs num_quad_points s.nuclei cells s.currentTime
            s.currentIncrement with
        | none => none
        | some new_nuclei =>
            if new_nuclei.length > 0 ∧ userInputs.h_adaptivity = true then
              let refined := refineMeshNearNuclei ext.refine_and_reinit ext.sqrt userInputs
                num_quad_points { cells := cells, totalDOFs := s.mesh.totalDOFs } new_nuclei
              some { solver := { s with nuclei := s.nuclei ++ new_nuclei, mesh := refined.1 },
                     attempted := true, refinement := some refined.2 }
            else
              some { solver := { s with nuclei := s.nuclei ++ new_nuclei,
                                        mesh := { cells := cells,
                                                  totalDOFs := s.mesh.totalDOFs } },
                     attempted := true, refinement := none }
      else some { solver := s, attempted := false, refinement := none }
    else some { solver := s, attempted := false, refinement := none }
  else some { solver := s, attempted := false, refinement := none }

/-! ### Notions used in the statements below -/

/-- The overlap condition of the specification at one sample point: the weighted
distance from the center of the candidate, with the freeze semiaxes of its order
parameter, is below 1 and the values of all nucleating order parameters at the
point add up to more than 0.1. -/
def overlapAt (sqrt : α → α) (userInputs : userInputParameters dim α)
    (candidate : nucleus dim α) (dof : Cell dim α) (q : Nat) : Prop :=
  weightedDistanceFromNucleusCenter sqrt userInputs candidate.center
      (userInputs.get_nucleus_freeze_semiaxes candidate.orderParameterIndex)
      (dof.q_points q) candidate.orderParameterIndex < 1 ∧
    (userInputs.nucleating_variable_indices.map (fun v => dof.function_values v q)).sum >
      1 / 10

instance overlapAt.instDecidable (sqrt : α → α) (userInputs : userInputParameters dim α)
    (candidate : nucleus dim α) (dof : Cell dim α) (q : Nat) :
    Decidable (overlapAt sqrt userInputs candidate dof q) := by
  unfold overlapAt
  exact inferInstance

/-- Some locally owned cell has a sample point at which the candidate overlaps
transformed material. -/
def overlapsLocally (sqrt : α → α) (userInputs : userInputParameters dim α)
    (num_quad_points : Nat) (cells : List (Cell dim α)) (candidate : nucleus dim α) : Prop :=
  ∃ dof ∈ cells, dof.is_locally_owned = true ∧
    ∃ q ∈ List.range num_quad_points, overlapAt sqrt userInputs candidate dof q

instance overlapsLocally.instDecidable (sqrt : α → α) (userInputs : userInputParameters dim α)
    (num_quad_points : Nat) (cells : List (Cell dim α)) (candidate : nucleus dim α) :
    Decidable (overlapsLocally sqrt userInputs num_quad_points cells candidate) := by
  unfold overlapsLocally
  exact inferInstance

/-- The number of locally owned cells in a list of cells. -/
def ownedCount (cells : List (Cell dim α)) : Nat :=
  (cells.filter (fun dof => dof.is_locally_owned)).length

/-- The sum the cutoff test of `getLocalNucleiList` forms at a sample point, in
closed form: every entry of `nucleation_need_value` adds the value of its field
once for each equal entry of `nucleating_variable_indices`. -/
def matchedChannelSum (userInputs : userInputParameters dim α) (dof : Cell dim α)
    (q : Nat) : α :=
  (userInputs.nucleation_need_value.map
    (fun need => (userInputs.nucleating_variable_indices.count need : α) *
      dof.function_values need q)).sum

/-- The sum of the specification at a sample point: the values of all nucleating
order parameters, each counted once. -/
def allChannelsSum (userInputs : userInputParameters dim α) (dof : Cell dim α)
    (q : Nat) : α :=
  (userInputs.nucleating_variable_indices.dedup.map
    (fun v => dof.function_values v q)).sum

/-- The left side of the ellipsoid equation of the specification: with
`x = R (p - c)`, the sum over the axes of `(x_i / a_i)^2`. -/
def ellipsoidSum (userInputs : userInputParameters dim α) (center : Point dim α)
    (semiaxes : Fin dim → α) (point : Point dim α) (var_index : Nat) : α :=
  Finset.univ.sum (fun i =>
    ((Finset.univ.sum (fun j => userInputs.get_nucleus_rotation_matrix var_index i j *
      (point j - center j))) / semiaxes i) ^ 2)

/-- The marking condition of the specification for a cell: some new nucleus and
some sample point of the cell have weighted distance below 1 or Euclidean
distance below `h / 2`, with `h` the diagonal
`sqrt (sum_i (domain_size_i / subdivisions_i)^2) / 2^l` of a cell at depth `l`. -/
def nearNewNucleus (sqrt : α → α) (userInputs : userInputParameters dim α)
    (num_quad_points : Nat) (newnuclei : List (nucleus dim α)) (dof : Cell dim α) : Prop :=
  ∃ nuc ∈ newnuclei, ∃ q ∈ List.range num_quad_points,
    weightedDistanceFromNucleusCenter sqrt userInputs nuc.center
        (userInputs.get_nucleus_freeze_semiaxes nuc.orderParameterIndex)
        (dof.q_points q) nuc.orderParameterIndex < 1 ∨
      sqrt (Finset.univ.sum (fun i => (nuc.center i - dof.q_points q i) ^ 2)) <
        sqrt (Finset.univ.sum (fun i =>
          (userInputs.domain_size i / (userInputs.subdivisions i : α)) ^ 2)) /
            2 ^ dof.level / 2

instance nearNewNucleus.instDecidable (sqrt : α → α) (userInputs : userInputParameters dim α)
    (num_quad_points : Nat) (newnuclei : List (nucleus dim α)) (dof : Cell dim α) :
    Decidable (nearNewNucleus sqrt userInputs num_quad_points newnuclei dof) := by
  unfold nearNewNucleus
  exact inferInstance

end MatrixFreePDE

/-! ## Concrete inputs -/

namespace Examples

variable (α : Type) [LinearOrderedField α]

/-- Boundary conditions that are periodic on axis 0 and natural elsewhere. -/
def periodicOnAxis0 : varBCs :=
  ⟨fun k => if k < 2 then boundaryType.PERIODIC else boundaryType.NATURAL⟩

/-- Boundary conditions with no periodic face. -/
def nowherePeriodic : varBCs := ⟨fun _ => boundaryType.NATURAL⟩

/-- A plain two dimensional set of inputs: domain 100 by 100, no periodic face,
variable 0 nucleating, border thickness 5, unit semiaxes, no rotation. -/
def plainInputs : userInputParameters 2 α where
  nucleation_occurs := true
  steps_between_nucleation_attempts := 1
  dtValue := 1
  nucleation_start_time := 0
  nucleation_end_time := 1000
  h_adaptivity := false
  min_distance_between_nuclei := 0
  min_distance_between_nuclei_OP := 0
  nucleation_need_value := [0, 167]
  nucleating_variable_indices := [0]
  multiple_nuclei_per_order_parameter := true
  BC_list := fun _ => nowherePeriodic
  domain_size := fun _ => 100
  subdivisions := fun _ => 1
  nucleation_order_parameter_cutoff := 1 / 100
  max_refinement_level := 0
  min_refinement_level := 0
  get_no_nucleation_border_thickness := fun _ => 5
  get_nucleus_semiaxes := fun _ _ => 1
  get_nucleus_freeze_semiaxes := fun _ _ => 1
  get_nucleus_hold_time := fun _ => 1
  get_nucleus_rotation_matrix := fun _ i j => if i = j then 1 else 0

/-- Inputs for the periodic wrap: period 2 on the periodic axis 0, and for
variable 0 the rotation with cosine 3/5 and sine 4/5. -/
def wrapInputs : userInputParameters 2 α :=
  { plainInputs α with
    BC_list := fun _ => periodicOnAxis0
    domain_size := fun _ => 2
    get_nucleus_rotation_matrix := fun _ => ![![3 / 5, -(4 / 5)], ![4 / 5, 3 / 5]] }

/-- The inputs `plainInputs` with multiple nuclei per order parameter disallowed. -/
def uniqueInputs : userInputParameters 2 α :=
  { plainInputs α with multiple_nuclei_per_order_parameter := false }

/-- A candidate with the given id, order parameter and center. -/
def candidate (id op : Nat) (center : Point 2 α) : nucleus 2 α where
  index := id
  center := center
  semiaxes := fun _ => 1
  seededTime := 0
  seedingTime := 1
  seedingTimestep := 1
  orderParameterIndex := op

/-- A locally owned square cell with corners `(x, y)` and `(x + w, y + w)`, its
four sample points at the corners, unit weights, and every field equal to
`value` at every sample point. -/
def squareCell (x y w value : α) : Cell 2 α where
  is_locally_owned := true
  level := 0
  q_points := fun q => ![x + w * ((q % 2 : Nat) : α), y + w * ((q / 2 : Nat) : α)]
  JxW := fun _ => 1
  function_values := fun _ _ => value

/-- The inputs `plainInputs` with variable 1 periodic on axis 0 while the
nucleating variable 0 has no periodic face. -/
def mixedInputs : userInputParameters 2 α :=
  { plainInputs α with
    BC_list := fun v => if v = 1 then periodicOnAxis0 else nowherePeriodic }

/-- The pass of `getLocalNucleiList` before the first cell, with nothing in
`newnuclei`. -/
def freshPass : MatrixFreePDE.LocalPass 2 α where
  newnuclei := []
  draws := 0
  oracle_calls := []

/-- A probability law that returns 1 for a cell whose center lies left of
`x = 60` and 0 for every other cell. -/
def centerOracle : variableValueContainer α → α → Point 2 α → Nat → α :=
  fun _ _ center _ => if center 0 < 60 then 1 else 0

/-- The inputs `plainInputs` with the two nucleating variables 0 and 1 and
multiple nuclei per order parameter disallowed. -/
def twoChannelInputs : userInputParameters 2 α :=
  { plainInputs α with
    nucleating_variable_indices := [0, 1]
    multiple_nuclei_per_order_parameter := false }

/-- A locally owned square cell like `squareCell` whose field `v` has the value
`values v` at every sample point. -/
def fieldCell (x y w : α) (values : Nat → α) : Cell 2 α where
  is_locally_owned := true
  level := 0
  q_points := fun q => ![x + w * ((q % 2 : Nat) : α), y + w * ((q / 2 : Nat) : α)]
  JxW := fun _ => 1
  function_values := fun v _ => values v

/-- The inputs `plainInputs` with refinement levels 0 to 2. -/
def refineInputs : userInputParameters 2 α :=
  { plainInputs α with
    min_refinement_level := 0
    max_refinement_level := 2
    h_adaptivity := true }

/-- A mesh manager that leaves the mesh as it is. -/
def idleManager : List Bool → MatrixFreePDE.Mesh 2 α → MatrixFreePDE.Mesh 2 α :=
  fun _ mesh => mesh

/-- A reconciler for a single process: the object holds the candidates, the
global list is the local one, and removal drops the candidates whose id is
listed. -/
def plainReconciler : MatrixFreePDE.parallelNucleationList 2 α (List (nucleus 2 α)) where
  construct := fun candidates => candidates
  buildGlobalNucleiList := fun held _ _ _ => (held, held)
  removeSubsetOfNuclei := fun held ids _ =>
    (held.filter (fun c => !(ids.contains c.index)),
     held.filter (fun c => !(ids.contains c.index)))

/-- Collaborators for a single process: all draws 1/2, probability 1 everywhere,
constraints that change nothing, the single process reconciler and the idle mesh
manager. -/
def plainCollaborators (sqrt : α → α) :
    MatrixFreePDE.Collaborators 2 α (List (nucleus 2 α)) where
  sqrt := sqrt
  rand := fun _ => 1 / 2
  getNucleationProbability := fun _ _ _ _ => 1
  distribute := fun cells => cells
  reconciler := plainReconciler α
  refine_and_reinit := idleManager α

/-- A solver at increment 1 with no nucleus and a mesh of one cell. -/
def freshSolver : MatrixFreePDE.Solver 2 α where
  nuclei := []
  mesh := { cells := [squareCell α 40 40 20 0], totalDOFs := 9 }
  currentTime := 1
  currentIncrement := 1

/-- The inputs `plainInputs` with only the order parameter 0 among
`nucleation_need_value`. -/
def orderParameterOnlyInputs : userInputParameters 2 α :=
  { plainInputs α with nucleation_need_value := [0] }

end Examples

/-! ## Theorems -/

namespace Cmath

variable {α : Type} [LinearOrderedField α] [FloorRing α]

theorem round_of_lt_half {x : α} (h0 : 0 ≤ x) (h : x < 1 / 2) : round x = 0 := by
  unfold round
  rw [if_pos h0, Int.floor_eq_iff]
  constructor <;> push_cast <;> linarith

theorem round_of_half_le {x : α} (h0 : 1 / 2 ≤ x) (h : x < 1) : round x = 1 := by
  unfold round
  have hx : (0 : α) ≤ x := by linarith
  rw [if_pos hx, Int.floor_eq_iff]
  constructor <;> push_cast <;> linarith

theorem round_neg (x : α) : round (-x) = -round x := by
  unfold round
  rcases lt_trichotomy x 0 with h | h | h
  · have h1 : (0 : α) ≤ -x := by linarith
    have h2 : ¬ (0 : α) ≤ x := not_le.mpr h
    rw [if_pos h1, if_neg h2]
    have e : -x + 1 / 2 = -(x - 1 / 2) := by ring
    rw [e, Int.floor_neg]
  · subst h
    have e : round (0 : α) = 0 := round_of_lt_half le_rfl (by norm_num)
    unfold round at e
    rw [neg_zero, e, neg_zero]
  · have h1 : ¬ (0 : α) ≤ -x := by
      intro hc; linarith
    have h2 : (0 : α) ≤ x := le_of_lt h
    rw [if_neg h1, if_pos h2]
    have e : -x - 1 / 2 = -(x + 1 / 2) := by ring
    rw [e, Int.ceil_neg]

/-- Shifting a displacement by one period leaves its wrapped value unchanged,
away from the half period. -/
theorem wrap_shift {L e : α} (hL : 0 < L) (he : 0 < e) (heL : e < L) (hhalf : e ≠ L / 2) :
    (e - L) - (round ((e - L) / L) : α) * L = e - (round (e / L) : α) * L := by
  have hLne : L ≠ 0 := ne_of_gt hL
  have hx0 : 0 < e / L := div_pos he hL
  have hx1 : e / L < 1 := (div_lt_one hL).mpr heL
  have hsub : (e - L) / L = -(1 - e / L) := by
    field_simp
  rw [hsub, round_neg]
  rcases lt_or_gt_of_ne hhalf with h | h
  · have hx : e / L < 1 / 2 := by
      rw [div_lt_iff₀ hL]; linarith
    rw [round_of_lt_half (le_of_lt hx0) hx,
      round_of_half_le (by linarith) (by linarith)]
    push_cast
    ring
  · have hx : 1 / 2 < e / L := by
      rw [lt_div_iff₀ hL]; linarith
    rw [round_of_half_le (le_of_lt hx) hx1,
      round_of_lt_half (by linarith) (by linarith)]
    push_cast
    ring

end Cmath

namespace MatrixFreePDE

variable {α : Type} [LinearOrderedField α] [FloorRing α] {dim : Nat}

/-- C1. Lane `k` of the vectorized `weightedDistanceFromNucleusCenter` is the
scalar overload at the point held in lane `k`, for every center, semiaxes,
rotation matrix, periodicity, domain size and batch of points. -/
theorem vectorized_lane_eq_scalar (sqrt : α → α) (userInputs : userInputParameters dim α)
    {lanes : Nat} (center : Point dim α) (semiaxes : Fin dim → α)
    (q_point_loc : Fin dim → Fin lanes → α) (var_index : Nat) (k : Fin lanes) :
    weightedDistanceFromNucleusCenterVectorized sqrt userInputs center semiaxes
        q_point_loc var_index k =
      weightedDistanceFromNucleusCenter sqrt userInputs center semiaxes
        (fun j => q_point_loc j k) var_index := by
  unfold weightedDistanceFromNucleusCenterVectorized weightedDistanceFromNucleusCenter
  simp only [Tensor.norm, Tensor.norm_square, Tensor.contract]
  congr 1
  refine Finset.sum_congr rfl (fun i _ => ?_)
  have hrot : ∀ i : Fin dim,
      (Finset.univ.sum fun j => userInputs.get_nucleus_rotation_matrix var_index i j *
        (if (userInputs.BC_list var_index).var_BC_type (2 * j) = boundaryType.PERIODIC then
          fun k => center j - q_point_loc j k -
            (Cmath.round ((center j - q_point_loc j k) / userInputs.domain_size j) : α) *
              userInputs.domain_size j
        else fun k => center j - q_point_loc j k) k) =
      (Finset.univ.sum fun j => userInputs.get_nucleus_rotation_matrix var_index i j *
        (if (userInputs.BC_list var_index).var_BC_type (2 * j) = boundaryType.PERIODIC then
          center j - q_point_loc j k -
            (Cmath.round ((center j - q_point_loc j k) / userInputs.domain_size j) : α) *
              userInputs.domain_size j
        else center j - q_point_loc j k)) := by
    intro i
    refine Finset.sum_congr rfl (fun j _ => ?_)
    split_ifs <;> rfl
  rw [hrot i]

/-- The wrapped displacement the code forms from `center - point` is the
negative of the one formed from `point - center`. -/
theorem wrapped_neg (L : α) (c p : α) :
    (c - p) - (Cmath.round ((c - p) / L) : α) * L =
      -((p - c) - (Cmath.round ((p - c) / L) : α) * L) := by
  have e : (c - p) / L = -((p - c) / L) := by
    rw [← neg_div]; congr 1; ring
  rw [e, Cmath.round_neg]
  push_cast
  ring

/-- C2. The scalar `weightedDistanceFromNucleusCenter` returns the value of the
reference definition of the specification (displacement `point - center`, wrap
on periodic axes, rotate, divide by the semiaxes, Euclidean norm) on every
input, although it starts from `center - point`. -/
theorem scalar_eq_spec (sqrt : α → α) (userInputs : userInputParameters dim α)
    (center : Point dim α) (semiaxes : Fin dim → α) (point : Point dim α)
    (var_index : Nat) :
    weightedDistanceFromNucleusCenter sqrt userInputs center semiaxes point var_index =
      specWeightedDistance sqrt userInputs center semiaxes point var_index := by
  unfold weightedDistanceFromNucleusCenter specWeightedDistance
  simp only [Tensor.norm, Tensor.norm_square, Tensor.contract]
  congr 1
  refine Finset.sum_congr rfl (fun i _ => ?_)
  have hw : ∀ j : Fin dim,
      (if (userInputs.BC_list var_index).var_BC_type (2 * j) = boundaryType.PERIODIC then
          center j - point j -
            (Cmath.round ((center j - point j) / userInputs.domain_size j) : α) *
              userInputs.domain_size j
        else center j - point j) =
      -(if (userInputs.BC_list var_index).var_BC_type (2 * j) = boundaryType.PERIODIC then
          point j - center j -
            (Cmath.round ((point j - center j) / userInputs.domain_size j) : α) *
              userInputs.domain_size j
        else point j - center j) := by
    intro j
    split_ifs
    · exact wrapped_neg _ _ _
    · ring
  have hrot :
      (Finset.univ.sum fun j => userInputs.get_nucleus_rotation_matrix var_index i j *
        (if (userInputs.BC_list var_index).var_BC_type (2 * j) = boundaryType.PERIODIC then
          center j - point j -
            (Cmath.round ((center j - point j) / userInputs.domain_size j) : α) *
              userInputs.domain_size j
        else center j - point j)) =
      -(Finset.univ.sum fun j => userInputs.get_nucleus_rotation_matrix var_index i j *
        (if (userInputs.BC_list var_index).var_BC_type (2 * j) = boundaryType.PERIODIC then
          point j - center j -
            (Cmath.round ((point j - center j) / userInputs.domain_size j) : α) *
              userInputs.domain_size j
        else point j - center j)) := by
    rw [← Finset.sum_neg_distrib]
    refine Finset.sum_congr rfl (fun j _ => ?_)
    rw [hw j]
    ring
  rw [hrot]
  rw [neg_div, neg_mul_neg]

/-- C3 as stated fails at the half period: with period 2 on the periodic axis 0,
center at the origin, the rotation with cosine 3/5 and sine 4/5 and semiaxes
(1, 2), the points (2 - 1, -1) and (-1, -1) get different distances. -/
theorem periodic_wrap_fails_at_half_period :
    ((Examples.wrapInputs ℝ).BC_list 0).var_BC_type (2 * 0) = boundaryType.PERIODIC ∧
    (Examples.wrapInputs ℝ).domain_size 0 = 2 ∧
    weightedDistanceFromNucleusCenter Real.sqrt (Examples.wrapInputs ℝ) (fun _ => 0)
        ![1, 2] ![2 - 1, -1] 0 ≠
      weightedDistanceFromNucleusCenter Real.sqrt (Examples.wrapInputs ℝ) (fun _ => 0)
        ![1, 2] ![-1, -1] 0 := by
  have r1 : Cmath.round (-(1 / 2) : ℝ) = -1 := by
    rw [Cmath.round_neg, Cmath.round_of_half_le le_rfl (by norm_num)]
  have r2 : Cmath.round ((1 / 2) : ℝ) = 1 :=
    Cmath.round_of_half_le le_rfl (by norm_num)
  refine ⟨by decide, rfl, ?_⟩
  have e1 : weightedDistanceFromNucleusCenter Real.sqrt (Examples.wrapInputs ℝ) (fun _ => 0)
        ![1, 2] ![2 - 1, -1] 0 = Real.sqrt (53 / 100) := by
    unfold weightedDistanceFromNucleusCenter
    simp only [Tensor.norm, Tensor.norm_square, Tensor.contract, Fin.sum_univ_two,
      Examples.wrapInputs, Examples.periodicOnAxis0]
    have h0 : ((0 : ℝ) - (2 - 1)) / 2 = -(1 / 2) := by norm_num
    simp only [h0, r1, Matrix.cons_val_zero, Matrix.cons_val_one, Matrix.head_cons,
      Fin.isValue, Fin.val_zero, Fin.val_one, mul_zero, mul_one, Nat.ofNat_pos, if_true,
      lt_self_iff_false, if_false, reduceCtorEq]
    congr 1
    norm_num
  have e2 : weightedDistanceFromNucleusCenter Real.sqrt (Examples.wrapInputs ℝ) (fun _ => 0)
        ![1, 2] ![-1, -1] 0 = Real.sqrt (197 / 100) := by
    unfold weightedDistanceFromNucleusCenter
    simp only [Tensor.norm, Tensor.norm_square, Tensor.contract, Fin.sum_univ_two,
      Examples.wrapInputs, Examples.periodicOnAxis0]
    have h0 : ((0 : ℝ) - -1) / 2 = 1 / 2 := by norm_num
    simp only [h0, r2, Matrix.cons_val_zero, Matrix.cons_val_one, Matrix.head_cons,
      Fin.isValue, Fin.val_zero, Fin.val_one, mul_zero, mul_one, Nat.ofNat_pos, if_true,
      lt_self_iff_false, if_false, reduceCtorEq]
    congr 1
    norm_num
  rw [e1, e2]
  intro h
  have h2 := (Real.sqrt_inj (by norm_num) (by norm_num)).mp h
  norm_num at h2

/-- C3, amended. On a periodic axis `i` of extent `L > 0`, with the center at the
origin, two points that agree on every other coordinate and have coordinate
`L - e` and `-e` on axis `i` get the same distance for every `e` with
`0 < e < L` other than the half period `L / 2`, whatever the rotation and the
semiaxes are. -/
theorem periodic_wrap_off_half_period (sqrt : α → α) (userInputs : userInputParameters dim α)
    (semiaxes : Fin dim → α) (var_index : Nat) (i : Fin dim) (L e : α) (p q : Point dim α)
    (hper : (userInputs.BC_list var_index).var_BC_type (2 * i) = boundaryType.PERIODIC)
    (hL : userInputs.domain_size i = L) (hLpos : 0 < L)
    (he : 0 < e) (heL : e < L) (hhalf : e ≠ L / 2)
    (hp : p i = L - e) (hq : q i = -e) (hrest : ∀ j, j ≠ i → p j = q j) :
    weightedDistanceFromNucleusCenter sqrt userInputs (fun _ => 0) semiaxes p var_index =
      weightedDistanceFromNucleusCenter sqrt userInputs (fun _ => 0) semiaxes q var_index := by
  have hw : ∀ j : Fin dim,
      (if (userInputs.BC_list var_index).var_BC_type (2 * j) = boundaryType.PERIODIC then
          (0 : α) - p j -
            (Cmath.round (((0 : α) - p j) / userInputs.domain_size j) : α) *
              userInputs.domain_size j
        else (0 : α) - p j) =
      (if (userInputs.BC_list var_index).var_BC_type (2 * j) = boundaryType.PERIODIC then
          (0 : α) - q j -
            (Cmath.round (((0 : α) - q j) / userInputs.domain_size j) : α) *
              userInputs.domain_size j
        else (0 : α) - q j) := by
    intro j
    by_cases hj : j = i
    · subst hj
      rw [if_pos hper, if_pos hper, hp, hq, hL]
      have e1 : (0 : α) - (L - e) = e - L := by ring
      have e2 : (0 : α) - -e = e := by ring
      rw [e1, e2]
      exact Cmath.wrap_shift hLpos he heL hhalf
    · rw [hrest j hj]
  unfold weightedDistanceFromNucleusCenter
  simp only [hw]

/-- The amended C3 at period 2, `e = 1 / 2`, the rotation with cosine 3/5 and sine
4/5 and semiaxes (1, 2). -/
theorem periodic_wrap_off_half_period_witness :
    weightedDistanceFromNucleusCenter Real.sqrt (Examples.wrapInputs ℝ) (fun _ => 0)
        ![1, 2] ![2 - 1 / 2, -1] 0 =
      weightedDistanceFromNucleusCenter Real.sqrt (Examples.wrapInputs ℝ) (fun _ => 0)
        ![1, 2] ![-(1 / 2), -1] 0 :=
  periodic_wrap_off_half_period Real.sqrt (Examples.wrapInputs ℝ) ![1, 2] 0 0 2 (1 / 2)
    ![2 - 1 / 2, -1] ![-(1 / 2), -1] (by decide) rfl (by norm_num) (by norm_num)
    (by norm_num) (by norm_num) (by simp) (by simp)
    (fun j hj => by
      have h1 : j = 1 := by
        fin_cases j
        · exact absurd rfl hj
        · rfl
      subst h1
      simp)

/-- C4, the code at a failing input. With multiple nuclei per order parameter
disallowed and no cell to scan, the batch of candidate 0 with order parameter 3
and candidate 1 with order parameter 5 has both ids put into `conflict_ids`,
although the two order parameters differ. -/
theorem uniqueness_flags_distinct_order_parameters :
    safetyCheckNewNuclei Real.sqrt (Examples.uniqueInputs ℝ) 4 []
      [Examples.candidate ℝ 0 3 ![20, 20], Examples.candidate ℝ 1 5 ![70, 70]] [] = [0, 1] := by
  simp [safetyCheckNewNuclei, uniquenessPass, uniquenessInner, Examples.uniqueInputs,
    Examples.plainInputs, Examples.candidate, elementCycle]

omit [FloorRing α] in
theorem overlapSumOp_eq_sum (userInputs : userInputParameters dim α) (dof : Cell dim α)
    (q : Nat) :
    overlapSumOp userInputs dof q =
      (userInputs.nucleating_variable_indices.map (fun v => dof.function_values v q)).sum := by
  unfold overlapSumOp
  have h : ∀ (l : List Nat) (a : α),
      l.foldl (fun sum_op v => sum_op + dof.function_values v q) a =
        a + (l.map (fun v => dof.function_values v q)).sum := by
    intro l
    induction l with
    | nil => intro a; simp
    | cons v l ih => intro a; simp [List.foldl_cons, ih, add_assoc]
  rw [h, zero_add]

theorem quadratureCycle_eq (sqrt : α → α) (userInputs : userInputParameters dim α)
    (thisNucleus : nucleus dim α) (dof : Cell dim α) (qs : List Nat) (st : Bool × List Nat) :
    quadratureCycle sqrt userInputs thisNucleus dof qs st =
      if ∃ q ∈ qs, overlapAt sqrt userInputs thisNucleus dof q then
        (true, st.2 ++ [thisNucleus.index])
      else st := by
  induction qs with
  | nil => simp [quadratureCycle]
  | cons q qs ih =>
    unfold quadratureCycle
    by_cases hq : overlapAt sqrt userInputs thisNucleus dof q
    · have hq2 := hq
      unfold overlapAt at hq2
      rw [← overlapSumOp_eq_sum] at hq2
      simp only [if_pos hq2.1, if_pos hq2.2]
      rw [if_pos ⟨q, List.mem_cons_self _ _, hq⟩]
    · have hex : (∃ q2 ∈ q :: qs, overlapAt sqrt userInputs thisNucleus dof q2) ↔
          ∃ q2 ∈ qs, overlapAt sqrt userInputs thisNucleus dof q2 := by
        constructor
        · rintro ⟨q2, hm, h2⟩
          rcases List.mem_cons.mp hm with rfl | hm2
          · exact absurd h2 hq
          · exact ⟨q2, hm2, h2⟩
        · rintro ⟨q2, hm, h2⟩
          exact ⟨q2, List.mem_cons_of_mem _ hm, h2⟩
      have hq2 := hq
      unfold overlapAt at hq2
      rw [← overlapSumOp_eq_sum] at hq2
      rw [if_congr hex rfl rfl, ← ih]
      by_cases hd : weightedDistanceFromNucleusCenter sqrt userInputs thisNucleus.center
          (userInputs.get_nucleus_freeze_semiaxes thisNucleus.orderParameterIndex)
          (dof.q_points q) thisNucleus.orderParameterIndex < 1
      · have hs : ¬ overlapSumOp userInputs dof q > 1 / 10 := fun h => hq2 ⟨hd, h⟩
        simp only [if_pos hd, if_neg hs]
      · simp only [if_neg hd]

theorem elementCycle_eq (sqrt : α → α) (userInputs : userInputParameters dim α)
    (num_quad_points : Nat) (thisNucleus : nucleus dim α) (cells : List (Cell dim α))
    (ids : List Nat) :
    elementCycle sqrt userInputs num_quad_points thisNucleus cells (false, ids) =
      if overlapsLocally sqrt userInputs num_quad_points cells thisNucleus then
        (true, ids ++ [thisNucleus.index])
      else (false, ids) := by
  induction cells with
  | nil => simp [elementCycle, overlapsLocally]
  | cons dof cells ih =>
    unfold elementCycle
    by_cases ho : dof.is_locally_owned = true
    · simp only [if_pos ho, quadratureCycle_eq]
      by_cases hq : ∃ q ∈ List.range num_quad_points, overlapAt sqrt userInputs thisNucleus dof q
      · have hl : overlapsLocally sqrt userInputs num_quad_points (dof :: cells) thisNucleus :=
          ⟨dof, List.mem_cons_self _ _, ho, hq⟩
        simp only [if_pos hq, if_pos hl, if_true]
      · have hl : overlapsLocally sqrt userInputs num_quad_points (dof :: cells) thisNucleus ↔
            overlapsLocally sqrt userInputs num_quad_points cells thisNucleus := by
          constructor
          · rintro ⟨d, hm, hd⟩
            rcases List.mem_cons.mp hm with rfl | hm2
            · exact absurd hd.2 hq
            · exact ⟨d, hm2, hd⟩
          · rintro ⟨d, hm, hd⟩
            exact ⟨d, List.mem_cons_of_mem _ hm, hd⟩
        simp only [if_neg hq, Bool.false_eq_true, if_false, ih, if_congr hl rfl rfl]
    · have hl : overlapsLocally sqrt userInputs num_quad_points (dof :: cells) thisNucleus ↔
          overlapsLocally sqrt userInputs num_quad_points cells thisNucleus := by
        constructor
        · rintro ⟨d, hm, hd⟩
          rcases List.mem_cons.mp hm with rfl | hm2
          · exact absurd hd.1 ho
          · exact ⟨d, hm2, hd⟩
        · rintro ⟨d, hm, hd⟩
          exact ⟨d, List.mem_cons_of_mem _ hm, hd⟩
      simp only [if_neg ho, ih, if_congr hl rfl rfl]

theorem nucleusCycle_eq (sqrt : α → α) (userInputs : userInputParameters dim α)
    (num_quad_points : Nat) (cells : List (Cell dim α)) (newnuclei : List (nucleus dim α))
    (ids : List Nat) :
    newnuclei.foldl
        (fun ids thisNucleus =>
          (elementCycle sqrt userInputs num_quad_points thisNucleus cells (false, ids)).2)
        ids =
      ids ++ (newnuclei.filter
        (fun c => decide (overlapsLocally sqrt userInputs num_quad_points cells c))).map
          nucleus.index := by
  induction newnuclei generalizing ids with
  | nil => simp
  | cons c rest ih =>
    rw [List.foldl_cons, ih, elementCycle_eq]
    by_cases h : overlapsLocally sqrt userInputs num_quad_points cells c
    · simp [h, List.filter_cons]
    · simp [h, List.filter_cons]

/-- C5. With multiple nuclei per order parameter allowed, `safetyCheckNewNuclei`
appends to `conflict_ids` exactly the ids of the candidates that overlap
transformed material at some sample point of some locally owned cell (weighted
distance with the freeze semiaxes below 1 and sum of the nucleating order
parameters above 0.1), in batch order and once per candidate; a candidate with no
such sample point adds nothing. -/
theorem safetyCheck_overlap_ids (sqrt : α → α) (userInputs : userInputParameters dim α)
    (num_quad_points : Nat) (cells : List (Cell dim α)) (newnuclei : List (nucleus dim α))
    (conflict_ids : List Nat)
    (hmulti : userInputs.multiple_nuclei_per_order_parameter = true) :
    safetyCheckNewNuclei sqrt userInputs num_quad_points cells newnuclei conflict_ids =
      conflict_ids ++ (newnuclei.filter
        (fun c => decide (overlapsLocally sqrt userInputs num_quad_points cells c))).map
          nucleus.index := by
  unfold safetyCheckNewNuclei
  simp only [hmulti, Bool.not_true, Bool.false_eq_true, if_false]
  exact nucleusCycle_eq sqrt userInputs num_quad_points cells newnuclei conflict_ids

/-- C5 at a concrete batch: a candidate centered on a sample point where the
nucleating field is 1 is flagged, once. -/
theorem safetyCheck_overlap_ids_witness :
    safetyCheckNewNuclei Real.sqrt (Examples.plainInputs ℝ) 4
      [Examples.squareCell ℝ 19 19 2 1] [Examples.candidate ℝ 0 0 ![19, 19]] [] = [0] := by
  have h := safetyCheck_overlap_ids Real.sqrt (Examples.plainInputs ℝ) 4
    [Examples.squareCell ℝ 19 19 2 1] [Examples.candidate ℝ 0 0 ![19, 19]] [] rfl
  have hov : overlapsLocally Real.sqrt (Examples.plainInputs ℝ) 4
      [Examples.squareCell ℝ 19 19 2 1] (Examples.candidate ℝ 0 0 ![19, 19]) := by
    refine ⟨_, List.mem_singleton.mpr rfl, rfl, 0, by simp, ?_, ?_⟩
    · simp [weightedDistanceFromNucleusCenter, Tensor.norm, Tensor.norm_square,
        Tensor.contract, Fin.sum_univ_two, Examples.plainInputs, Examples.nowherePeriodic,
        Examples.squareCell, Examples.candidate]
    · simp [Examples.plainInputs, Examples.squareCell]
      norm_num
  rw [h, List.filter_cons, decide_eq_true hov]
  rfl

end MatrixFreePDE

namespace MatrixFreePDE

variable {α : Type} [LinearOrderedField α] {dim : Nat}

theorem foldl_and_eq_true {β : Type} (f : β → Bool) (l : List β) (b : Bool) :
    l.foldl (fun safe j => safe && f j) b = true ↔ b = true ∧ ∀ j ∈ l, f j = true := by
  induction l generalizing b with
  | nil => simp
  | cons a l ih =>
    rw [List.foldl_cons, ih]
    simp only [Bool.and_eq_true, List.mem_cons, forall_eq_or_imp]
    tauto

theorem insafetyzone_iff (userInputs : userInputParameters dim α) (variable_index : Nat)
    (pos : Point dim α) :
    insafetyzone userInputs variable_index pos = true ↔
      ∀ j, insafetyzone_j userInputs variable_index pos j = true := by
  unfold insafetyzone
  rw [foldl_and_eq_true]
  simp

/-- C6 as stated fails on the margin: with border thickness 5 on a non-periodic
axis of extent 100 the position with coordinate exactly 5 is rejected, and so is
the one with coordinate exactly 95. -/
theorem border_margin_is_rejected :
    ((Examples.plainInputs ℚ).BC_list 1).var_BC_type (2 * 0) ≠ boundaryType.PERIODIC ∧
    (Examples.plainInputs ℚ).get_no_nucleation_border_thickness 0 = 5 ∧
    (Examples.plainInputs ℚ).domain_size 0 = 100 ∧
    insafetyzone_j (Examples.plainInputs ℚ) 0 ![5, 50] 0 = false ∧
    insafetyzone_j (Examples.plainInputs ℚ) 0 ![95, 50] 0 = false := by
  refine ⟨by decide, rfl, rfl, ?_, ?_⟩
  · simp [insafetyzone_j, Examples.plainInputs, Examples.nowherePeriodic]
  · simp [insafetyzone_j, Examples.plainInputs, Examples.nowherePeriodic]
    norm_num

/-- C6, amended. On an axis `j` that is periodic neither for the nucleated
variable nor for variable 1, with border thickness `b` and domain size `L_j`, a
sampled position passes the safety zone check of `getLocalNucleiList` if and only
if `b < x_j < L_j - b`: a position at exactly distance `b` from either edge is
rejected, like every position closer than `b` to an edge. -/
theorem insafetyzone_j_iff_strictly_inside (userInputs : userInputParameters dim α)
    (variable_index : Nat) (pos : Point dim α) (j : Fin dim)
    (_hvar : (userInputs.BC_list variable_index).var_BC_type (2 * j) ≠ boundaryType.PERIODIC)
    (hone : (userInputs.BC_list 1).var_BC_type (2 * j) ≠ boundaryType.PERIODIC) :
    insafetyzone_j userInputs variable_index pos j = true ↔
      userInputs.get_no_nucleation_border_thickness variable_index < pos j ∧
        pos j < userInputs.domain_size j -
          userInputs.get_no_nucleation_border_thickness variable_index := by
  unfold insafetyzone_j
  simp [hone]

/-- The amended C6 on the domain of extent 100 with border thickness 5: the
coordinate 6 passes the check. -/
theorem insafetyzone_j_iff_strictly_inside_witness :
    insafetyzone_j (Examples.plainInputs ℚ) 0 ![6, 50] 0 = true :=
  (insafetyzone_j_iff_strictly_inside (Examples.plainInputs ℚ) 0 ![6, 50] 0
    (by decide) (by decide)).mpr
    ⟨by simp [Examples.plainInputs]; norm_num, by simp [Examples.plainInputs]; norm_num⟩

/-! ### The pass of getLocalNucleiList -/

theorem averagedValues_entries_fst (userInputs : userInputParameters dim α)
    (num_quad_points : Nat) (dof : Cell dim α) :
    (averagedValues userInputs num_quad_points dof).entries.map Prod.fst =
      userInputs.nucleation_need_value := by
  unfold averagedValues
  have h : ∀ (l : List Nat) (c : variableValueContainer α),
      (l.foldl
        (fun variable_values v =>
          variable_values.set v
            ((List.range num_quad_points).foldl
              (fun acc q_point => acc + dof.function_values v q_point * dof.JxW q_point) 0 /
              element_volume num_quad_points dof)) c).entries.map Prod.fst =
        c.entries.map Prod.fst ++ l := by
    intro l
    induction l with
    | nil => intro c; simp
    | cons v l ih =>
      intro c
      rw [List.foldl_cons, ih]
      simp [variableValueContainer.set]
  rw [h]
  simp [variableValueContainer.empty]

theorem container_get_isSome_iff {β : Type} (c : variableValueContainer β) (v : Nat) :
    (c.get v).isSome = true ↔ v ∈ c.entries.map Prod.fst := by
  unfold variableValueContainer.get
  have h : (Option.map Prod.snd (List.find? (fun e => e.1 == v) c.entries)).isSome =
      (List.find? (fun e => e.1 == v) c.entries).isSome := by
    cases List.find? (fun e => e.1 == v) c.entries <;> rfl
  rw [h, List.find?_isSome]
  simp only [List.mem_map]
  constructor
  · rintro ⟨e, he, hv⟩
    exact ⟨e, he, by simpa using hv⟩
  · rintro ⟨e, he, hv⟩
    exact ⟨e, he, by simpa using hv⟩

theorem averagedValues_get_isSome_iff (userInputs : userInputParameters dim α)
    (num_quad_points : Nat) (dof : Cell dim α) (v : Nat) :
    ((averagedValues userInputs num_quad_points dof).get v).isSome = true ↔
      v ∈ userInputs.nucleation_need_value := by
  rw [container_get_isSome_iff, averagedValues_entries_fst]

theorem cellStep_of_lookup (rand : Nat → α)
    (getNucleationProbability : variableValueContainer α → α → Point dim α → Nat → α)
    (userInputs : userInputParameters dim α) (nuclei : List (nucleus dim α)) (t : α)
    (inc : Nat) (num_quad_points : Nat) (s : LocalPass dim α) (dof : Cell dim α)
    (hneed : 167 ∈ userInputs.nucleation_need_value) :
    cellStep rand getNucleationProbability userInputs nuclei t inc num_quad_points s dof =
      some (if dof.is_locally_owned = true then
        channelLoop rand getNucleationProbability userInputs nuclei t inc num_quad_points dof s
      else s) := by
  unfold cellStep
  have h := (averagedValues_get_isSome_iff userInputs num_quad_points dof 167).mpr hneed
  obtain ⟨x, hx⟩ := Option.isSome_iff_exists.mp h
  by_cases ho : dof.is_locally_owned = true
  · simp only [if_pos ho]
    have e : (83 + 83 + 1 : Nat) = 167 := rfl
    rw [e, hx]
  · simp only [if_neg ho]

theorem foldlM_cellStep_of_lookup (rand : Nat → α)
    (getNucleationProbability : variableValueContainer α → α → Point dim α → Nat → α)
    (userInputs : userInputParameters dim α) (nuclei : List (nucleus dim α)) (t : α)
    (inc : Nat) (num_quad_points : Nat) (cells : List (Cell dim α)) (s : LocalPass dim α)
    (hneed : 167 ∈ userInputs.nucleation_need_value) :
    cells.foldlM
        (cellStep rand getNucleationProbability userInputs nuclei t inc num_quad_points) s =
      some (passOver rand getNucleationProbability userInputs nuclei t inc num_quad_points
        cells s) := by
  induction cells generalizing s with
  | nil => rfl
  | cons dof cells ih =>
    rw [List.foldlM_cons, cellStep_of_lookup _ _ _ _ _ _ _ _ _ hneed]
    simp only [Option.some_bind, Option.bind_eq_bind]
    rw [ih]
    rfl

theorem getLocalNucleiList_of_lookup (rand : Nat → α)
    (getNucleationProbability : variableValueContainer α → α → Point dim α → Nat → α)
    (userInputs : userInputParameters dim α) (nuclei : List (nucleus dim α)) (t : α)
    (inc : Nat) (num_quad_points : Nat) (cells : List (Cell dim α))
    (newnuclei : List (nucleus dim α))
    (hneed : 167 ∈ userInputs.nucleation_need_value) :
    getLocalNucleiList rand getNucleationProbability userInputs nuclei t inc num_quad_points
        cells newnuclei =
      some (passOver rand getNucleationProbability userInputs nuclei t inc num_quad_points
        cells { newnuclei := newnuclei, draws := 0, oracle_calls := [] }) := by
  unfold getLocalNucleiList
  exact foldlM_cellStep_of_lookup _ _ _ _ _ _ _ _ _ hneed

theorem range_four : List.range 4 = [0, 1, 2, 3] := rfl

theorem finRange_two : List.finRange 2 = [0, 1] := rfl

theorem boxSweep_fst (num_quad_points : Nat) (dof : Cell dim α)
    (box : (Fin dim → α) × (Fin dim → α)) (i : Fin dim) :
    (boxSweep num_quad_points dof box).1 i =
      (List.range num_quad_points).foldl (fun m q => min m (dof.q_points q i)) (box.1 i) := by
  unfold boxSweep
  generalize List.range num_quad_points = l
  induction l generalizing box with
  | nil => rfl
  | cons q l ih =>
    rw [List.foldl_cons, List.foldl_cons, ih]
    congr 1
    show (if dof.q_points q i < box.1 i then dof.q_points q i else box.1 i) = _
    rcases lt_or_le (dof.q_points q i) (box.1 i) with h | h
    · rw [if_pos h, min_eq_right (le_of_lt h)]
    · rw [if_neg (not_lt.mpr h), min_eq_left h]

theorem boxSweep_snd (num_quad_points : Nat) (dof : Cell dim α)
    (box : (Fin dim → α) × (Fin dim → α)) (i : Fin dim) :
    (boxSweep num_quad_points dof box).2 i =
      (List.range num_quad_points).foldl (fun m q => max m (dof.q_points q i)) (box.2 i) := by
  unfold boxSweep
  generalize List.range num_quad_points = l
  induction l generalizing box with
  | nil => rfl
  | cons q l ih =>
    rw [List.foldl_cons, List.foldl_cons, ih]
    congr 1
    show (if dof.q_points q i > box.2 i then dof.q_points q i else box.2 i) = _
    rcases lt_or_le (box.2 i) (dof.q_points q i) with h | h
    · rw [if_pos h, max_eq_right (le_of_lt h)]
    · rw [if_neg (not_lt.mpr h), max_eq_left h]

theorem ele_box_squareCell (x y w value : α) (hw : 0 ≤ w) :
    ele_box 4 (Examples.squareCell α x y w value) = (![x, y], ![x + w, y + w]) := by
  unfold ele_box
  rw [finRange_two]
  simp only [List.foldl_cons, List.foldl_nil]
  refine Prod.ext ?_ ?_
  · funext i
    rw [boxSweep_fst, boxSweep_fst, range_four]
    fin_cases i <;> simp [Examples.squareCell, hw]
  · funext i
    rw [boxSweep_snd, boxSweep_snd, range_four]
    fin_cases i <;> simp [Examples.squareCell, hw]

theorem attempt_rejected (rand : Nat → α)
    (getNucleationProbability : variableValueContainer α → α → Point dim α → Nat → α)
    (userInputs : userInputParameters dim α) (nuclei : List (nucleus dim α)) (t : α)
    (inc : Nat) (num_quad_points : Nat) (dof : Cell dim α) (variable_index : Nat)
    (s : LocalPass dim α)
    (hrun : numbercurrnuclei nuclei variable_index = 0 ∨
      userInputs.multiple_nuclei_per_order_parameter = true)
    (hr : ¬ rand s.draws ≤ getNucleationProbability
      (averagedValues userInputs num_quad_points dof) (element_volume num_quad_points dof)
      (ele_center num_quad_points dof) variable_index) :
    nucleationAttempt rand getNucleationProbability userInputs nuclei t inc num_quad_points
        dof variable_index s =
      { newnuclei := s.newnuclei, draws := s.draws + 1,
        oracle_calls := s.oracle_calls ++ [variable_index] } := by
  unfold nucleationAttempt
  simp only [if_pos hrun, if_neg hr]

theorem attempt_accepted (rand : Nat → α)
    (getNucleationProbability : variableValueContainer α → α → Point dim α → Nat → α)
    (userInputs : userInputParameters dim α) (nuclei : List (nucleus dim α)) (t : α)
    (inc : Nat) (num_quad_points : Nat) (dof : Cell dim α) (variable_index : Nat)
    (s : LocalPass dim α)
    (hrun : numbercurrnuclei nuclei variable_index = 0 ∨
      userInputs.multiple_nuclei_per_order_parameter = true)
    (hr : rand s.draws ≤ getNucleationProbability
      (averagedValues userInputs num_quad_points dof) (element_volume num_quad_points dof)
      (ele_center num_quad_points dof) variable_index) :
    nucleationAttempt rand getNucleationProbability userInputs nuclei t inc num_quad_points
        dof variable_index s =
      { newnuclei :=
          if insafetyzone userInputs variable_index
                (nuc_ele_pos rand num_quad_points dof (s.draws + 1)) = true ∧
              anyqp_OK userInputs num_quad_points dof = true then
            s.newnuclei ++ [prospectiveNucleus userInputs nuclei t inc variable_index
              (nuc_ele_pos rand num_quad_points dof (s.draws + 1))]
          else s.newnuclei,
        draws := s.draws + 1 + dim,
        oracle_calls := s.oracle_calls ++ [variable_index] } := by
  unfold nucleationAttempt
  simp only [if_pos hrun, if_pos hr, placeNucleus]
  by_cases h1 : insafetyzone userInputs variable_index
      (nuc_ele_pos rand num_quad_points dof (s.draws + 1)) = true
  · by_cases h2 : anyqp_OK userInputs num_quad_points dof = true
    · rw [if_pos h1, if_pos h2, if_pos ⟨h1, h2⟩]
    · rw [if_pos h1, if_neg h2, if_neg (fun h => h2 h.2)]
  · rw [if_neg h1, if_neg (fun h => h1 h.1)]

theorem attempt_skipped (rand : Nat → α)
    (getNucleationProbability : variableValueContainer α → α → Point dim α → Nat → α)
    (userInputs : userInputParameters dim α) (nuclei : List (nucleus dim α)) (t : α)
    (inc : Nat) (num_quad_points : Nat) (dof : Cell dim α) (variable_index : Nat)
    (s : LocalPass dim α)
    (hrun : ¬ (numbercurrnuclei nuclei variable_index = 0 ∨
      userInputs.multiple_nuclei_per_order_parameter = true)) :
    nucleationAttempt rand getNucleationProbability userInputs nuclei t inc num_quad_points
        dof variable_index s = s := by
  unfold nucleationAttempt
  simp only [if_neg hrun]

/-- Whatever an attempt does, it leaves `newnuclei` alone or pushes one record
built by `prospectiveNucleus` for its order parameter. -/
theorem attempt_newnuclei (rand : Nat → α)
    (getNucleationProbability : variableValueContainer α → α → Point dim α → Nat → α)
    (userInputs : userInputParameters dim α) (nuclei : List (nucleus dim α)) (t : α)
    (inc : Nat) (num_quad_points : Nat) (dof : Cell dim α) (variable_index : Nat)
    (s : LocalPass dim α) :
    (nucleationAttempt rand getNucleationProbability userInputs nuclei t inc num_quad_points
        dof variable_index s).newnuclei = s.newnuclei ∨
    ∃ pos, (nucleationAttempt rand getNucleationProbability userInputs nuclei t inc
        num_quad_points dof variable_index s).newnuclei =
      s.newnuclei ++ [prospectiveNucleus userInputs nuclei t inc variable_index pos] := by
  by_cases hrun : numbercurrnuclei nuclei variable_index = 0 ∨
      userInputs.multiple_nuclei_per_order_parameter = true
  · by_cases hr : rand s.draws ≤ getNucleationProbability
        (averagedValues userInputs num_quad_points dof) (element_volume num_quad_points dof)
        (ele_center num_quad_points dof) variable_index
    · rw [attempt_accepted _ _ _ _ _ _ _ _ _ _ hrun hr]
      by_cases hc : insafetyzone userInputs variable_index
                (nuc_ele_pos rand num_quad_points dof (s.draws + 1)) = true ∧
              anyqp_OK userInputs num_quad_points dof = true
      · right
        exact ⟨nuc_ele_pos rand num_quad_points dof (s.draws + 1), by simp only [if_pos hc]⟩
      · left
        simp only [if_neg hc]
    · left
      rw [attempt_rejected _ _ _ _ _ _ _ _ _ _ hrun hr]
  · left
    rw [attempt_skipped _ _ _ _ _ _ _ _ _ _ hrun]

/-- A property of nuclei that every record built by `prospectiveNucleus` has is
kept by the loop over the order parameters. -/
theorem channelLoop_keeps (Q : nucleus dim α → Prop) (rand : Nat → α)
    (getNucleationProbability : variableValueContainer α → α → Point dim α → Nat → α)
    (userInputs : userInputParameters dim α) (nuclei : List (nucleus dim α)) (t : α)
    (inc : Nat) (num_quad_points : Nat) (dof : Cell dim α)
    (hQ : ∀ v pos, Q (prospectiveNucleus userInputs nuclei t inc v pos))
    (s : LocalPass dim α) (hs : ∀ c ∈ s.newnuclei, Q c) :
    ∀ c ∈ (channelLoop rand getNucleationProbability userInputs nuclei t inc
      num_quad_points dof s).newnuclei, Q c := by
  unfold channelLoop
  generalize userInputs.nucleating_variable_indices = l
  induction l generalizing s with
  | nil => exact hs
  | cons v l ih =>
    rw [List.foldl_cons]
    apply ih
    rcases attempt_newnuclei rand getNucleationProbability userInputs nuclei t inc
      num_quad_points dof v s with h | ⟨pos, h⟩
    · rw [h]; exact hs
    · rw [h]
      intro c hc
      rcases List.mem_append.mp hc with h1 | h1
      · exact hs c h1
      · rw [List.mem_singleton.mp h1]; exact hQ v pos

theorem cellStep_keeps (Q : nucleus dim α → Prop) (rand : Nat → α)
    (getNucleationProbability : variableValueContainer α → α → Point dim α → Nat → α)
    (userInputs : userInputParameters dim α) (nuclei : List (nucleus dim α)) (t : α)
    (inc : Nat) (num_quad_points : Nat) (dof : Cell dim α)
    (hQ : ∀ v pos, Q (prospectiveNucleus userInputs nuclei t inc v pos))
    (s s2 : LocalPass dim α) (hs : ∀ c ∈ s.newnuclei, Q c)
    (hstep : cellStep rand getNucleationProbability userInputs nuclei t inc num_quad_points
      s dof = some s2) :
    ∀ c ∈ s2.newnuclei, Q c := by
  unfold cellStep at hstep
  by_cases ho : dof.is_locally_owned = true
  · rw [if_pos ho] at hstep
    cases hg : (averagedValues userInputs num_quad_points dof).get (83 + 83 + 1) with
    | none => rw [hg] at hstep; exact absurd hstep (by simp)
    | some x =>
      rw [hg] at hstep
      have e := Option.some.inj hstep
      rw [← e]
      exact channelLoop_keeps Q rand getNucleationProbability userInputs nuclei t inc
        num_quad_points dof hQ s hs
  · rw [if_neg ho] at hstep
    have e := Option.some.inj hstep
    rw [← e]; exact hs

theorem foldlM_cellStep_keeps (Q : nucleus dim α → Prop) (rand : Nat → α)
    (getNucleationProbability : variableValueContainer α → α → Point dim α → Nat → α)
    (userInputs : userInputParameters dim α) (nuclei : List (nucleus dim α)) (t : α)
    (inc : Nat) (num_quad_points : Nat)
    (hQ : ∀ v pos, Q (prospectiveNucleus userInputs nuclei t inc v pos))
    (cells : List (Cell dim α)) (s s2 : LocalPass dim α) (hs : ∀ c ∈ s.newnuclei, Q c)
    (hpass : cells.foldlM
      (cellStep rand getNucleationProbability userInputs nuclei t inc num_quad_points) s =
        some s2) :
    ∀ c ∈ s2.newnuclei, Q c := by
  induction cells generalizing s with
  | nil =>
    have e : s = s2 := Option.some.inj hpass
    rw [← e]; exact hs
  | cons dof cells ih =>
    rw [List.foldlM_cons] at hpass
    cases hstep : cellStep rand getNucleationProbability userInputs nuclei t inc
        num_quad_points s dof with
    | none => rw [hstep] at hpass; exact absurd hpass (by simp)
    | some s1 =>
      rw [hstep] at hpass
      exact ih s1 (cellStep_keeps Q rand getNucleationProbability userInputs nuclei t inc
        num_quad_points dof hQ s s1 hs hstep) hpass

theorem insafetyzone_two (userInputs : userInputParameters 2 α) (variable_index : Nat)
    (pos : Point 2 α) :
    insafetyzone userInputs variable_index pos = true ↔
      insafetyzone_j userInputs variable_index pos 0 = true ∧
        insafetyzone_j userInputs variable_index pos 1 = true := by
  rw [insafetyzone_iff]
  constructor
  · intro h; exact ⟨h 0, h 1⟩
  · rintro ⟨h0, h1⟩ j
    fin_cases j
    · exact h0
    · exact h1

theorem pos_squareCell (rand : Nat → α) (x y w value : α) (hw : 0 ≤ w) (draws : Nat) :
    nuc_ele_pos rand 4 (Examples.squareCell α x y w value) draws =
      ![x + w * rand draws, y + w * rand (draws + 1)] := by
  funext j
  unfold nuc_ele_pos
  rw [ele_box_squareCell x y w value hw]
  fin_cases j <;> simp

theorem anyqp_OK_squareCell (userInputs : userInputParameters 2 α) (x y w value : α)
    (hneed : userInputs.nucleation_need_value = [0, 167])
    (hnuc : userInputs.nucleating_variable_indices = [0]) :
    anyqp_OK userInputs 4 (Examples.squareCell α x y w value) =
      decide (value < userInputs.nucleation_order_parameter_cutoff) := by
  unfold anyqp_OK cutoffSumOp
  rw [hneed, hnuc, range_four]
  by_cases h : value < userInputs.nucleation_order_parameter_cutoff
  · simp [Examples.squareCell, h]
  · simp [Examples.squareCell, h]

theorem ele_center_squareCell (x y w value : α) :
    ele_center 4 (Examples.squareCell α x y w value) = ![x + w / 2, y + w / 2] := by
  unfold ele_center
  rw [range_four]
  funext j
  fin_cases j
  · simp [Examples.squareCell]
    ring
  · simp [Examples.squareCell]
    ring

/-- An accepted attempt on a square cell, with the sampled position written
out. -/
theorem attempt_squareCell (rand : Nat → α)
    (getNucleationProbability : variableValueContainer α → α → Point 2 α → Nat → α)
    (userInputs : userInputParameters 2 α) (nuclei : List (nucleus 2 α)) (t : α)
    (inc : Nat) (x y w value : α) (variable_index : Nat) (s : LocalPass 2 α)
    (hw : 0 ≤ w)
    (hrun : numbercurrnuclei nuclei variable_index = 0 ∨
      userInputs.multiple_nuclei_per_order_parameter = true)
    (hr : rand s.draws ≤ getNucleationProbability
      (averagedValues userInputs 4 (Examples.squareCell α x y w value))
      (element_volume 4 (Examples.squareCell α x y w value))
      ![x + w / 2, y + w / 2] variable_index) :
    nucleationAttempt rand getNucleationProbability userInputs nuclei t inc 4
        (Examples.squareCell α x y w value) variable_index s =
      { newnuclei :=
          if insafetyzone userInputs variable_index
                ![x + w * rand (s.draws + 1), y + w * rand (s.draws + 1 + 1)] = true ∧
              anyqp_OK userInputs 4 (Examples.squareCell α x y w value) = true then
            s.newnuclei ++ [prospectiveNucleus userInputs nuclei t inc variable_index
              ![x + w * rand (s.draws + 1), y + w * rand (s.draws + 1 + 1)]]
          else s.newnuclei,
        draws := s.draws + 1 + 2,
        oracle_calls := s.oracle_calls ++ [variable_index] } := by
  rw [← ele_center_squareCell x y w value] at hr
  rw [attempt_accepted _ _ _ _ _ _ _ _ _ _ hrun hr, pos_squareCell rand x y w value hw]

/-- C8 as stated fails from the second candidate on: with no nucleus in the
world list, two cells that both emit a candidate give both candidates the
index 0. -/
theorem second_candidate_repeats_index :
    (getLocalNucleiList (fun _ => (1 / 2 : ℚ)) (fun _ _ _ _ => 1) (Examples.plainInputs ℚ)
        [] 0 1 4 [Examples.squareCell ℚ 40 40 20 0, Examples.squareCell ℚ 60 40 20 0] []).map
      (fun s => s.newnuclei.map nucleus.index) = some [0, 0] := by
  rw [getLocalNucleiList_of_lookup _ _ _ _ _ _ _ _ _ (by simp [Examples.plainInputs])]
  have hok : ∀ x y w : ℚ,
      anyqp_OK (Examples.plainInputs ℚ) 4 (Examples.squareCell ℚ x y w 0) = true := by
    intro x y w
    rw [anyqp_OK_squareCell _ _ _ _ _ rfl rfl]
    simp [Examples.plainInputs]
  have hsafe : ∀ a b : ℚ, 5 < a → a < 95 → 5 < b → b < 95 →
      insafetyzone (Examples.plainInputs ℚ) 0 ![a, b] = true := by
    intro a b h1 h2 h3 h4
    rw [insafetyzone_two]
    constructor
    · simp only [insafetyzone_j, Examples.plainInputs, Examples.nowherePeriodic]
      simp
      constructor
      · exact h1
      · linarith
    · simp only [insafetyzone_j, Examples.plainInputs, Examples.nowherePeriodic]
      simp
      constructor
      · exact h3
      · linarith
  simp only [passOver, channelLoop, List.foldl_cons, List.foldl_nil, Option.map_some']
  have hnuc : (Examples.plainInputs ℚ).nucleating_variable_indices = [0] := rfl
  have hown : ∀ x y w v : ℚ, (Examples.squareCell ℚ x y w v).is_locally_owned = true :=
    fun _ _ _ _ => rfl
  simp only [hnuc, hown, if_true, List.foldl_cons, List.foldl_nil]
  have hrun : numbercurrnuclei ([] : List (nucleus 2 ℚ)) 0 = 0 ∨
      (Examples.plainInputs ℚ).multiple_nuclei_per_order_parameter = true := Or.inl rfl
  rw [attempt_squareCell _ _ _ _ _ _ _ _ _ _ _ _ (by norm_num) hrun (by norm_num)]
  rw [attempt_squareCell _ _ _ _ _ _ _ _ _ _ _ _ (by norm_num) hrun (by norm_num)]
  rw [if_pos ⟨hsafe _ _ (by norm_num) (by norm_num) (by norm_num) (by norm_num), hok _ _ _⟩]
  rw [if_pos ⟨hsafe _ _ (by norm_num) (by norm_num) (by norm_num) (by norm_num), hok _ _ _⟩]
  rfl

theorem insafetyzone_iff_inside (userInputs : userInputParameters dim α)
    (variable_index : Nat) (pos : Point dim α)
    (hone : ∀ j : Fin dim, (userInputs.BC_list 1).var_BC_type (2 * j) ≠ boundaryType.PERIODIC) :
    insafetyzone userInputs variable_index pos = true ↔
      ∀ j, userInputs.get_no_nucleation_border_thickness variable_index < pos j ∧
        pos j < userInputs.domain_size j -
          userInputs.get_no_nucleation_border_thickness variable_index := by
  rw [insafetyzone_iff]
  refine forall_congr' (fun j => ?_)
  unfold insafetyzone_j
  simp [hone j]

theorem insafetyzone_plainInputs (a b : α) :
    insafetyzone (Examples.plainInputs α) 0 ![a, b] = true ↔
      (5 < a ∧ a < 95) ∧ (5 < b ∧ b < 95) := by
  rw [insafetyzone_iff_inside _ _ _ (fun j => by
    simp [Examples.plainInputs, Examples.nowherePeriodic])]
  have e : (100 : α) - 5 = 95 := by norm_num
  constructor
  · intro h
    have h0 := h 0
    have h1 := h 1
    simp only [Examples.plainInputs, e, Matrix.cons_val_zero, Matrix.cons_val_one,
      Matrix.head_cons] at h0 h1
    exact ⟨h0, h1⟩
  · rintro ⟨h0, h1⟩ j
    fin_cases j
    · simpa only [Examples.plainInputs, e] using h0
    · simpa only [Examples.plainInputs, e] using h1

/-- C8, amended. A pass of `getLocalNucleiList` into an initially empty candidate
list gives every candidate it emits the index (number of nuclei already in the
world list): the provisional ids of one round are all equal, the position of a
candidate in the round is not added. The pass has a result whenever variable 167
is among `nucleation_need_value`. -/
theorem provisional_ids_equal_world_count (rand : Nat → α)
    (getNucleationProbability : variableValueContainer α → α → Point dim α → Nat → α)
    (userInputs : userInputParameters dim α) (nuclei : List (nucleus dim α)) (t : α)
    (inc : Nat) (num_quad_points : Nat) (cells : List (Cell dim α)) :
    (∀ s, getLocalNucleiList rand getNucleationProbability userInputs nuclei t inc
        num_quad_points cells [] = some s →
      ∀ c ∈ s.newnuclei, c.index = nuclei.length) ∧
    (167 ∈ userInputs.nucleation_need_value →
      ∃ s, getLocalNucleiList rand getNucleationProbability userInputs nuclei t inc
        num_quad_points cells [] = some s) := by
  constructor
  · intro s hs
    unfold getLocalNucleiList at hs
    exact foldlM_cellStep_keeps (fun c => c.index = nuclei.length) rand
      getNucleationProbability userInputs nuclei t inc num_quad_points (fun _ _ => rfl) cells
      _ s (fun c hc => absurd hc (List.not_mem_nil c)) hs
  · intro hneed
    exact ⟨_, getLocalNucleiList_of_lookup rand getNucleationProbability userInputs nuclei t
      inc num_quad_points cells [] hneed⟩

/-- The amended C8 on two cells that both emit a candidate: the pass has a result
and every candidate in it has index 0. -/
theorem provisional_ids_equal_world_count_witness :
    ∃ s, getLocalNucleiList (fun _ => (1 / 2 : ℚ)) (fun _ _ _ _ => 1) (Examples.plainInputs ℚ)
        [] 0 1 4 [Examples.squareCell ℚ 40 40 20 0, Examples.squareCell ℚ 60 40 20 0] [] =
          some s ∧
      ∀ c ∈ s.newnuclei, c.index = 0 := by
  obtain ⟨h1, h2⟩ := provisional_ids_equal_world_count (fun _ => (1 / 2 : ℚ))
    (fun _ _ _ _ => 1) (Examples.plainInputs ℚ) [] 0 1 4
    [Examples.squareCell ℚ 40 40 20 0, Examples.squareCell ℚ 60 40 20 0]
  obtain ⟨s, hs⟩ := h2 (by simp [Examples.plainInputs])
  exact ⟨s, hs, h1 s hs⟩

theorem anyqp_OK_plain_zero (userInputs : userInputParameters 2 α) (x y w : α)
    (hneed : userInputs.nucleation_need_value = [0, 167])
    (hnuc : userInputs.nucleating_variable_indices = [0])
    (hcut : 0 < userInputs.nucleation_order_parameter_cutoff) :
    anyqp_OK userInputs 4 (Examples.squareCell α x y w 0) = true := by
  rw [anyqp_OK_squareCell _ _ _ _ _ hneed hnuc]
  exact decide_eq_true hcut

/-- C7, the code at a failing input. Variable 0 is nucleated and has no periodic
face, variable 1 is periodic on axis 0, the border thickness is 5. The position
(1, 41), closer than 5 to the lower edge of axis 0, passes the safety zone check
of variable 0, because the check reads the boundary conditions of variable 1, and
the pass over the cell with corners (0, 40) and (20, 60) emits a candidate of
order parameter 0 centered there. -/
theorem border_check_reads_variable_one :
    ((Examples.mixedInputs ℚ).BC_list 0).var_BC_type (2 * 0) ≠ boundaryType.PERIODIC ∧
    (Examples.mixedInputs ℚ).get_no_nucleation_border_thickness 0 = 5 ∧
    insafetyzone (Examples.mixedInputs ℚ) 0 ![1, 41] = true ∧
    (getLocalNucleiList (fun _ => (1 / 20 : ℚ)) (fun _ _ _ _ => 1) (Examples.mixedInputs ℚ)
        [] 0 1 4 [Examples.squareCell ℚ 0 40 20 0] []).map
      (fun s => s.newnuclei.map (fun c => (c.orderParameterIndex, c.center 0, c.center 1))) =
        some [(0, 1, 41)] := by
  have hsafe : insafetyzone (Examples.mixedInputs ℚ) 0 ![1, 41] = true := by
    rw [insafetyzone_two]
    constructor
    · simp [insafetyzone_j, Examples.mixedInputs, Examples.periodicOnAxis0]
    · simp [insafetyzone_j, Examples.mixedInputs, Examples.plainInputs,
        Examples.periodicOnAxis0, Examples.nowherePeriodic]
      norm_num
  refine ⟨by decide, rfl, hsafe, ?_⟩
  rw [getLocalNucleiList_of_lookup _ _ _ _ _ _ _ _ _
    (by simp [Examples.mixedInputs, Examples.plainInputs])]
  have hnuc : (Examples.mixedInputs ℚ).nucleating_variable_indices = [0] := rfl
  have hown : ∀ x y w v : ℚ, (Examples.squareCell ℚ x y w v).is_locally_owned = true :=
    fun _ _ _ _ => rfl
  have hrun : numbercurrnuclei ([] : List (nucleus 2 ℚ)) 0 = 0 ∨
      (Examples.mixedInputs ℚ).multiple_nuclei_per_order_parameter = true := Or.inl rfl
  simp only [passOver, channelLoop, List.foldl_cons, List.foldl_nil, Option.map_some', hnuc,
    hown, if_true]
  rw [attempt_squareCell _ _ _ _ _ _ _ _ _ _ _ _ (by norm_num) hrun (by norm_num)]
  have e1 : (0 : ℚ) + 20 * (1 / 20) = 1 := by norm_num
  have e2 : (40 : ℚ) + 20 * (1 / 20) = 41 := by norm_num
  simp only [e1, e2]
  rw [if_pos ⟨hsafe, anyqp_OK_plain_zero _ _ _ _ rfl rfl (by
    simp [Examples.mixedInputs, Examples.plainInputs])⟩]
  simp [prospectiveNucleus]

/-- C9 as stated fails for the draw 0 and a negative probability: with `r = 0`
and `P = -1` the draw is at most the clamped probability `min 1 (max 0 P) = 0`,
yet the attempt is not accepted (one value taken from the generator, nothing
pushed), while the accepted branch pushes a candidate here. -/
theorem zero_draw_negative_probability_rejected :
    (0 : ℚ) ≤ min 1 (max 0 (-1)) ∧
    (nucleationAttempt (fun _ => (0 : ℚ)) (fun _ _ _ _ => -1) (Examples.plainInputs ℚ)
        [] 0 1 4 (Examples.squareCell ℚ 40 40 20 0) 0 (Examples.freshPass ℚ)).draws = 1 ∧
    (nucleationAttempt (fun _ => (0 : ℚ)) (fun _ _ _ _ => -1) (Examples.plainInputs ℚ)
        [] 0 1 4 (Examples.squareCell ℚ 40 40 20 0) 0
        (Examples.freshPass ℚ)).newnuclei.length = 0 ∧
    (placeNucleus (fun _ => (0 : ℚ)) (Examples.plainInputs ℚ) [] 0 1 4
        (Examples.squareCell ℚ 40 40 20 0) 0
        { newnuclei := [], draws := 1, oracle_calls := [0] }).newnuclei.length = 1 := by
  have hrun : numbercurrnuclei ([] : List (nucleus 2 ℚ)) 0 = 0 ∨
      (Examples.plainInputs ℚ).multiple_nuclei_per_order_parameter = true := Or.inl rfl
  have hrej := attempt_rejected (fun _ => (0 : ℚ)) (fun _ _ _ _ => -1)
    (Examples.plainInputs ℚ) [] 0 1 4 (Examples.squareCell ℚ 40 40 20 0) 0
    (Examples.freshPass ℚ) hrun (by norm_num)
  refine ⟨by norm_num, ?_, ?_, ?_⟩
  · rw [hrej]; rfl
  · rw [hrej]; rfl
  · unfold placeNucleus
    rw [pos_squareCell _ _ _ _ _ (by norm_num)]
    have hs : insafetyzone (Examples.plainInputs ℚ) 0
        ![40 + 20 * (fun _ => (0 : ℚ)) 1, 40 + 20 * (fun _ => (0 : ℚ)) (1 + 1)] = true := by
      rw [insafetyzone_plainInputs]
      norm_num
    simp only [hs, if_true, anyqp_OK_plain_zero (Examples.plainInputs ℚ) 40 40 20 rfl rfl
      (by simp [Examples.plainInputs])]
    rfl

/-- C9, amended. For every draw `r` below 1 and every value `P` of the
probability law, an attempt that is not skipped is accepted if and only if
`r <= P`; no clamping is applied. That is the decision made with the probability
clamped to [0,1] whenever `r > 0` or `P >= 0`. -/
theorem attempt_decision_is_clamped (rand : Nat → α)
    (getNucleationProbability : variableValueContainer α → α → Point dim α → Nat → α)
    (userInputs : userInputParameters dim α) (nuclei : List (nucleus dim α)) (t : α)
    (inc : Nat) (num_quad_points : Nat) (dof : Cell dim α) (variable_index : Nat)
    (s : LocalPass dim α)
    (hrun : numbercurrnuclei nuclei variable_index = 0 ∨
      userInputs.multiple_nuclei_per_order_parameter = true)
    (hr1 : rand s.draws < 1)
    (hne : 0 < rand s.draws ∨ 0 ≤ getNucleationProbability
      (averagedValues userInputs num_quad_points dof) (element_volume num_quad_points dof)
      (ele_center num_quad_points dof) variable_index) :
    nucleationAttempt rand getNucleationProbability userInputs nuclei t inc num_quad_points
        dof variable_index s =
      if rand s.draws ≤ min 1 (max 0 (getNucleationProbability
          (averagedValues userInputs num_quad_points dof) (element_volume num_quad_points dof)
          (ele_center num_quad_points dof) variable_index)) then
        placeNucleus rand userInputs nuclei t inc num_quad_points dof variable_index
          { newnuclei := s.newnuclei, draws := s.draws + 1,
            oracle_calls := s.oracle_calls ++ [variable_index] }
      else
        { newnuclei := s.newnuclei, draws := s.draws + 1,
          oracle_calls := s.oracle_calls ++ [variable_index] } := by
  unfold nucleationAttempt
  simp only [if_pos hrun]
  refine if_congr ?_ rfl rfl
  constructor
  · intro h
    exact le_min (le_of_lt hr1) (le_max_of_le_right h)
  · intro h
    have h2 := le_trans h (min_le_right _ _)
    rcases le_max_iff.mp h2 with h3 | h3
    · rcases hne with h4 | h4
      · exact absurd h3 (not_le.mpr h4)
      · exact le_trans h3 h4
    · exact h3

/-- The amended C9 at the draw 1/2 and the probability 3: the attempt is
accepted, as with the clamped probability 1. -/
theorem attempt_decision_is_clamped_witness :
    nucleationAttempt (fun _ => (1 / 2 : ℚ)) (fun _ _ _ _ => 3) (Examples.plainInputs ℚ)
        [] 0 1 4 (Examples.squareCell ℚ 40 40 20 0) 0 (Examples.freshPass ℚ) =
      if (1 / 2 : ℚ) ≤ min 1 (max 0 3) then
        placeNucleus (fun _ => (1 / 2 : ℚ)) (Examples.plainInputs ℚ) [] 0 1 4
          (Examples.squareCell ℚ 40 40 20 0) 0
          { newnuclei := [], draws := 0 + 1, oracle_calls := [] ++ [0] }
      else { newnuclei := [], draws := 0 + 1, oracle_calls := [] ++ [0] } :=
  attempt_decision_is_clamped (fun _ => (1 / 2 : ℚ)) (fun _ _ _ _ => 3)
    (Examples.plainInputs ℚ) [] 0 1 4 (Examples.squareCell ℚ 40 40 20 0) 0
    (Examples.freshPass ℚ) (Or.inl rfl) (by norm_num) (Or.inl (by norm_num))

theorem passOver_append (rand : Nat → α)
    (getNucleationProbability : variableValueContainer α → α → Point dim α → Nat → α)
    (userInputs : userInputParameters dim α) (nuclei : List (nucleus dim α)) (t : α)
    (inc : Nat) (num_quad_points : Nat) (front back : List (Cell dim α))
    (s : LocalPass dim α) :
    passOver rand getNucleationProbability userInputs nuclei t inc num_quad_points
        (front ++ back) s =
      passOver rand getNucleationProbability userInputs nuclei t inc num_quad_points back
        (passOver rand getNucleationProbability userInputs nuclei t inc num_quad_points
          front s) := by
  unfold passOver
  rw [List.foldl_append]

theorem passOver_cons (rand : Nat → α)
    (getNucleationProbability : variableValueContainer α → α → Point dim α → Nat → α)
    (userInputs : userInputParameters dim α) (nuclei : List (nucleus dim α)) (t : α)
    (inc : Nat) (num_quad_points : Nat) (dof : Cell dim α) (rest : List (Cell dim α))
    (s : LocalPass dim α) :
    passOver rand getNucleationProbability userInputs nuclei t inc num_quad_points
        (dof :: rest) s =
      passOver rand getNucleationProbability userInputs nuclei t inc num_quad_points rest
        (if dof.is_locally_owned = true then
          channelLoop rand getNucleationProbability userInputs nuclei t inc num_quad_points
            dof s
        else s) := rfl

theorem channelLoop_single (rand : Nat → α)
    (getNucleationProbability : variableValueContainer α → α → Point dim α → Nat → α)
    (userInputs : userInputParameters dim α) (nuclei : List (nucleus dim α)) (t : α)
    (inc : Nat) (num_quad_points : Nat) (dof : Cell dim α) (s : LocalPass dim α) (v : Nat)
    (hnuc : userInputs.nucleating_variable_indices = [v]) :
    channelLoop rand getNucleationProbability userInputs nuclei t inc num_quad_points dof s =
      nucleationAttempt rand getNucleationProbability userInputs nuclei t inc num_quad_points
        dof v s := by
  unfold channelLoop
  rw [hnuc]
  rfl

/-- Cells whose probability is 0 emit nothing when every draw is positive; each
locally owned one takes a single value from the generator. -/
theorem passOver_zero_probability (rand : Nat → α)
    (getNucleationProbability : variableValueContainer α → α → Point dim α → Nat → α)
    (userInputs : userInputParameters dim α) (t : α)
    (inc : Nat) (num_quad_points : Nat) (v : Nat)
    (hnuc : userInputs.nucleating_variable_indices = [v])
    (hrand : ∀ k, 0 < rand k)
    (cells : List (Cell dim α))
    (hzero : ∀ c ∈ cells, getNucleationProbability (averagedValues userInputs num_quad_points c)
      (element_volume num_quad_points c) (ele_center num_quad_points c) v = 0)
    (s : LocalPass dim α) :
    (passOver rand getNucleationProbability userInputs [] t inc num_quad_points
        cells s).newnuclei = s.newnuclei ∧
    (passOver rand getNucleationProbability userInputs [] t inc num_quad_points
        cells s).draws = s.draws + ownedCount cells := by
  induction cells generalizing s with
  | nil => exact ⟨rfl, rfl⟩
  | cons dof rest ih =>
    have hrest : ∀ c ∈ rest, getNucleationProbability
        (averagedValues userInputs num_quad_points c)
        (element_volume num_quad_points c) (ele_center num_quad_points c) v = 0 :=
      fun c hc => hzero c (List.mem_cons_of_mem _ hc)
    rw [passOver_cons]
    by_cases ho : dof.is_locally_owned = true
    · rw [if_pos ho, channelLoop_single _ _ _ _ _ _ _ _ _ v hnuc]
      have hrej := attempt_rejected rand getNucleationProbability userInputs [] t inc
        num_quad_points dof v s (Or.inl rfl)
        (by rw [hzero dof (List.mem_cons_self _ _)]; exact not_le.mpr (hrand _))
      rw [hrej]
      obtain ⟨h1, h2⟩ := ih hrest
        { newnuclei := s.newnuclei, draws := s.draws + 1,
          oracle_calls := s.oracle_calls ++ [v] }
      refine ⟨h1, ?_⟩
      rw [h2]
      simp only [ownedCount, List.filter_cons, ho, if_true, List.length_cons]
      omega
    · rw [if_neg ho]
      obtain ⟨h1, h2⟩ := ih hrest s
      refine ⟨h1, ?_⟩
      rw [h2]
      simp only [ownedCount, List.filter_cons, ho]
      rfl

/-- What the pass emits when one cell has probability 1 and all others 0. -/
theorem passOver_single_target (rand : Nat → α)
    (getNucleationProbability : variableValueContainer α → α → Point 2 α → Nat → α)
    (userInputs : userInputParameters 2 α) (t : α) (inc : Nat) (num_quad_points : Nat)
    (front back : List (Cell 2 α)) (target : Cell 2 α)
    (hnuc : userInputs.nucleating_variable_indices = [0])
    (hdom : ∀ j, userInputs.domain_size j = 100)
    (hbc : ∀ v k, (userInputs.BC_list v).var_BC_type k ≠ boundaryType.PERIODIC)
    (hb : userInputs.get_no_nucleation_border_thickness 0 = 5)
    (hone : getNucleationProbability (averagedValues userInputs num_quad_points target)
      (element_volume num_quad_points target) (ele_center num_quad_points target) 0 = 1)
    (hzero : ∀ c ∈ front ++ back,
      getNucleationProbability (averagedValues userInputs num_quad_points c)
        (element_volume num_quad_points c) (ele_center num_quad_points c) 0 = 0)
    (hrand : ∀ k, 0 < rand k ∧ rand k < 1) :
    (passOver rand getNucleationProbability userInputs [] t inc num_quad_points
        (front ++ target :: back) { newnuclei := [], draws := 0, oracle_calls := [] }).newnuclei =
      if target.is_locally_owned = true ∧
          (∀ j, 5 < nuc_ele_pos rand num_quad_points target (ownedCount front + 1) j ∧
            nuc_ele_pos rand num_quad_points target (ownedCount front + 1) j < 95) ∧
          anyqp_OK userInputs num_quad_points target = true then
        [prospectiveNucleus userInputs [] t inc 0
          (nuc_ele_pos rand num_quad_points target (ownedCount front + 1))]
      else [] := by
  have hpos : ∀ k, 0 < rand k := fun k => (hrand k).1
  have hsafe : ∀ pos : Point 2 α, insafetyzone userInputs 0 pos = true ↔
      ∀ j, 5 < pos j ∧ pos j < 95 := by
    intro pos
    rw [insafetyzone_iff_inside userInputs 0 pos (fun j => hbc 1 _)]
    have e : (100 : α) - 5 = 95 := by norm_num
    refine forall_congr' (fun j => ?_)
    rw [hb, hdom j, e]
  obtain ⟨h1a, h1b⟩ := passOver_zero_probability rand getNucleationProbability userInputs t
    inc num_quad_points 0 hnuc hpos front
    (fun c hc => hzero c (List.mem_append_left _ hc))
    { newnuclei := [], draws := 0, oracle_calls := [] }
  have h1a2 : (passOver rand getNucleationProbability userInputs [] t inc num_quad_points
      front { newnuclei := [], draws := 0, oracle_calls := [] }).newnuclei = [] := h1a
  have h1b2 : (passOver rand getNucleationProbability userInputs [] t inc num_quad_points
      front { newnuclei := [], draws := 0, oracle_calls := [] }).draws = ownedCount front := by
    rw [h1b]
    exact Nat.zero_add _
  rw [passOver_append, passOver_cons]
  rw [(passOver_zero_probability rand getNucleationProbability userInputs t
    inc num_quad_points 0 hnuc hpos back
    (fun c hc => hzero c (List.mem_append_right _ hc)) _).1]
  by_cases ho : target.is_locally_owned = true
  · rw [if_pos ho, channelLoop_single _ _ _ _ _ _ _ _ _ 0 hnuc]
    rw [attempt_accepted rand getNucleationProbability userInputs [] t inc num_quad_points
      target 0 _ (Or.inl rfl) (by rw [hone]; exact le_of_lt (hrand _).2)]
    simp only [h1a2, h1b2, List.nil_append, hsafe]
    by_cases hc : (∀ j, 5 < nuc_ele_pos rand num_quad_points target (ownedCount front + 1) j ∧
        nuc_ele_pos rand num_quad_points target (ownedCount front + 1) j < 95) ∧
        anyqp_OK userInputs num_quad_points target = true
    · rw [if_pos hc, if_pos ⟨ho, hc⟩]
    · rw [if_neg hc, if_neg (fun h => hc h.2)]
  · rw [if_neg ho, if_neg (fun h => ho h.1)]
    exact h1a2

/-- C10, amended. On the 100 by 100 domain with the single nucleating order
parameter 0, no periodic face, border thickness 5 and no existing nucleus, with
probability 1 for one cell and 0 for every other cell, variable 167 among
`nucleation_need_value` and every draw strictly between 0 and 1, one pass of
`getLocalNucleiList` has a result and emits at most one candidate, none from a
cell of probability 0: it emits the candidate built at the position sampled in the
cell of probability 1 exactly when that cell is locally owned, the position lies
strictly inside the border on both axes and the cutoff test of the cell passes.
Every emitted candidate has order parameter 0 and its center in the open square
(5, 95) by (5, 95). -/
theorem end_to_end_single_candidate (rand : Nat → α)
    (getNucleationProbability : variableValueContainer α → α → Point 2 α → Nat → α)
    (userInputs : userInputParameters 2 α) (t : α) (inc : Nat) (num_quad_points : Nat)
    (front back : List (Cell 2 α)) (target : Cell 2 α)
    (hneed : 167 ∈ userInputs.nucleation_need_value)
    (hnuc : userInputs.nucleating_variable_indices = [0])
    (hdom : ∀ j, userInputs.domain_size j = 100)
    (hbc : ∀ v k, (userInputs.BC_list v).var_BC_type k ≠ boundaryType.PERIODIC)
    (hb : userInputs.get_no_nucleation_border_thickness 0 = 5)
    (hone : getNucleationProbability (averagedValues userInputs num_quad_points target)
      (element_volume num_quad_points target) (ele_center num_quad_points target) 0 = 1)
    (hzero : ∀ c ∈ front ++ back,
      getNucleationProbability (averagedValues userInputs num_quad_points c)
        (element_volume num_quad_points c) (ele_center num_quad_points c) 0 = 0)
    (hrand : ∀ k, 0 < rand k ∧ rand k < 1) :
    ∃ s, getLocalNucleiList rand getNucleationProbability userInputs [] t inc num_quad_points
        (front ++ target :: back) [] = some s ∧
      s.newnuclei =
        (if target.is_locally_owned = true ∧
            (∀ j, 5 < nuc_ele_pos rand num_quad_points target (ownedCount front + 1) j ∧
              nuc_ele_pos rand num_quad_points target (ownedCount front + 1) j < 95) ∧
            anyqp_OK userInputs num_quad_points target = true then
          [prospectiveNucleus userInputs [] t inc 0
            (nuc_ele_pos rand num_quad_points target (ownedCount front + 1))]
        else []) ∧
      ∀ c ∈ s.newnuclei, c.orderParameterIndex = 0 ∧ ∀ j, 5 < c.center j ∧ c.center j < 95 := by
  have key := passOver_single_target rand getNucleationProbability userInputs t inc
    num_quad_points front back target hnuc hdom hbc hb hone hzero hrand
  refine ⟨_, getLocalNucleiList_of_lookup rand getNucleationProbability userInputs [] t inc
    num_quad_points (front ++ target :: back) [] hneed, key, ?_⟩
  rw [key]
  intro c hc
  by_cases hcond : target.is_locally_owned = true ∧
      (∀ j, 5 < nuc_ele_pos rand num_quad_points target (ownedCount front + 1) j ∧
        nuc_ele_pos rand num_quad_points target (ownedCount front + 1) j < 95) ∧
      anyqp_OK userInputs num_quad_points target = true
  · rw [if_pos hcond] at hc
    rw [List.mem_singleton.mp hc]
    exact ⟨rfl, hcond.2.1⟩
  · rw [if_neg hcond] at hc
    exact absurd hc (List.not_mem_nil c)

/-- C10 as stated fails in two ways. On the mesh of the single cell
(0, 0) to (100, 100), which has probability 1, the draws 1/100 put the sampled
position at (1, 1) inside the border and the pass emits no candidate. On the
cells (40, 40) to (60, 60) with probability 1 and (60, 40) to (80, 60) with
probability 0, the draws 0 make the pass emit two candidates, the second one from
the cell of probability 0. -/
theorem end_to_end_not_exactly_one :
    (getLocalNucleiList (fun _ => (1 / 100 : ℚ)) (Examples.centerOracle ℚ)
        (Examples.plainInputs ℚ) [] 0 1 4 [Examples.squareCell ℚ 0 0 100 0] []).map
      (fun s => s.newnuclei.length) = some 0 ∧
    (getLocalNucleiList (fun _ => (0 : ℚ)) (Examples.centerOracle ℚ)
        (Examples.plainInputs ℚ) [] 0 1 4
        [Examples.squareCell ℚ 40 40 20 0, Examples.squareCell ℚ 60 40 20 0] []).map
      (fun s => s.newnuclei.map (fun c => (c.center 0, c.center 1))) =
        some [(40, 40), (60, 40)] := by
  have hnuc : (Examples.plainInputs ℚ).nucleating_variable_indices = [0] := rfl
  have hown : ∀ x y w v : ℚ, (Examples.squareCell ℚ x y w v).is_locally_owned = true :=
    fun _ _ _ _ => rfl
  have hrun : numbercurrnuclei ([] : List (nucleus 2 ℚ)) 0 = 0 ∨
      (Examples.plainInputs ℚ).multiple_nuclei_per_order_parameter = true := Or.inl rfl
  have hok : ∀ x y w : ℚ,
      anyqp_OK (Examples.plainInputs ℚ) 4 (Examples.squareCell ℚ x y w 0) = true :=
    fun x y w => anyqp_OK_plain_zero _ x y w rfl rfl (by simp [Examples.plainInputs])
  constructor
  · rw [getLocalNucleiList_of_lookup _ _ _ _ _ _ _ _ _ (by simp [Examples.plainInputs])]
    simp only [passOver, channelLoop, List.foldl_cons, List.foldl_nil, Option.map_some', hnuc,
      hown, if_true]
    rw [attempt_squareCell _ _ _ _ _ _ _ _ _ _ _ _ (by norm_num) hrun
      (by norm_num [Examples.centerOracle])]
    rw [if_neg (fun h => by
      have h2 := (insafetyzone_plainInputs _ _).mp h.1
      norm_num at h2)]
    rfl
  · rw [getLocalNucleiList_of_lookup _ _ _ _ _ _ _ _ _ (by simp [Examples.plainInputs])]
    simp only [passOver, channelLoop, List.foldl_cons, List.foldl_nil, Option.map_some', hnuc,
      hown, if_true]
    rw [attempt_squareCell _ _ _ _ _ _ _ _ _ _ _ _ (by norm_num) hrun
      (by norm_num [Examples.centerOracle])]
    rw [attempt_squareCell _ _ _ _ _ _ _ _ _ _ _ _ (by norm_num) hrun
      (by norm_num [Examples.centerOracle])]
    rw [if_pos ⟨(insafetyzone_plainInputs _ _).mpr (by norm_num), hok _ _ _⟩]
    rw [if_pos ⟨(insafetyzone_plainInputs _ _).mpr (by norm_num), hok _ _ _⟩]
    simp [prospectiveNucleus]

/-- The amended C10 on the cells (40, 40) to (60, 60) with probability 1 and
(60, 40) to (80, 60) with probability 0, all draws 1/2: the pass emits the one
candidate centered at (50, 50). -/
theorem end_to_end_single_candidate_witness :
    ∃ s, getLocalNucleiList (fun _ => (1 / 2 : ℚ)) (Examples.centerOracle ℚ)
        (Examples.plainInputs ℚ) [] 0 1 4
        ([] ++ Examples.squareCell ℚ 40 40 20 0 :: [Examples.squareCell ℚ 60 40 20 0]) [] =
          some s ∧
      s.newnuclei.map (fun c => (c.center 0, c.center 1)) = [(50, 50)] := by
  obtain ⟨s, hs, hn, _⟩ := end_to_end_single_candidate (fun _ => (1 / 2 : ℚ))
    (Examples.centerOracle ℚ) (Examples.plainInputs ℚ) 0 1 4 []
    [Examples.squareCell ℚ 60 40 20 0] (Examples.squareCell ℚ 40 40 20 0)
    (by simp [Examples.plainInputs]) rfl (fun _ => rfl)
    (fun _ _ => by simp [Examples.plainInputs, Examples.nowherePeriodic]) rfl
    (by rw [ele_center_squareCell]; norm_num [Examples.centerOracle])
    (fun c hc => by
      have hc2 : c = Examples.squareCell ℚ 60 40 20 0 := by simpa using hc
      rw [hc2, ele_center_squareCell]
      norm_num [Examples.centerOracle])
    (fun _ => by norm_num)
  refine ⟨s, hs, ?_⟩
  rw [hn, pos_squareCell _ _ _ _ _ (by norm_num)]
  have hcond : (Examples.squareCell ℚ 40 40 20 0).is_locally_owned = true ∧
      (∀ j, 5 < (![40 + 20 * (fun _ => (1 / 2 : ℚ)) (ownedCount ([] : List (Cell 2 ℚ)) + 1),
          40 + 20 * (fun _ => (1 / 2 : ℚ)) (ownedCount ([] : List (Cell 2 ℚ)) + 1 + 1)] :
            Fin 2 → ℚ) j ∧
        (![40 + 20 * (fun _ => (1 / 2 : ℚ)) (ownedCount ([] : List (Cell 2 ℚ)) + 1),
          40 + 20 * (fun _ => (1 / 2 : ℚ)) (ownedCount ([] : List (Cell 2 ℚ)) + 1 + 1)] :
            Fin 2 → ℚ) j < 95) ∧
      anyqp_OK (Examples.plainInputs ℚ) 4 (Examples.squareCell ℚ 40 40 20 0) = true := by
    refine ⟨rfl, ?_, anyqp_OK_plain_zero _ _ _ _ rfl rfl (by simp [Examples.plainInputs])⟩
    intro j
    fin_cases j <;> norm_num
  rw [if_pos hcond]
  simp [prospectiveNucleus]
  norm_num

end MatrixFreePDE

namespace Cmath

variable {α : Type} [LinearOrderedField α] [FloorRing α]

end Cmath

namespace MatrixFreePDE

variable {α : Type} [LinearOrderedField α] [FloorRing α] {dim : Nat}

omit [LinearOrderedField α] [FloorRing α] in
theorem uniquenessInner_of_mem (this_nucleus1 : nucleus dim α) (batch : List (nucleus dim α))
    (ids : List Nat) (h : this_nucleus1 ∈ batch) :
    uniquenessInner this_nucleus1 batch ids = ids ++ [this_nucleus1.index] := by
  induction batch with
  | nil => exact absurd h (List.not_mem_nil _)
  | cons a rest ih =>
    unfold uniquenessInner
    by_cases he : this_nucleus1.orderParameterIndex = a.orderParameterIndex
    · rw [if_pos he]
    · rw [if_neg he]
      rcases List.mem_cons.mp h with h1 | h1
      · exact absurd (by rw [h1]) he
      · exact ih h1

omit [LinearOrderedField α] [FloorRing α] in
theorem uniquenessLoop_eq (batch front : List (nucleus dim α)) (ids : List Nat)
    (h : ∀ c ∈ front, c ∈ batch) :
    front.foldl (fun ids this_nucleus1 => uniquenessInner this_nucleus1 batch ids) ids =
      ids ++ front.map nucleus.index := by
  induction front generalizing ids with
  | nil => simp
  | cons c rest ih =>
    rw [List.foldl_cons, uniquenessInner_of_mem c batch ids (h c (List.mem_cons_self _ _)),
      ih _ (fun d hd => h d (List.mem_cons_of_mem _ hd))]
    simp

omit [LinearOrderedField α] [FloorRing α] in
/-- The order parameter check pushes the id of every candidate of the batch, in
batch order. -/
theorem uniquenessPass_eq (newnuclei : List (nucleus dim α)) (ids : List Nat) :
    uniquenessPass newnuclei ids = ids ++ newnuclei.map nucleus.index :=
  uniquenessLoop_eq newnuclei newnuclei ids (fun _ hc => hc)

/-- C17. With multiple nuclei per order parameter disallowed, the order parameter
check of `safetyCheckNewNuclei` appends the id of every candidate of the batch to
`conflict_ids`, once each and in batch order, whatever the order parameters are;
the ids of the overlap scan follow. -/
theorem uniqueness_check_flags_whole_batch (sqrt : α → α)
    (userInputs : userInputParameters dim α) (num_quad_points : Nat)
    (cells : List (Cell dim α)) (newnuclei : List (nucleus dim α))
    (conflict_ids : List Nat)
    (hmulti : userInputs.multiple_nuclei_per_order_parameter = false) :
    uniquenessPass newnuclei conflict_ids = conflict_ids ++ newnuclei.map nucleus.index ∧
    safetyCheckNewNuclei sqrt userInputs num_quad_points cells newnuclei conflict_ids =
      (conflict_ids ++ newnuclei.map nucleus.index) ++ (newnuclei.filter
        (fun c => decide (overlapsLocally sqrt userInputs num_quad_points cells c))).map
          nucleus.index := by
  refine ⟨uniquenessPass_eq newnuclei conflict_ids, ?_⟩
  unfold safetyCheckNewNuclei
  simp only [hmulti, Bool.not_false, if_true]
  rw [nucleusCycle_eq, uniquenessPass_eq]

/-- C17 on a batch of two candidates with different order parameters and no cell
to scan: both ids are appended. -/
theorem uniqueness_check_flags_whole_batch_witness :
    uniquenessPass
      [Examples.candidate ℝ 0 3 ![20, 20], Examples.candidate ℝ 1 5 ![70, 70]] [] =
        [] ++ [Examples.candidate ℝ 0 3 ![20, 20], Examples.candidate ℝ 1 5 ![70, 70]].map
          nucleus.index ∧
    safetyCheckNewNuclei Real.sqrt (Examples.uniqueInputs ℝ) 4 []
      [Examples.candidate ℝ 0 3 ![20, 20], Examples.candidate ℝ 1 5 ![70, 70]] [] =
      ([] ++ [Examples.candidate ℝ 0 3 ![20, 20], Examples.candidate ℝ 1 5 ![70, 70]].map
          nucleus.index) ++
        ([Examples.candidate ℝ 0 3 ![20, 20], Examples.candidate ℝ 1 5 ![70, 70]].filter
          (fun c => decide (overlapsLocally Real.sqrt (Examples.uniqueInputs ℝ) 4 [] c))).map
            nucleus.index :=
  uniqueness_check_flags_whole_batch Real.sqrt (Examples.uniqueInputs ℝ) 4 []
    [Examples.candidate ℝ 0 3 ![20, 20], Examples.candidate ℝ 1 5 ![70, 70]] [] rfl

end MatrixFreePDE

namespace MatrixFreePDE

variable {α : Type} [LinearOrderedField α] {dim : Nat}

omit [LinearOrderedField α] in
theorem numbercurrnuclei_eq_countP (nuclei : List (nucleus dim α)) (variable_index : Nat) :
    numbercurrnuclei nuclei variable_index =
      nuclei.countP (fun nuc => decide (nuc.orderParameterIndex = variable_index)) := by
  unfold numbercurrnuclei
  have h : ∀ (l : List (nucleus dim α)) (k : Nat),
      l.foldl (fun count nuc =>
        if nuc.orderParameterIndex = variable_index then count + 1 else count) k =
        k + l.countP (fun nuc => decide (nuc.orderParameterIndex = variable_index)) := by
    intro l
    induction l with
    | nil => intro k; simp
    | cons a l ih =>
      intro k
      rw [List.foldl_cons, ih, List.countP_cons]
      by_cases ha : a.orderParameterIndex = variable_index
      · simp [ha]; omega
      · simp [ha]
  rw [h, Nat.zero_add]

omit [LinearOrderedField α] in
theorem numbercurrnuclei_eq_zero_iff (nuclei : List (nucleus dim α)) (variable_index : Nat) :
    numbercurrnuclei nuclei variable_index = 0 ↔
      ∀ nuc ∈ nuclei, nuc.orderParameterIndex ≠ variable_index := by
  rw [numbercurrnuclei_eq_countP, List.countP_eq_zero]
  simp

/-- What one attempt does to the pass, case by case. -/
theorem attempt_cases (rand : Nat → α)
    (getNucleationProbability : variableValueContainer α → α → Point dim α → Nat → α)
    (userInputs : userInputParameters dim α) (nuclei : List (nucleus dim α)) (t : α)
    (inc : Nat) (num_quad_points : Nat) (dof : Cell dim α) (variable_index : Nat)
    (s : LocalPass dim α) :
    (¬ (numbercurrnuclei nuclei variable_index = 0 ∨
        userInputs.multiple_nuclei_per_order_parameter = true) ∧
      nucleationAttempt rand getNucleationProbability userInputs nuclei t inc num_quad_points
        dof variable_index s = s) ∨
    ((numbercurrnuclei nuclei variable_index = 0 ∨
        userInputs.multiple_nuclei_per_order_parameter = true) ∧
      (nucleationAttempt rand getNucleationProbability userInputs nuclei t inc num_quad_points
        dof variable_index s).oracle_calls = s.oracle_calls ++ [variable_index] ∧
      s.draws + 1 ≤ (nucleationAttempt rand getNucleationProbability userInputs nuclei t inc
        num_quad_points dof variable_index s).draws ∧
      ((nucleationAttempt rand getNucleationProbability userInputs nuclei t inc num_quad_points
          dof variable_index s).newnuclei = s.newnuclei ∨
        (nucleationAttempt rand getNucleationProbability userInputs nuclei t inc
          num_quad_points dof variable_index s).newnuclei =
          s.newnuclei ++ [prospectiveNucleus userInputs nuclei t inc variable_index
            (nuc_ele_pos rand num_quad_points dof (s.draws + 1))])) := by
  by_cases hrun : numbercurrnuclei nuclei variable_index = 0 ∨
      userInputs.multiple_nuclei_per_order_parameter = true
  · right
    refine ⟨hrun, ?_⟩
    by_cases hr : rand s.draws ≤ getNucleationProbability
        (averagedValues userInputs num_quad_points dof) (element_volume num_quad_points dof)
        (ele_center num_quad_points dof) variable_index
    · rw [attempt_accepted _ _ _ _ _ _ _ _ _ _ hrun hr]
      refine ⟨rfl, by show s.draws + 1 ≤ s.draws + 1 + dim; omega, ?_⟩
      by_cases hc : insafetyzone userInputs variable_index
                (nuc_ele_pos rand num_quad_points dof (s.draws + 1)) = true ∧
              anyqp_OK userInputs num_quad_points dof = true
      · right
        simp only [if_pos hc]
      · left
        simp only [if_neg hc]
    · rw [attempt_rejected _ _ _ _ _ _ _ _ _ _ hrun hr]
      exact ⟨rfl, le_refl _, Or.inl rfl⟩
  · left
    exact ⟨hrun, attempt_skipped _ _ _ _ _ _ _ _ _ _ hrun⟩

/-- A property of the pass that every attempt keeps is kept by the whole pass. -/
theorem foldlM_cellStep_invariant (I : LocalPass dim α → Prop) (rand : Nat → α)
    (getNucleationProbability : variableValueContainer α → α → Point dim α → Nat → α)
    (userInputs : userInputParameters dim α) (nuclei : List (nucleus dim α)) (t : α)
    (inc : Nat) (num_quad_points : Nat)
    (hI : ∀ dof v s, I s → I (nucleationAttempt rand getNucleationProbability userInputs
      nuclei t inc num_quad_points dof v s))
    (cells : List (Cell dim α)) (s s2 : LocalPass dim α) (hs : I s)
    (hpass : cells.foldlM
      (cellStep rand getNucleationProbability userInputs nuclei t inc num_quad_points) s =
        some s2) :
    I s2 := by
  have hloop : ∀ dof (l : List Nat) (s : LocalPass dim α), I s →
      I (l.foldl (fun s variable_index =>
        nucleationAttempt rand getNucleationProbability userInputs nuclei t inc
          num_quad_points dof variable_index s) s) := by
    intro dof l
    induction l with
    | nil => intro s hs; exact hs
    | cons v l ih => intro s hs; rw [List.foldl_cons]; exact ih _ (hI dof v s hs)
  induction cells generalizing s with
  | nil =>
    have e : s = s2 := Option.some.inj hpass
    rw [← e]; exact hs
  | cons dof cells ih =>
    rw [List.foldlM_cons] at hpass
    cases hstep : cellStep rand getNucleationProbability userInputs nuclei t inc
        num_quad_points s dof with
    | none => rw [hstep] at hpass; exact absurd hpass (by simp)
    | some s1 =>
      rw [hstep] at hpass
      refine ih s1 ?_ hpass
      unfold cellStep at hstep
      by_cases ho : dof.is_locally_owned = true
      · rw [if_pos ho] at hstep
        cases hg : (averagedValues userInputs num_quad_points dof).get (83 + 83 + 1) with
        | none => rw [hg] at hstep; exact absurd hstep (by simp)
        | some x =>
          rw [hg] at hstep
          have e := Option.some.inj hstep
          rw [← e]
          exact hloop dof _ s hs
      · rw [if_neg ho] at hstep
        have e := Option.some.inj hstep
        rw [← e]; exact hs

/-- The number of calls of the probability law for an order parameter that is
not skipped: one per locally owned cell and occurrence in
`nucleating_variable_indices`. -/
theorem foldlM_cellStep_oracle_count (rand : Nat → α)
    (getNucleationProbability : variableValueContainer α → α → Point dim α → Nat → α)
    (userInputs : userInputParameters dim α) (nuclei : List (nucleus dim α)) (t : α)
    (inc : Nat) (num_quad_points : Nat) (v : Nat)
    (hrun : numbercurrnuclei nuclei v = 0 ∨
      userInputs.multiple_nuclei_per_order_parameter = true)
    (cells : List (Cell dim α)) (s s2 : LocalPass dim α)
    (hpass : cells.foldlM
      (cellStep rand getNucleationProbability userInputs nuclei t inc num_quad_points) s =
        some s2) :
    s2.oracle_calls.count v =
      s.oracle_calls.count v +
        ownedCount cells * userInputs.nucleating_variable_indices.count v := by
  have hloop : ∀ dof (l : List Nat) (s : LocalPass dim α),
      (l.foldl (fun s variable_index =>
        nucleationAttempt rand getNucleationProbability userInputs nuclei t inc
          num_quad_points dof variable_index s) s).oracle_calls.count v =
        s.oracle_calls.count v + l.count v := by
    intro dof l
    induction l with
    | nil => intro s; simp
    | cons w l ih =>
      intro s
      rw [List.foldl_cons, ih, List.count_cons]
      rcases attempt_cases rand getNucleationProbability userInputs nuclei t inc
        num_quad_points dof w s with ⟨hskip, he⟩ | ⟨_, hcalls, _, _⟩
      · have hwv : w ≠ v := fun h => hskip (h ▸ hrun)
        rw [he]
        simp [hwv]
      · rw [hcalls, List.count_append, List.count_singleton]
        by_cases hwv : w = v
        · simp [hwv]; omega
        · simp [hwv]
  induction cells generalizing s with
  | nil =>
    have e : s = s2 := Option.some.inj hpass
    rw [← e]; simp [ownedCount]
  | cons dof cells ih =>
    rw [List.foldlM_cons] at hpass
    cases hstep : cellStep rand getNucleationProbability userInputs nuclei t inc
        num_quad_points s dof with
    | none => rw [hstep] at hpass; exact absurd hpass (by simp)
    | some s1 =>
      rw [hstep] at hpass
      rw [ih s1 hpass]
      unfold cellStep at hstep
      by_cases ho : dof.is_locally_owned = true
      · rw [if_pos ho] at hstep
        cases hg : (averagedValues userInputs num_quad_points dof).get (83 + 83 + 1) with
        | none => rw [hg] at hstep; exact absurd hstep (by simp)
        | some x =>
          rw [hg] at hstep
          have e := Option.some.inj hstep
          rw [← e]
          unfold channelLoop
          rw [hloop]
          simp only [ownedCount, List.filter_cons, ho, if_true, List.length_cons]
          rw [Nat.add_mul, Nat.one_mul]
          omega
      · rw [if_neg ho] at hstep
        have e := Option.some.inj hstep
        rw [← e]
        simp only [ownedCount, List.filter_cons, ho]
        rfl

end MatrixFreePDE

namespace MatrixFreePDE

variable {α : Type} [LinearOrderedField α] {dim : Nat}

/-- C11. Skip rule of `getLocalNucleiList` for an order parameter `v`. When
multiple nuclei per order parameter are disallowed and some nucleus of the world
list has order parameter `v`, an attempt for `v` changes nothing (no value is
taken from the generator, the probability law is not called), and a pass emits no
candidate with order parameter `v` and never calls the probability law for `v`.
When multiple nuclei are allowed or no existing nucleus has order parameter `v`,
every attempt for `v` takes a draw and calls the probability law, and in a pass
the law is called for `v` once per locally owned cell and occurrence of `v` in
`nucleating_variable_indices`. The pass has a result whenever variable 167 is
among `nucleation_need_value`. -/
theorem skip_rule_per_order_parameter (rand : Nat → α)
    (getNucleationProbability : variableValueContainer α → α → Point dim α → Nat → α)
    (userInputs : userInputParameters dim α) (nuclei : List (nucleus dim α)) (t : α)
    (inc : Nat) (num_quad_points : Nat) (cells : List (Cell dim α)) (v : Nat) :
    ((userInputs.multiple_nuclei_per_order_parameter = false ∧
        ∃ nuc ∈ nuclei, nuc.orderParameterIndex = v) →
      (∀ dof s, nucleationAttempt rand getNucleationProbability userInputs nuclei t inc
        num_quad_points dof v s = s) ∧
      ∀ s, getLocalNucleiList rand getNucleationProbability userInputs nuclei t inc
          num_quad_points cells [] = some s →
        (∀ c ∈ s.newnuclei, c.orderParameterIndex ≠ v) ∧ v ∉ s.oracle_calls) ∧
    ((userInputs.multiple_nuclei_per_order_parameter = true ∨
        ∀ nuc ∈ nuclei, nuc.orderParameterIndex ≠ v) →
      (∀ dof s,
        (nucleationAttempt rand getNucleationProbability userInputs nuclei t inc
          num_quad_points dof v s).oracle_calls = s.oracle_calls ++ [v] ∧
        s.draws + 1 ≤ (nucleationAttempt rand getNucleationProbability userInputs nuclei t
          inc num_quad_points dof v s).draws) ∧
      ∀ s, getLocalNucleiList rand getNucleationProbability userInputs nuclei t inc
          num_quad_points cells [] = some s →
        s.oracle_calls.count v =
          ownedCount cells * userInputs.nucleating_variable_indices.count v) ∧
    (167 ∈ userInputs.nucleation_need_value →
      ∃ s, getLocalNucleiList rand getNucleationProbability userInputs nuclei t inc
        num_quad_points cells [] = some s) := by
  refine ⟨?_, ?_, fun hneed => ⟨_, getLocalNucleiList_of_lookup rand
    getNucleationProbability userInputs nuclei t inc num_quad_points cells [] hneed⟩⟩
  · rintro ⟨hmulti, hown⟩
    have hskip : ¬ (numbercurrnuclei nuclei v = 0 ∨
        userInputs.multiple_nuclei_per_order_parameter = true) := by
      rintro (h | h)
      · obtain ⟨nuc, hn, hv⟩ := hown
        exact (numbercurrnuclei_eq_zero_iff nuclei v).mp h nuc hn hv
      · rw [hmulti] at h; exact absurd h (by simp)
    refine ⟨fun dof s => attempt_skipped _ _ _ _ _ _ _ _ _ _ hskip, ?_⟩
    intro s hs
    unfold getLocalNucleiList at hs
    refine foldlM_cellStep_invariant
      (fun s => (∀ c ∈ s.newnuclei, c.orderParameterIndex ≠ v) ∧ v ∉ s.oracle_calls)
      rand getNucleationProbability userInputs nuclei t inc num_quad_points ?_ cells _ s
      ⟨fun c hc => absurd hc (List.not_mem_nil c), List.not_mem_nil v⟩ hs
    intro dof w s0 hs0
    rcases attempt_cases rand getNucleationProbability userInputs nuclei t inc
      num_quad_points dof w s0 with ⟨_, he⟩ | ⟨hrun, hcalls, _, hnew⟩
    · rw [he]; exact hs0
    · have hwv : w ≠ v := fun h => hskip (h ▸ hrun)
      constructor
      · rcases hnew with h | h
        · rw [h]; exact hs0.1
        · rw [h]
          intro c hc
          rcases List.mem_append.mp hc with h1 | h1
          · exact hs0.1 c h1
          · rw [List.mem_singleton.mp h1]; exact hwv
      · rw [hcalls]
        intro hmem
        rcases List.mem_append.mp hmem with h1 | h1
        · exact hs0.2 h1
        · exact hwv (List.mem_singleton.mp h1).symm
  · intro hcond
    have hrun : numbercurrnuclei nuclei v = 0 ∨
        userInputs.multiple_nuclei_per_order_parameter = true := by
      rcases hcond with h | h
      · exact Or.inr h
      · exact Or.inl ((numbercurrnuclei_eq_zero_iff nuclei v).mpr h)
    constructor
    · intro dof s
      rcases attempt_cases rand getNucleationProbability userInputs nuclei t inc
        num_quad_points dof v s with ⟨hskip, _⟩ | ⟨_, hcalls, hdraws, _⟩
      · exact absurd hrun hskip
      · exact ⟨hcalls, hdraws⟩
    · intro s hs
      unfold getLocalNucleiList at hs
      have h := foldlM_cellStep_oracle_count rand getNucleationProbability userInputs nuclei
        t inc num_quad_points v hrun cells _ s hs
      rw [h]
      simp

/-- C11 on two cells with the nucleating variables 0 and 1, multiple nuclei
disallowed and one existing nucleus of order parameter 0: the pass has a result,
emits no candidate of order parameter 0, never calls the probability law for 0
and calls it twice for 1. -/
theorem skip_rule_per_order_parameter_witness :
    ∃ s, getLocalNucleiList (fun _ => (1 / 2 : ℚ)) (fun _ _ _ _ => 1)
        (Examples.twoChannelInputs ℚ) [Examples.candidate ℚ 0 0 ![30, 30]] 0 1 4
        [Examples.squareCell ℚ 40 40 20 0, Examples.squareCell ℚ 60 40 20 0] [] = some s ∧
      (∀ c ∈ s.newnuclei, c.orderParameterIndex ≠ 0) ∧ 0 ∉ s.oracle_calls ∧
      s.oracle_calls.count 1 = 2 := by
  obtain ⟨hskip, _, _⟩ := skip_rule_per_order_parameter (fun _ => (1 / 2 : ℚ))
    (fun _ _ _ _ => 1) (Examples.twoChannelInputs ℚ) [Examples.candidate ℚ 0 0 ![30, 30]]
    0 1 4 [Examples.squareCell ℚ 40 40 20 0, Examples.squareCell ℚ 60 40 20 0] 0
  obtain ⟨_, hrun, _⟩ := skip_rule_per_order_parameter (fun _ => (1 / 2 : ℚ))
    (fun _ _ _ _ => 1) (Examples.twoChannelInputs ℚ) [Examples.candidate ℚ 0 0 ![30, 30]]
    0 1 4 [Examples.squareCell ℚ 40 40 20 0, Examples.squareCell ℚ 60 40 20 0] 1
  have hs := getLocalNucleiList_of_lookup (fun _ => (1 / 2 : ℚ)) (fun _ _ _ _ => 1)
    (Examples.twoChannelInputs ℚ) [Examples.candidate ℚ 0 0 ![30, 30]] 0 1 4
    [Examples.squareCell ℚ 40 40 20 0, Examples.squareCell ℚ 60 40 20 0] []
    (by simp [Examples.twoChannelInputs, Examples.plainInputs])
  have h0 := (hskip ⟨rfl, _, List.mem_singleton.mpr rfl, rfl⟩).2 _ hs
  have h1 := (hrun (Or.inr (fun nuc hn => by
    rw [List.mem_singleton.mp hn]; decide))).2 _ hs
  exact ⟨_, hs, h0.1, h0.2, h1⟩

/-- C15. An attempt for order parameter `v` that emits a candidate pushes one
record whose center is the sampled position, whose semiaxes and hold time are the
ones configured for `v`, whose seeded time and seeding step are the current time
and increment and whose order parameter is `v`; and every candidate of a pass
has the semiaxes and hold time configured for its order parameter, the current
time and the current increment. The pass has a result whenever variable 167 is
among `nucleation_need_value`. -/
theorem emitted_candidate_fields (rand : Nat → α)
    (getNucleationProbability : variableValueContainer α → α → Point dim α → Nat → α)
    (userInputs : userInputParameters dim α) (nuclei : List (nucleus dim α)) (t : α)
    (inc : Nat) (num_quad_points : Nat) (cells : List (Cell dim α)) :
    (∀ dof v s,
      (nucleationAttempt rand getNucleationProbability userInputs nuclei t inc
        num_quad_points dof v s).newnuclei = s.newnuclei ∨
      ∃ c, (nucleationAttempt rand getNucleationProbability userInputs nuclei t inc
          num_quad_points dof v s).newnuclei = s.newnuclei ++ [c] ∧
        c.center = nuc_ele_pos rand num_quad_points dof (s.draws + 1) ∧
        c.semiaxes = userInputs.get_nucleus_semiaxes v ∧
        c.seedingTime = userInputs.get_nucleus_hold_time v ∧
        c.seededTime = t ∧ c.seedingTimestep = inc ∧ c.orderParameterIndex = v) ∧
    (∀ s, getLocalNucleiList rand getNucleationProbability userInputs nuclei t inc
        num_quad_points cells [] = some s →
      ∀ c ∈ s.newnuclei,
        c.semiaxes = userInputs.get_nucleus_semiaxes c.orderParameterIndex ∧
        c.seedingTime = userInputs.get_nucleus_hold_time c.orderParameterIndex ∧
        c.seededTime = t ∧ c.seedingTimestep = inc) ∧
    (167 ∈ userInputs.nucleation_need_value →
      ∃ s, getLocalNucleiList rand getNucleationProbability userInputs nuclei t inc
        num_quad_points cells [] = some s) := by
  refine ⟨?_, ?_, fun hneed => ⟨_, getLocalNucleiList_of_lookup rand
    getNucleationProbability userInputs nuclei t inc num_quad_points cells [] hneed⟩⟩
  · intro dof v s
    rcases attempt_cases rand getNucleationProbability userInputs nuclei t inc
      num_quad_points dof v s with ⟨_, he⟩ | ⟨_, _, _, hnew⟩
    · left; rw [he]
    · rcases hnew with h | h
      · left; exact h
      · right
        exact ⟨_, h, rfl, rfl, rfl, rfl, rfl, rfl⟩
  · intro s hs
    unfold getLocalNucleiList at hs
    exact foldlM_cellStep_keeps
      (fun c => c.semiaxes = userInputs.get_nucleus_semiaxes c.orderParameterIndex ∧
        c.seedingTime = userInputs.get_nucleus_hold_time c.orderParameterIndex ∧
        c.seededTime = t ∧ c.seedingTimestep = inc)
      rand getNucleationProbability userInputs nuclei t inc num_quad_points
      (fun _ _ => ⟨rfl, rfl, rfl, rfl⟩) cells _ s
      (fun c hc => absurd hc (List.not_mem_nil c)) hs

/-- C15 on two cells that both emit a candidate at time 7 and increment 3. -/
theorem emitted_candidate_fields_witness :
    ∃ s, getLocalNucleiList (fun _ => (1 / 2 : ℚ)) (fun _ _ _ _ => 1)
        (Examples.plainInputs ℚ) [] 7 3 4
        [Examples.squareCell ℚ 40 40 20 0, Examples.squareCell ℚ 60 40 20 0] [] = some s ∧
      ∀ c ∈ s.newnuclei, c.seededTime = 7 ∧ c.seedingTimestep = 3 := by
  have hs := getLocalNucleiList_of_lookup (fun _ => (1 / 2 : ℚ)) (fun _ _ _ _ => 1)
    (Examples.plainInputs ℚ) [] 7 3 4
    [Examples.squareCell ℚ 40 40 20 0, Examples.squareCell ℚ 60 40 20 0] []
    (by simp [Examples.plainInputs])
  have h := (emitted_candidate_fields (fun _ => (1 / 2 : ℚ)) (fun _ _ _ _ => 1)
    (Examples.plainInputs ℚ) [] 7 3 4
    [Examples.squareCell ℚ 40 40 20 0, Examples.squareCell ℚ 60 40 20 0]).2.1 _ hs
  exact ⟨_, hs, fun c hc => ⟨(h c hc).2.2.1, (h c hc).2.2.2⟩⟩

end MatrixFreePDE

namespace MatrixFreePDE

variable {α : Type} [LinearOrderedField α] {dim : Nat}

theorem anyqp_OK_iff (userInputs : userInputParameters dim α) (num_quad_points : Nat)
    (dof : Cell dim α) :
    anyqp_OK userInputs num_quad_points dof = true ↔
      ∃ q ∈ List.range num_quad_points,
        cutoffSumOp userInputs dof q < userInputs.nucleation_order_parameter_cutoff := by
  unfold anyqp_OK
  have h : ∀ (l : List Nat) (b : Bool),
      l.foldl (fun ok q_point =>
        if cutoffSumOp userInputs dof q_point < userInputs.nucleation_order_parameter_cutoff
        then true else ok) b = true ↔
      b = true ∨ ∃ q ∈ l,
        cutoffSumOp userInputs dof q < userInputs.nucleation_order_parameter_cutoff := by
    intro l
    induction l with
    | nil => intro b; simp
    | cons q l ih =>
      intro b
      rw [List.foldl_cons, ih]
      by_cases hq : cutoffSumOp userInputs dof q <
          userInputs.nucleation_order_parameter_cutoff
      · simp [hq]
      · simp [hq]
  rw [h]
  simp

theorem cutoffSumOp_eq_matched (userInputs : userInputParameters dim α) (dof : Cell dim α)
    (q : Nat) :
    cutoffSumOp userInputs dof q = matchedChannelSum userInputs dof q := by
  unfold cutoffSumOp matchedChannelSum
  have hinner : ∀ (need : Nat) (l : List Nat) (a : α),
      l.foldl (fun sum_op op => if need = op then sum_op + dof.function_values need q
        else sum_op) a =
        a + (l.count need : α) * dof.function_values need q := by
    intro need l
    induction l with
    | nil => intro a; simp
    | cons op l ih =>
      intro a
      rw [List.foldl_cons, ih, List.count_cons]
      by_cases h : need = op
      · subst h
        simp
        ring
      · have h2 : ¬ op = need := fun e => h e.symm
        simp [h, h2]
  have houter : ∀ (l : List Nat) (a : α),
      l.foldl (fun sum_op need =>
        userInputs.nucleating_variable_indices.foldl
          (fun sum_op op => if need = op then sum_op + dof.function_values need q
            else sum_op) sum_op) a =
        a + (l.map (fun need => (userInputs.nucleating_variable_indices.count need : α) *
          dof.function_values need q)).sum := by
    intro l
    induction l with
    | nil => intro a; simp
    | cons need l ih =>
      intro a
      rw [List.foldl_cons, ih, hinner]
      simp [add_assoc]
  rw [houter, zero_add]

theorem matched_eq_allChannels (userInputs : userInputParameters dim α) (dof : Cell dim α)
    (q : Nat)
    (hneed : userInputs.nucleation_need_value.Nodup)
    (hnuc : userInputs.nucleating_variable_indices.Nodup)
    (hsub : ∀ v ∈ userInputs.nucleating_variable_indices,
      v ∈ userInputs.nucleation_need_value) :
    matchedChannelSum userInputs dof q = allChannelsSum userInputs dof q := by
  unfold matchedChannelSum allChannelsSum
  rw [hnuc.dedup, ← List.sum_toFinset _ hneed, ← List.sum_toFinset _ hnuc]
  have hterm : ∀ x ∈ userInputs.nucleation_need_value.toFinset,
      (userInputs.nucleating_variable_indices.count x : α) * dof.function_values x q =
        if x ∈ userInputs.nucleating_variable_indices then dof.function_values x q else 0 := by
    intro x _
    by_cases hx : x ∈ userInputs.nucleating_variable_indices
    · rw [if_pos hx, List.count_eq_one_of_mem hnuc hx]
      simp
    · rw [if_neg hx, List.count_eq_zero_of_not_mem hx]
      simp
  rw [Finset.sum_congr rfl hterm, ← Finset.sum_filter]
  refine Finset.sum_congr ?_ (fun _ _ => rfl)
  ext x
  simp only [Finset.mem_filter, List.mem_toFinset]
  constructor
  · exact fun h => h.2
  · exact fun h => ⟨hsub x h, h⟩

theorem ele_box_congr (num_quad_points : Nat) (dof dof2 : Cell dim α)
    (h : dof.q_points = dof2.q_points) :
    ele_box num_quad_points dof = ele_box num_quad_points dof2 := by
  unfold ele_box boxSweep
  rw [h]

theorem pos_fieldCell (rand : Nat → α) (x y w : α) (values : Nat → α) (hw : 0 ≤ w)
    (draws : Nat) :
    nuc_ele_pos rand 4 (Examples.fieldCell α x y w values) draws =
      ![x + w * rand draws, y + w * rand (draws + 1)] := by
  rw [← pos_squareCell rand x y w 0 hw draws]
  unfold nuc_ele_pos
  rw [ele_box_congr 4 (Examples.fieldCell α x y w values) (Examples.squareCell α x y w 0) rfl]

end MatrixFreePDE

namespace MatrixFreePDE

variable {α : Type} [LinearOrderedField α] {dim : Nat}

theorem placeNucleus_newnuclei (rand : Nat → α) (userInputs : userInputParameters dim α)
    (nuclei : List (nucleus dim α)) (t : α) (inc : Nat) (num_quad_points : Nat)
    (dof : Cell dim α) (variable_index : Nat) (s : LocalPass dim α)
    (hsafe : insafetyzone userInputs variable_index
      (nuc_ele_pos rand num_quad_points dof s.draws) = true) :
    (placeNucleus rand userInputs nuclei t inc num_quad_points dof variable_index
        s).newnuclei =
      if ∃ q ∈ List.range num_quad_points,
          matchedChannelSum userInputs dof q < userInputs.nucleation_order_parameter_cutoff
      then s.newnuclei ++ [prospectiveNucleus userInputs nuclei t inc variable_index
        (nuc_ele_pos rand num_quad_points dof s.draws)]
      else s.newnuclei := by
  unfold placeNucleus
  simp only [hsafe, if_true]
  have hiff := anyqp_OK_iff userInputs num_quad_points dof
  simp only [cutoffSumOp_eq_matched] at hiff
  by_cases hok : anyqp_OK userInputs num_quad_points dof = true
  · rw [if_pos hok, if_pos (hiff.mp hok)]
  · rw [if_neg hok, if_neg (fun h => hok (hiff.mpr h))]

/-- C12 as stated fails when a nucleating variable is not among
`nucleation_need_value`. Variables 0 and 1 nucleate, the values of variables 0
and 167 are read, the cutoff is 1/100, and the cell has field 1 equal to 1 and
every other field 0: the position (50, 50) passes the border check, the sum over
all nucleating order parameters is 1 at every sample point, not below the cutoff,
and yet the candidate is emitted. -/
theorem cutoff_ignores_unread_channel :
    insafetyzone (Examples.twoChannelInputs ℚ) 0
      (nuc_ele_pos (fun _ => (1 / 2 : ℚ)) 4
        (Examples.fieldCell ℚ 40 40 20 (fun v => if v = 1 then 1 else 0)) 1) = true ∧
    (∀ q ∈ List.range 4,
      ¬ allChannelsSum (Examples.twoChannelInputs ℚ)
          (Examples.fieldCell ℚ 40 40 20 (fun v => if v = 1 then 1 else 0)) q <
        (Examples.twoChannelInputs ℚ).nucleation_order_parameter_cutoff) ∧
    (placeNucleus (fun _ => (1 / 2 : ℚ)) (Examples.twoChannelInputs ℚ) [] 0 1 4
      (Examples.fieldCell ℚ 40 40 20 (fun v => if v = 1 then 1 else 0)) 0
      { newnuclei := [], draws := 1, oracle_calls := [0] }).newnuclei.length = 1 := by
  have hsafe : insafetyzone (Examples.twoChannelInputs ℚ) 0
      (nuc_ele_pos (fun _ => (1 / 2 : ℚ)) 4
        (Examples.fieldCell ℚ 40 40 20 (fun v => if v = 1 then 1 else 0)) 1) = true := by
    rw [pos_fieldCell _ _ _ _ _ (by norm_num),
      insafetyzone_iff_inside _ _ _ (fun j => by
        simp [Examples.twoChannelInputs, Examples.plainInputs, Examples.nowherePeriodic])]
    intro j
    fin_cases j <;>
      simp [Examples.twoChannelInputs, Examples.plainInputs] <;> norm_num
  have hdedup : ([0, 1] : List Nat).dedup = [0, 1] := by decide
  refine ⟨hsafe, ?_, ?_⟩
  · intro q _
    simp [allChannelsSum, Examples.twoChannelInputs, Examples.plainInputs,
      Examples.fieldCell, hdedup]
    norm_num
  · have h := placeNucleus_newnuclei (fun _ => (1 / 2 : ℚ)) (Examples.twoChannelInputs ℚ)
      [] 0 1 4 (Examples.fieldCell ℚ 40 40 20 (fun v => if v = 1 then 1 else 0)) 0
      { newnuclei := [], draws := 1, oracle_calls := [0] } hsafe
    rw [h, if_pos]
    · rfl
    · refine ⟨0, by simp, ?_⟩
      simp [matchedChannelSum, Examples.twoChannelInputs, Examples.plainInputs,
        Examples.fieldCell]

/-- C12, amended. For a position that passed the border check a candidate is
emitted if and only if at least one sample point of the cell has the sum formed
by the cutoff test strictly below `nucleation_order_parameter_cutoff`; that sum
takes the value of a field once for every pair of an entry of
`nucleation_need_value` and an equal entry of `nucleating_variable_indices`. It
is the sum over all nucleating order parameters, each counted once, when both
lists are free of duplicates and every nucleating variable is among
`nucleation_need_value`. -/
theorem cutoff_guard_matched_channels (rand : Nat → α)
    (userInputs : userInputParameters dim α)
    (nuclei : List (nucleus dim α)) (t : α) (inc : Nat) (num_quad_points : Nat)
    (dof : Cell dim α) (variable_index : Nat) (s : LocalPass dim α)
    (hsafe : insafetyzone userInputs variable_index
      (nuc_ele_pos rand num_quad_points dof s.draws) = true) :
    (placeNucleus rand userInputs nuclei t inc num_quad_points dof variable_index
        s).newnuclei =
      (if ∃ q ∈ List.range num_quad_points,
          matchedChannelSum userInputs dof q < userInputs.nucleation_order_parameter_cutoff
      then s.newnuclei ++ [prospectiveNucleus userInputs nuclei t inc variable_index
        (nuc_ele_pos rand num_quad_points dof s.draws)]
      else s.newnuclei) ∧
    (userInputs.nucleation_need_value.Nodup →
      userInputs.nucleating_variable_indices.Nodup →
      (∀ v ∈ userInputs.nucleating_variable_indices,
        v ∈ userInputs.nucleation_need_value) →
      ∀ q, matchedChannelSum userInputs dof q = allChannelsSum userInputs dof q) :=
  ⟨placeNucleus_newnuclei rand userInputs nuclei t inc num_quad_points dof variable_index s
      hsafe,
    fun hneed hnuc hsub q => matched_eq_allChannels userInputs dof q hneed hnuc hsub⟩

/-- The amended C12 on the plain inputs and a cell whose fields are all 0: the
position (50, 50) passes the border check and the candidate is emitted. -/
theorem cutoff_guard_matched_channels_witness :
    (placeNucleus (fun _ => (1 / 2 : ℚ)) (Examples.plainInputs ℚ) [] 0 1 4
      (Examples.squareCell ℚ 40 40 20 0) 0
      { newnuclei := [], draws := 1, oracle_calls := [0] }).newnuclei.length = 1 := by
  have hsafe : insafetyzone (Examples.plainInputs ℚ) 0
      (nuc_ele_pos (fun _ => (1 / 2 : ℚ)) 4 (Examples.squareCell ℚ 40 40 20 0) 1) = true := by
    rw [pos_squareCell _ _ _ _ _ (by norm_num), insafetyzone_plainInputs]
    norm_num
  have h := (cutoff_guard_matched_channels (fun _ => (1 / 2 : ℚ)) (Examples.plainInputs ℚ)
    [] 0 1 4 (Examples.squareCell ℚ 40 40 20 0) 0
    { newnuclei := [], draws := 1, oracle_calls := [0] } hsafe).1
  rw [h, if_pos]
  · rfl
  · refine ⟨0, by simp, ?_⟩
    simp [matchedChannelSum, Examples.plainInputs, Examples.squareCell]

end MatrixFreePDE

namespace MatrixFreePDE

variable {α : Type} [LinearOrderedField α] [FloorRing α] {dim : Nat}

/-- Without a periodic axis the distance is the square root of the ellipsoid
sum. -/
theorem distance_eq_sqrt_ellipsoidSum (sqrt : α → α) (userInputs : userInputParameters dim α)
    (center : Point dim α) (semiaxes : Fin dim → α) (point : Point dim α) (var_index : Nat)
    (hnp : ∀ i : Fin dim,
      (userInputs.BC_list var_index).var_BC_type (2 * i) ≠ boundaryType.PERIODIC) :
    weightedDistanceFromNucleusCenter sqrt userInputs center semiaxes point var_index =
      sqrt (ellipsoidSum userInputs center semiaxes point var_index) := by
  unfold weightedDistanceFromNucleusCenter ellipsoidSum
  simp only [Tensor.norm, Tensor.norm_square, Tensor.contract, hnp, if_false]
  congr 1
  refine Finset.sum_congr rfl (fun i _ => ?_)
  have hneg : (Finset.univ.sum fun j => userInputs.get_nucleus_rotation_matrix var_index i j *
        (center j - point j)) =
      -(Finset.univ.sum fun j => userInputs.get_nucleus_rotation_matrix var_index i j *
        (point j - center j)) := by
    rw [← Finset.sum_neg_distrib]
    refine Finset.sum_congr rfl (fun j _ => ?_)
    ring
  rw [hneg, neg_div, neg_mul_neg, sq]

/-- A matrix with `Rᵀ R = 1` sends only the zero vector to zero. -/
theorem rotation_kernel_trivial (R : Fin dim → Fin dim → ℝ)
    (hR : (Matrix.of R).transpose * Matrix.of R = 1) (d : Fin dim → ℝ)
    (h : ∀ i, Finset.univ.sum (fun j => R i j * d j) = 0) : d = 0 := by
  have h1 : (Matrix.of R).mulVec d = 0 := by
    funext i
    simpa [Matrix.mulVec, Matrix.dotProduct] using h i
  have h2 : ((Matrix.of R).transpose * Matrix.of R).mulVec d = 0 := by
    rw [← Matrix.mulVec_mulVec, h1, Matrix.mulVec_zero]
  rwa [hR, Matrix.one_mulVec] at h2

/-- C16. With no periodic axis, positive semiaxes and a rotation `R`, the
distance is exactly 1 if and only if `x = R (p - c)` satisfies
`sum_i (x_i / a_i)^2 = 1`, it is below 1 if and only if the sum is below 1, and it
is 0 if and only if `p = c`; with the identity for `R` the point `c + a_i e_i`
has distance 1 for every axis `i`. -/
theorem distance_normalized_to_ellipsoid (userInputs : userInputParameters dim ℝ)
    (center : Point dim ℝ) (semiaxes : Fin dim → ℝ) (point : Point dim ℝ) (var_index : Nat)
    (hnp : ∀ i : Fin dim,
      (userInputs.BC_list var_index).var_BC_type (2 * i) ≠ boundaryType.PERIODIC)
    (ha : ∀ i, 0 < semiaxes i)
    (hR : (Matrix.of (userInputs.get_nucleus_rotation_matrix var_index)).transpose *
      Matrix.of (userInputs.get_nucleus_rotation_matrix var_index) = 1) :
    (weightedDistanceFromNucleusCenter Real.sqrt userInputs center semiaxes point var_index = 1 ↔
      ellipsoidSum userInputs center semiaxes point var_index = 1) ∧
    (weightedDistanceFromNucleusCenter Real.sqrt userInputs center semiaxes point var_index < 1 ↔
      ellipsoidSum userInputs center semiaxes point var_index < 1) ∧
    (weightedDistanceFromNucleusCenter Real.sqrt userInputs center semiaxes point var_index = 0 ↔
      point = center) ∧
    ((∀ i j, userInputs.get_nucleus_rotation_matrix var_index i j = if i = j then 1 else 0) →
      ∀ i, weightedDistanceFromNucleusCenter Real.sqrt userInputs center semiaxes
        (fun j => center j + if j = i then semiaxes i else 0) var_index = 1) := by
  have hnonneg : ∀ q : Point dim ℝ, 0 ≤ ellipsoidSum userInputs center semiaxes q var_index :=
    fun q => Finset.sum_nonneg (fun i _ => sq_nonneg _)
  refine ⟨?_, ?_, ?_, ?_⟩
  · rw [distance_eq_sqrt_ellipsoidSum Real.sqrt userInputs center semiaxes point var_index hnp]
    exact Real.sqrt_eq_one
  · rw [distance_eq_sqrt_ellipsoidSum Real.sqrt userInputs center semiaxes point var_index hnp,
      Real.sqrt_lt' one_pos]
    simp
  · rw [distance_eq_sqrt_ellipsoidSum Real.sqrt userInputs center semiaxes point var_index hnp,
      Real.sqrt_eq_zero (hnonneg point)]
    unfold ellipsoidSum
    rw [Finset.sum_eq_zero_iff_of_nonneg (fun i _ => sq_nonneg _)]
    constructor
    · intro h
      have hx : ∀ i, Finset.univ.sum (fun j =>
          userInputs.get_nucleus_rotation_matrix var_index i j * (point j - center j)) = 0 := by
        intro i
        have h1 := h i (Finset.mem_univ i)
        have h2 := pow_eq_zero_iff (two_ne_zero) |>.mp h1
        rcases div_eq_zero_iff.mp h2 with h3 | h3
        · exact h3
        · exact absurd h3 (ne_of_gt (ha i))
      have hd := rotation_kernel_trivial (userInputs.get_nucleus_rotation_matrix var_index) hR
        (fun j => point j - center j) hx
      funext j
      have := congrFun hd j
      simp only [Pi.zero_apply] at this
      linarith
    · intro h i _
      rw [h]
      simp
  · intro hid i
    rw [distance_eq_sqrt_ellipsoidSum Real.sqrt userInputs center semiaxes _ var_index hnp,
      Real.sqrt_eq_one]
    unfold ellipsoidSum
    have hterm : ∀ k : Fin dim,
        ((Finset.univ.sum fun j => userInputs.get_nucleus_rotation_matrix var_index k j *
          (center j + (if j = i then semiaxes i else 0) - center j)) / semiaxes k) ^ 2 =
        if k = i then 1 else 0 := by
      intro k
      have hsum : (Finset.univ.sum fun j => userInputs.get_nucleus_rotation_matrix var_index k j *
          (center j + (if j = i then semiaxes i else 0) - center j)) =
          if k = i then semiaxes i else 0 := by
        simp only [hid, add_sub_cancel_left, ite_mul, one_mul, zero_mul,
          Finset.sum_ite_eq, Finset.mem_univ, if_true]
      rw [hsum]
      by_cases hk : k = i
      · subst hk
        rw [if_pos rfl, if_pos rfl, div_self (ne_of_gt (ha k)), one_pow]
      · rw [if_neg hk, if_neg hk, zero_div]
        simp
    rw [Finset.sum_congr rfl (fun k _ => hterm k)]
    simp

/-- C16 on the plain inputs (no periodic face, no rotation) with center (3, 4)
and semiaxes (1, 2): the point (3, 4 + 2) has distance 1. -/
theorem distance_normalized_to_ellipsoid_witness :
    weightedDistanceFromNucleusCenter Real.sqrt (Examples.plainInputs ℝ) ![3, 4] ![1, 2]
      (fun j => (![3, 4] : Fin 2 → ℝ) j + if j = 1 then (![1, 2] : Fin 2 → ℝ) 1 else 0) 0 = 1 :=
  (distance_normalized_to_ellipsoid (Examples.plainInputs ℝ) ![3, 4] ![1, 2] ![3, 4] 0
    (fun i => by simp [Examples.plainInputs, Examples.nowherePeriodic])
    (fun i => by fin_cases i <;> simp)
    (by
      ext i j
      simp only [Matrix.mul_apply, Matrix.transpose_apply, Matrix.of_apply,
        Examples.plainInputs, Matrix.one_apply]
      fin_cases i <;> fin_cases j <;> simp [Fin.sum_univ_two])).2.2.2
    (fun i j => rfl) 1

end MatrixFreePDE

namespace MatrixFreePDE

variable {α : Type} [LinearOrderedField α] [FloorRing α] {dim : Nat}

theorem refineNucleusLoop_iff (sqrt : α → α) (userInputs : userInputParameters dim α)
    (dof : Cell dim α) (q_point : Nat) (nuclei : List (nucleus dim α)) :
    refineNucleusLoop sqrt userInputs dof q_point nuclei = true ↔
      dof.level < userInputs.max_refinement_level ∧
      ∃ nuc ∈ nuclei,
        weightedDistanceFromNucleusCenter sqrt userInputs nuc.center
            (userInputs.get_nucleus_freeze_semiaxes nuc.orderParameterIndex)
            (dof.q_points q_point) nuc.orderParameterIndex < 1 ∨
          pointDistance sqrt nuc.center (dof.q_points q_point) <
            diag_dist sqrt userInputs dof.level := by
  induction nuclei with
  | nil => simp [refineNucleusLoop]
  | cons nuc rest ih =>
    unfold refineNucleusLoop
    by_cases hc : weightedDistanceFromNucleusCenter sqrt userInputs nuc.center
            (userInputs.get_nucleus_freeze_semiaxes nuc.orderParameterIndex)
            (dof.q_points q_point) nuc.orderParameterIndex < 1 ∨
          pointDistance sqrt nuc.center (dof.q_points q_point) <
            diag_dist sqrt userInputs dof.level
    · by_cases hl : dof.level < userInputs.max_refinement_level
      · simp only [if_pos hc, if_pos hl, true_iff]
        exact ⟨hl, nuc, List.mem_cons_self _ _, hc⟩
      · simp only [if_pos hc, if_neg hl, ih]
        constructor
        · intro h; exact absurd h.1 hl
        · intro h; exact absurd h.1 hl
    · simp only [if_neg hc, ih]
      constructor
      · rintro ⟨hl, n2, hm, h2⟩
        exact ⟨hl, n2, List.mem_cons_of_mem _ hm, h2⟩
      · rintro ⟨hl, n2, hm, h2⟩
        rcases List.mem_cons.mp hm with rfl | hm2
        · exact absurd h2 hc
        · exact ⟨hl, n2, hm2, h2⟩

theorem refineQuadratureLoop_iff (sqrt : α → α) (userInputs : userInputParameters dim α)
    (newnuclei : List (nucleus dim α)) (dof : Cell dim α) (qs : List Nat) :
    refineQuadratureLoop sqrt userInputs newnuclei dof qs = true ↔
      ∃ q ∈ qs, refineNucleusLoop sqrt userInputs dof q newnuclei = true := by
  induction qs with
  | nil => simp [refineQuadratureLoop]
  | cons q qs ih =>
    unfold refineQuadratureLoop
    by_cases hq : refineNucleusLoop sqrt userInputs dof q newnuclei = true
    · simp only [if_pos hq, true_iff]
      exact ⟨q, List.mem_cons_self _ _, hq⟩
    · simp only [if_neg hq, ih]
      constructor
      · rintro ⟨q2, hm, h2⟩
        exact ⟨q2, List.mem_cons_of_mem _ hm, h2⟩
      · rintro ⟨q2, hm, h2⟩
        rcases List.mem_cons.mp hm with rfl | hm2
        · exact absurd h2 hq
        · exact ⟨q2, hm2, h2⟩

theorem cellRefineFlag_iff_diag_dist (sqrt : α → α) (userInputs : userInputParameters dim α)
    (num_quad_points : Nat) (newnuclei : List (nucleus dim α)) (dof : Cell dim α) :
    cellRefineFlag sqrt userInputs num_quad_points newnuclei dof = true ↔
      dof.is_locally_owned = true ∧ dof.level < userInputs.max_refinement_level ∧
        ∃ nuc ∈ newnuclei, ∃ q ∈ List.range num_quad_points,
          weightedDistanceFromNucleusCenter sqrt userInputs nuc.center
              (userInputs.get_nucleus_freeze_semiaxes nuc.orderParameterIndex)
              (dof.q_points q) nuc.orderParameterIndex < 1 ∨
            pointDistance sqrt nuc.center (dof.q_points q) <
              diag_dist sqrt userInputs dof.level := by
  unfold cellRefineFlag
  by_cases ho : dof.is_locally_owned = true
  · rw [if_pos ho, refineQuadratureLoop_iff]
    simp only [refineNucleusLoop_iff]
    constructor
    · rintro ⟨q, hq, hl, nuc, hn, hc⟩
      exact ⟨ho, hl, nuc, hn, q, hq, hc⟩
    · rintro ⟨_, hl, nuc, hn, q, hq, hc⟩
      exact ⟨q, hq, hl, nuc, hn, hc⟩
  · rw [if_neg ho]
    constructor
    · intro h; exact absurd h (by simp)
    · intro h; exact absurd h.1 ho

end MatrixFreePDE

namespace MatrixFreePDE

variable {α : Type} [LinearOrderedField α] [FloorRing α] {dim : Nat}

omit [LinearOrderedField α] [FloorRing α] in
theorem remeshBound_of_le (userInputs : userInputParameters dim α)
    (hle : userInputs.min_refinement_level ≤ userInputs.max_refinement_level)
    (hrange : userInputs.max_refinement_level < 2 ^ 32) :
    remeshBound userInputs =
      userInputs.max_refinement_level - userInputs.min_refinement_level := by
  unfold remeshBound
  have e : (2 : Nat) ^ 32 = 4294967296 := by norm_num
  rw [e] at hrange ⊢
  omega

omit [LinearOrderedField α] [FloorRing α] in
theorem remeshBound_of_eq (userInputs : userInputParameters dim α)
    (heq : userInputs.max_refinement_level = userInputs.min_refinement_level) :
    remeshBound userInputs = 0 := by
  unfold remeshBound
  rw [heq, Nat.add_sub_cancel_left, Nat.mod_self]

omit [LinearOrderedField α] [FloorRing α] in
theorem mem_dropLast_cons {β : Type} (a p : β) (l : List β) (h : p ∈ (a :: l).dropLast) :
    (p = a ∧ l ≠ []) ∨ p ∈ l.dropLast := by
  cases l with
  | nil => simp at h
  | cons b l =>
    rw [List.dropLast_cons₂] at h
    rcases List.mem_cons.mp h with h1 | h1
    · exact Or.inl ⟨h1, by simp⟩
    · exact Or.inr h1

/-- The rounds of the remeshing loop: at most `remaining` many, and every round
but the last one changed the unknown count. -/
theorem remeshLoop_rounds (refine_and_reinit : List Bool → Mesh dim α → Mesh dim α)
    (sqrt : α → α) (userInputs : userInputParameters dim α) (num_quad_points : Nat)
    (newnuclei : List (nucleus dim α)) (remaining : Nat) (mesh : Mesh dim α) :
    (remeshLoop refine_and_reinit sqrt userInputs num_quad_points newnuclei remaining mesh
        mesh.totalDOFs).2.length ≤ remaining ∧
    ∀ p ∈ (remeshLoop refine_and_reinit sqrt userInputs num_quad_points newnuclei remaining
        mesh mesh.totalDOFs).2.dropLast, p.2 ≠ p.1 := by
  induction remaining generalizing mesh with
  | zero => simp [remeshLoop]
  | succ k ih =>
    unfold remeshLoop
    by_cases hfix : (refine_and_reinit
        (refineFlags sqrt userInputs num_quad_points newnuclei mesh.cells) mesh).totalDOFs =
          mesh.totalDOFs
    · simp only [if_pos hfix]
      simp
    · simp only [if_neg hfix]
      obtain ⟨h1, h2⟩ := ih (refine_and_reinit
        (refineFlags sqrt userInputs num_quad_points newnuclei mesh.cells) mesh)
      constructor
      · rw [List.length_cons]
        omega
      · intro p hp
        rcases mem_dropLast_cons _ _ _ hp with ⟨hpa, _⟩ | hpl
        · rw [hpa]
          exact hfix
        · exact h2 p hpl

/-- C20. For every mesh manager and every list of new nuclei,
`refineMeshNearNuclei` performs at most `max_refinement_level -
min_refinement_level` rounds (the unsigned difference of line 498, which is the
difference of the two levels whenever the minimum is at most the maximum),
performs none when the two levels are equal, and performs no round after one
whose unknown count equals the count before it. -/
theorem remesh_rounds_bounded (refine_and_reinit : List Bool → Mesh dim α → Mesh dim α)
    (sqrt : α → α) (userInputs : userInputParameters dim α) (num_quad_points : Nat)
    (mesh : Mesh dim α) (newnuclei : List (nucleus dim α)) :
    (refineMeshNearNuclei refine_and_reinit sqrt userInputs num_quad_points mesh
        newnuclei).2.length ≤ remeshBound userInputs ∧
    (userInputs.min_refinement_level ≤ userInputs.max_refinement_level →
      userInputs.max_refinement_level < 2 ^ 32 →
      (refineMeshNearNuclei refine_and_reinit sqrt userInputs num_quad_points mesh
        newnuclei).2.length ≤
          userInputs.max_refinement_level - userInputs.min_refinement_level) ∧
    (userInputs.max_refinement_level = userInputs.min_refinement_level →
      (refineMeshNearNuclei refine_and_reinit sqrt userInputs num_quad_points mesh
        newnuclei).2 = []) ∧
    ∀ p ∈ (refineMeshNearNuclei refine_and_reinit sqrt userInputs num_quad_points mesh
        newnuclei).2.dropLast, p.2 ≠ p.1 := by
  have h := remeshLoop_rounds refine_and_reinit sqrt userInputs num_quad_points newnuclei
    (remeshBound userInputs) mesh
  refine ⟨h.1, ?_, ?_, h.2⟩
  · intro hle hrange
    rw [← remeshBound_of_le userInputs hle hrange]
    exact h.1
  · intro heq
    have h0 : (refineMeshNearNuclei refine_and_reinit sqrt userInputs num_quad_points mesh
        newnuclei).2.length ≤ remeshBound userInputs := h.1
    rw [remeshBound_of_eq userInputs heq] at h0
    exact List.length_eq_zero.mp (Nat.le_zero.mp h0)

theorem refineFlags_no_nuclei (sqrt : α → α) (userInputs : userInputParameters dim α)
    (num_quad_points : Nat) (cells : List (Cell dim α)) :
    ∀ b ∈ refineFlags sqrt userInputs num_quad_points [] cells, b = false := by
  intro b hb
  unfold refineFlags at hb
  obtain ⟨dof, _, hdof⟩ := List.mem_map.mp hb
  rw [← hdof, ← Bool.not_eq_true, cellRefineFlag_iff_diag_dist]
  rintro ⟨_, _, nuc, hn, _⟩
  exact absurd hn (List.not_mem_nil nuc)

/-- C13. With an empty list of new nuclei and `max_refinement_level` above
`min_refinement_level`, the first round of `refineMeshNearNuclei` sets no refine
flag; with a mesh manager whose unknown count does not change when no flag is
set, that round leaves the unknown count as it was and is the only round. -/
theorem refinement_fixed_point (refine_and_reinit : List Bool → Mesh dim α → Mesh dim α)
    (sqrt : α → α) (userInputs : userInputParameters dim α) (num_quad_points : Nat)
    (mesh : Mesh dim α)
    (hlt : userInputs.min_refinement_level < userInputs.max_refinement_level)
    (hrange : userInputs.max_refinement_level < 2 ^ 32)
    (hfix : ∀ flags m, (∀ b ∈ flags, b = false) →
      (refine_and_reinit flags m).totalDOFs = m.totalDOFs) :
    (∀ b ∈ refineFlags sqrt userInputs num_quad_points [] mesh.cells, b = false) ∧
    (refineMeshNearNuclei refine_and_reinit sqrt userInputs num_quad_points mesh []).2 =
      [(mesh.totalDOFs, mesh.totalDOFs)] := by
  have hflags := refineFlags_no_nuclei sqrt userInputs num_quad_points mesh.cells
  refine ⟨hflags, ?_⟩
  have hb : remeshBound userInputs =
      (userInputs.max_refinement_level - userInputs.min_refinement_level - 1) + 1 := by
    rw [remeshBound_of_le userInputs (le_of_lt hlt) hrange]
    omega
  unfold refineMeshNearNuclei
  rw [hb]
  unfold remeshLoop
  have hsame := hfix _ mesh hflags
  simp only [hsame, if_true]

/-- C13 on a one cell mesh with 9 unknowns, levels 0 to 2 and a mesh manager that
leaves the mesh alone: one round, from 9 to 9 unknowns. -/
theorem refinement_fixed_point_witness :
    (refineMeshNearNuclei (Examples.idleManager ℚ) id (Examples.refineInputs ℚ) 4
      { cells := [Examples.squareCell ℚ 0 0 100 0], totalDOFs := 9 } []).2 = [(9, 9)] :=
  (refinement_fixed_point (Examples.idleManager ℚ) id (Examples.refineInputs ℚ) 4
    { cells := [Examples.squareCell ℚ 0 0 100 0], totalDOFs := 9 }
    (by decide) (by norm_num [Examples.refineInputs, Examples.plainInputs]) (fun _ _ _ => rfl)).2

end MatrixFreePDE

namespace MatrixFreePDE

variable {α : Type} [LinearOrderedField α] [FloorRing α] {dim : Nat}

theorem getNewNuclei_eq_some {σ : Type} (ext : Collaborators dim α σ)
    (userInputs : userInputParameters dim α) (num_quad_points : Nat)
    (nuclei : List (nucleus dim α)) (cells : List (Cell dim α)) (t : α) (inc : Nat)
    (new_nuclei : List (nucleus dim α))
    (h : getNewNuclei ext userInputs num_quad_points nuclei cells t inc = some new_nuclei) :
    ∃ pass, getLocalNucleiList ext.rand ext.getNucleationProbability userInputs nuclei t inc
        num_quad_points cells [] = some pass ∧
      new_nuclei = (ext.reconciler.removeSubsetOfNuclei
        (reconciledBatch ext userInputs nuclei pass.newnuclei).1
        (safetyCheckNewNuclei ext.sqrt userInputs num_quad_points cells
          (reconciledBatch ext userInputs nuclei pass.newnuclei).2 [])
        nuclei.length).2 := by
  unfold getNewNuclei at h
  cases hp : getLocalNucleiList ext.rand ext.getNucleationProbability userInputs nuclei t inc
      num_quad_points cells [] with
  | none => rw [hp] at h; exact absurd h (by simp)
  | some pass =>
    rw [hp] at h
    exact ⟨pass, rfl, (Option.some.inj h).symm⟩

theorem getNewNuclei_of_lookup {σ : Type} (ext : Collaborators dim α σ)
    (userInputs : userInputParameters dim α) (num_quad_points : Nat)
    (nuclei : List (nucleus dim α)) (cells : List (Cell dim α)) (t : α) (inc : Nat)
    (hneed : 167 ∈ userInputs.nucleation_need_value) :
    ∃ new_nuclei,
      getNewNuclei ext userInputs num_quad_points nuclei cells t inc = some new_nuclei := by
  unfold getNewNuclei
  rw [getLocalNucleiList_of_lookup _ _ _ _ _ _ _ _ _ hneed]
  exact ⟨_, rfl⟩

theorem updateNucleiList_of_lookup {σ : Type} (ext : Collaborators dim α σ)
    (userInputs : userInputParameters dim α) (num_quad_points : Nat) (s : Solver dim α)
    (hneed : 167 ∈ userInputs.nucleation_need_value)
    (hsteps : userInputs.steps_between_nucleation_attempts ≠ 0) :
    ∃ report, updateNucleiList ext userInputs num_quad_points s = some report := by
  unfold updateNucleiList
  obtain ⟨new_nuclei, hg⟩ := getNewNuclei_of_lookup ext userInputs num_quad_points s.nuclei
    (ext.distribute s.mesh.cells) s.currentTime s.currentIncrement hneed
  simp only [hg, if_neg hsteps]
  split_ifs <;> exact ⟨_, rfl⟩

end MatrixFreePDE

namespace MatrixFreePDE

variable {α : Type} [LinearOrderedField α] [FloorRing α] {dim : Nat}

omit [FloorRing α] in
theorem averagedValues_get_none (userInputs : userInputParameters dim α)
    (num_quad_points : Nat) (dof : Cell dim α) (v : Nat)
    (hv : v ∉ userInputs.nucleation_need_value) :
    (averagedValues userInputs num_quad_points dof).get v = none := by
  cases hg : (averagedValues userInputs num_quad_points dof).get v with
  | none => rfl
  | some x =>
    have h := (averagedValues_get_isSome_iff userInputs num_quad_points dof v).mp
      (by rw [hg]; rfl)
    exact absurd h hv

/-- C24, the code at a failing input. With only variable 0 among
`nucleation_need_value` the container of a cell holds an average for variable 0
alone, and the lookup `variable_values(83+83+1)` of line 206, made for every
locally owned cell, finds no value: the pass over one cell has no result. -/
theorem debug_lookup_of_unread_variable :
    (83 + 83 + 1) ∉ (Examples.orderParameterOnlyInputs ℚ).nucleation_need_value ∧
    (averagedValues (Examples.orderParameterOnlyInputs ℚ) 4
      (Examples.squareCell ℚ 40 40 20 0)).get (83 + 83 + 1) = none ∧
    getLocalNucleiList (fun _ => (1 / 2 : ℚ)) (fun _ _ _ _ => 1)
      (Examples.orderParameterOnlyInputs ℚ) [] 0 1 4
      [Examples.squareCell ℚ 40 40 20 0] [] = none := by
  have hv : (83 + 83 + 1) ∉ (Examples.orderParameterOnlyInputs ℚ).nucleation_need_value := by
    simp [Examples.orderParameterOnlyInputs]
  have hget := averagedValues_get_none (Examples.orderParameterOnlyInputs ℚ) 4
    (Examples.squareCell ℚ 40 40 20 0) (83 + 83 + 1) hv
  refine ⟨hv, hget, ?_⟩
  unfold getLocalNucleiList
  rw [List.foldlM_cons]
  unfold cellStep
  have hown : (Examples.squareCell ℚ 40 40 20 0).is_locally_owned = true := rfl
  rw [if_pos hown, hget]
  rfl

theorem safetyCheck_unique_eq (sqrt : α → α)
    (userInputs : userInputParameters dim α) (num_quad_points : Nat)
    (cells : List (Cell dim α)) (newnuclei : List (nucleus dim α))
    (conflict_ids : List Nat)
    (hmulti : userInputs.multiple_nuclei_per_order_parameter = false) :
    safetyCheckNewNuclei sqrt userInputs num_quad_points cells newnuclei conflict_ids =
      (conflict_ids ++ newnuclei.map nucleus.index) ++ (newnuclei.filter
        (fun c => decide (overlapsLocally sqrt userInputs num_quad_points cells c))).map
          nucleus.index := by
  unfold safetyCheckNewNuclei
  simp only [hmulti, Bool.not_false, if_true]
  rw [nucleusCycle_eq, uniquenessPass_eq]

theorem safetyCheck_unique_mem (sqrt : α → α)
    (userInputs : userInputParameters dim α) (num_quad_points : Nat)
    (cells : List (Cell dim α)) (newnuclei : List (nucleus dim α))
    (conflict_ids : List Nat)
    (hmulti : userInputs.multiple_nuclei_per_order_parameter = false)
    (c : nucleus dim α) (hc : c ∈ newnuclei) :
    c.index ∈ safetyCheckNewNuclei sqrt userInputs num_quad_points cells newnuclei
      conflict_ids := by
  rw [safetyCheck_unique_eq sqrt userInputs num_quad_points cells newnuclei conflict_ids
    hmulti]
  exact List.mem_append_left _ (List.mem_append_right _ (List.mem_map_of_mem _ hc))

/-- C23. With multiple nuclei per order parameter disallowed, the order
parameter check pushes the id of the candidate of a single candidate batch (the
candidate is compared with itself); the id of every candidate of every batch is
in `conflict_ids` after `safetyCheckNewNuclei`; and the list `getNewNuclei`
returns is what `removeSubsetOfNuclei` of the reconciler returns for conflict ids
that hold the id of every candidate of the reconciled batch. -/
theorem every_candidate_is_flagged {σ : Type} (ext : Collaborators dim α σ)
    (userInputs : userInputParameters dim α) (num_quad_points : Nat)
    (cells : List (Cell dim α))
    (hmulti : userInputs.multiple_nuclei_per_order_parameter = false) :
    (∀ (c : nucleus dim α) (ids : List Nat), uniquenessPass [c] ids = ids ++ [c.index]) ∧
    (∀ (batch : List (nucleus dim α)) (ids : List Nat), ∀ c ∈ batch,
      c.index ∈ safetyCheckNewNuclei ext.sqrt userInputs num_quad_points cells batch ids) ∧
    (∀ (nuclei : List (nucleus dim α)) (t : α) (inc : Nat) (new_nuclei : List (nucleus dim α)),
      getNewNuclei ext userInputs num_quad_points nuclei cells t inc = some new_nuclei →
      ∃ pass, getLocalNucleiList ext.rand ext.getNucleationProbability userInputs nuclei t inc
          num_quad_points cells [] = some pass ∧
        new_nuclei = (ext.reconciler.removeSubsetOfNuclei
          (reconciledBatch ext userInputs nuclei pass.newnuclei).1
          (safetyCheckNewNuclei ext.sqrt userInputs num_quad_points cells
            (reconciledBatch ext userInputs nuclei pass.newnuclei).2 [])
          nuclei.length).2 ∧
        ∀ c ∈ (reconciledBatch ext userInputs nuclei pass.newnuclei).2,
          c.index ∈ safetyCheckNewNuclei ext.sqrt userInputs num_quad_points cells
            (reconciledBatch ext userInputs nuclei pass.newnuclei).2 []) := by
  refine ⟨fun c ids => uniquenessPass_eq [c] ids, ?_, ?_⟩
  · intro batch ids c hc
    exact safetyCheck_unique_mem ext.sqrt userInputs num_quad_points cells batch ids hmulti
      c hc
  · intro nuclei t inc new_nuclei h
    obtain ⟨pass, hp, hn⟩ := getNewNuclei_eq_some ext userInputs num_quad_points nuclei cells
      t inc new_nuclei h
    exact ⟨pass, hp, hn, fun c hc => safetyCheck_unique_mem ext.sqrt userInputs
      num_quad_points cells _ [] hmulti c hc⟩

/-- C23 on the batch of the single candidate 0 with order parameter 3 and no cell
to scan: its id is among the conflict ids. -/
theorem every_candidate_is_flagged_witness :
    0 ∈ safetyCheckNewNuclei Real.sqrt (Examples.uniqueInputs ℝ) 4 []
      [Examples.candidate ℝ 0 3 ![20, 20]] [] :=
  (every_candidate_is_flagged (Examples.plainCollaborators ℝ Real.sqrt)
    (Examples.uniqueInputs ℝ) 4 [] rfl).2.1 [Examples.candidate ℝ 0 3 ![20, 20]] []
    (Examples.candidate ℝ 0 3 ![20, 20]) (List.mem_singleton.mpr rfl)

end MatrixFreePDE

namespace MatrixFreePDE

variable {α : Type} [LinearOrderedField α] [FloorRing α] {dim : Nat}

/-- Every way a call of `updateNucleiList` with a result can have gone. -/
theorem updateNucleiList_cases {σ : Type} (ext : Collaborators dim α σ)
    (userInputs : userInputParameters dim α) (num_quad_points : Nat) (s : Solver dim α)
    (report : UpdateReport dim α)
    (h : updateNucleiList ext userInputs num_quad_points s = some report) :
    (¬ (userInputs.nucleation_occurs = true ∧
          (s.currentIncrement % userInputs.steps_between_nucleation_attempts = 0 ∨
            s.currentIncrement = 1) ∧
          userInputs.nucleation_start_time ≤ userInputs.dtValue * (s.currentIncrement : α) ∧
          userInputs.dtValue * (s.currentIncrement : α) ≤ userInputs.nucleation_end_time) ∧
      report.solver = s ∧ report.attempted = false ∧ report.refinement = none) ∨
    ((userInputs.nucleation_occurs = true ∧
          (s.currentIncrement % userInputs.steps_between_nucleation_attempts = 0 ∨
            s.currentIncrement = 1) ∧
          userInputs.nucleation_start_time ≤ userInputs.dtValue * (s.currentIncrement : α) ∧
          userInputs.dtValue * (s.currentIncrement : α) ≤ userInputs.nucleation_end_time) ∧
      report.attempted = true ∧
      ∃ new_nuclei, report.solver.nuclei = s.nuclei ++ new_nuclei ∧
        (report.refinement = none ∨
          (0 < new_nuclei.length ∧ userInputs.h_adaptivity = true))) := by
  unfold updateNucleiList at h
  by_cases h1 : userInputs.nucleation_occurs = true
  · rw [if_pos h1] at h
    by_cases h0 : userInputs.steps_between_nucleation_attempts = 0
    · rw [if_pos h0] at h
      exact absurd h (by simp)
    rw [if_neg h0] at h
    by_cases h2 : s.currentIncrement % userInputs.steps_between_nucleation_attempts = 0 ∨
        s.currentIncrement = 1
    · rw [if_pos h2] at h
      by_cases h3 : userInputs.dtValue * (s.currentIncrement : α) ≥
            userInputs.nucleation_start_time ∧
          userInputs.dtValue * (s.currentIncrement : α) ≤ userInputs.nucleation_end_time
      · rw [if_pos h3] at h
        cases hg : getNewNuclei ext userInputs num_quad_points s.nuclei
            (ext.distribute s.mesh.cells) s.currentTime s.currentIncrement with
        | none => simp only [hg] at h; exact absurd h (by simp)
        | some new_nuclei =>
          simp only [hg] at h
          right
          refine ⟨⟨h1, h2, h3.1, h3.2⟩, ?_⟩
          by_cases h4 : new_nuclei.length > 0 ∧ userInputs.h_adaptivity = true
          · rw [if_pos h4] at h
            have e := Option.some.inj h
            rw [← e]
            exact ⟨rfl, new_nuclei, rfl, Or.inr h4⟩
          · rw [if_neg h4] at h
            have e := Option.some.inj h
            rw [← e]
            exact ⟨rfl, new_nuclei, rfl, Or.inl rfl⟩
      · rw [if_neg h3] at h
        have e := Option.some.inj h
        rw [← e]
        exact Or.inl ⟨fun hc => h3 ⟨hc.2.2.1, hc.2.2.2⟩, rfl, rfl, rfl⟩
    · rw [if_neg h2] at h
      have e := Option.some.inj h
      rw [← e]
      exact Or.inl ⟨fun hc => h2 hc.2.1, rfl, rfl, rfl⟩
  · rw [if_neg h1] at h
    have e := Option.some.inj h
    rw [← e]
    exact Or.inl ⟨fun hc => h1 hc.1, rfl, rfl, rfl⟩

/-- C22. For a call of `updateNucleiList` with a result, `getNewNuclei` (local
generation and reconciliation) is called if and only if nucleation is enabled,
the current increment is 1 or a multiple of `steps_between_nucleation_attempts`,
and `nucleation_start_time <= dtValue * increment <= nucleation_end_time`, both
ends included; when it is not called the solver, its nucleus list included, is
left as it was and the mesh is not refined; and `refineMeshNearNuclei` is called
only when the attempt was made, at least one nucleus was appended and
h-adaptivity is on. -/
theorem attempt_gating {σ : Type} (ext : Collaborators dim α σ)
    (userInputs : userInputParameters dim α) (num_quad_points : Nat) (s : Solver dim α)
    (report : UpdateReport dim α)
    (h : updateNucleiList ext userInputs num_quad_points s = some report) :
    (report.attempted = true ↔
      (userInputs.nucleation_occurs = true ∧
        (s.currentIncrement % userInputs.steps_between_nucleation_attempts = 0 ∨
          s.currentIncrement = 1) ∧
        userInputs.nucleation_start_time ≤ userInputs.dtValue * (s.currentIncrement : α) ∧
        userInputs.dtValue * (s.currentIncrement : α) ≤ userInputs.nucleation_end_time)) ∧
    (report.attempted = false → report.solver = s ∧ report.refinement = none) ∧
    (∀ rounds, report.refinement = some rounds →
      report.attempted = true ∧ userInputs.h_adaptivity = true ∧
        s.nuclei.length < report.solver.nuclei.length) := by
  rcases updateNucleiList_cases ext userInputs num_quad_points s report h with
    ⟨hgate, hs, ha, hr⟩ | ⟨hgate, ha, new_nuclei, hn, hr⟩
  · refine ⟨⟨fun ht => ?_, fun hg => absurd hg hgate⟩, fun _ => ⟨hs, hr⟩, ?_⟩
    · rw [ha] at ht
      exact absurd ht (by simp)
    · intro rounds hrounds
      rw [hr] at hrounds
      exact absurd hrounds (by simp)
  · refine ⟨⟨fun _ => hgate, fun _ => ha⟩, ?_, ?_⟩
    · intro hf
      rw [ha] at hf
      exact absurd hf (by simp)
    · intro rounds hrounds
      rcases hr with hnone | ⟨hlen, hadapt⟩
      · rw [hnone] at hrounds
        exact absurd hrounds (by simp)
      · refine ⟨ha, hadapt, ?_⟩
        rw [hn, List.length_append]
        omega

/-- C22 on the single process solver at increment 1 with time step 1 and the
window from 0 to 1000: the attempt is made. -/
theorem attempt_gating_witness :
    ∃ report, updateNucleiList (Examples.plainCollaborators ℝ Real.sqrt)
        (Examples.plainInputs ℝ) 4 (Examples.freshSolver ℝ) = some report ∧
      report.attempted = true := by
  obtain ⟨report, hr⟩ := updateNucleiList_of_lookup (Examples.plainCollaborators ℝ Real.sqrt)
    (Examples.plainInputs ℝ) 4 (Examples.freshSolver ℝ) (by simp [Examples.plainInputs])
    (by simp [Examples.plainInputs])
  refine ⟨report, hr, (attempt_gating (Examples.plainCollaborators ℝ Real.sqrt)
    (Examples.plainInputs ℝ) 4 (Examples.freshSolver ℝ) report hr).1.mpr ?_⟩
  refine ⟨rfl, Or.inr rfl, ?_, ?_⟩
  · simp [Examples.plainInputs, Examples.freshSolver]
  · simp [Examples.plainInputs, Examples.freshSolver]

end MatrixFreePDE

namespace MatrixFreePDE

variable {α : Type} [LinearOrderedField α] {dim : Nat}

theorem foldl_min_le_init {β : Type} (f : β → α) (l : List β) (a : α) :
    l.foldl (fun m x => min m (f x)) a ≤ a := by
  induction l generalizing a with
  | nil => exact le_refl _
  | cons x l ih => exact le_trans (ih _) (min_le_left _ _)

theorem foldl_min_le_of_mem {β : Type} (f : β → α) (l : List β) (a : α) (x : β)
    (hx : x ∈ l) : l.foldl (fun m x => min m (f x)) a ≤ f x := by
  induction l generalizing a with
  | nil => exact absurd hx (List.not_mem_nil _)
  | cons y l ih =>
    rw [List.foldl_cons]
    rcases List.mem_cons.mp hx with h | h
    · rw [h]
      exact le_trans (foldl_min_le_init f l _) (min_le_right _ _)
    · exact ih _ h

theorem foldl_min_attained {β : Type} (f : β → α) (l : List β) (a : α) :
    l.foldl (fun m x => min m (f x)) a = a ∨
      ∃ x ∈ l, l.foldl (fun m x => min m (f x)) a = f x := by
  induction l generalizing a with
  | nil => exact Or.inl rfl
  | cons y l ih =>
    rw [List.foldl_cons]
    rcases ih (min a (f y)) with h | ⟨x, hx, h⟩
    · rcases min_choice a (f y) with hm | hm
      · left; rw [h, hm]
      · right; exact ⟨y, List.mem_cons_self _ _, by rw [h, hm]⟩
    · right; exact ⟨x, List.mem_cons_of_mem _ hx, h⟩

theorem init_le_foldl_max {β : Type} (f : β → α) (l : List β) (a : α) :
    a ≤ l.foldl (fun m x => max m (f x)) a := by
  induction l generalizing a with
  | nil => exact le_refl _
  | cons x l ih => exact le_trans (le_max_left _ _) (ih _)

theorem le_foldl_max_of_mem {β : Type} (f : β → α) (l : List β) (a : α) (x : β)
    (hx : x ∈ l) : f x ≤ l.foldl (fun m x => max m (f x)) a := by
  induction l generalizing a with
  | nil => exact absurd hx (List.not_mem_nil _)
  | cons y l ih =>
    rw [List.foldl_cons]
    rcases List.mem_cons.mp hx with h | h
    · rw [h]
      exact le_trans (le_max_right _ _) (init_le_foldl_max f l _)
    · exact ih _ h

theorem foldl_max_attained {β : Type} (f : β → α) (l : List β) (a : α) :
    l.foldl (fun m x => max m (f x)) a = a ∨
      ∃ x ∈ l, l.foldl (fun m x => max m (f x)) a = f x := by
  induction l generalizing a with
  | nil => exact Or.inl rfl
  | cons y l ih =>
    rw [List.foldl_cons]
    rcases ih (max a (f y)) with h | ⟨x, hx, h⟩
    · rcases max_choice a (f y) with hm | hm
      · left; rw [h, hm]
      · right; exact ⟨y, List.mem_cons_self _ _, by rw [h, hm]⟩
    · right; exact ⟨x, List.mem_cons_of_mem _ hx, h⟩

/-- After one sweep or more, started from a box whose corners are coordinates of
sample points, `ele_origin` is the least and `ele_max` the greatest coordinate of
the sample points on every axis. -/
theorem sweeps_give_extremes (num_quad_points : Nat) (dof : Cell dim α) (j : Fin dim)
    {β : Type} (l : List β) (hl : l ≠ []) (box : (Fin dim → α) × (Fin dim → α))
    (h1 : ∃ q ∈ List.range num_quad_points, box.1 j = dof.q_points q j)
    (h2 : ∃ q ∈ List.range num_quad_points, box.2 j = dof.q_points q j) :
    ((∀ q ∈ List.range num_quad_points,
        (l.foldl (fun b _ => boxSweep num_quad_points dof b) box).1 j ≤ dof.q_points q j) ∧
      ∃ q ∈ List.range num_quad_points,
        (l.foldl (fun b _ => boxSweep num_quad_points dof b) box).1 j = dof.q_points q j) ∧
    ((∀ q ∈ List.range num_quad_points,
        dof.q_points q j ≤ (l.foldl (fun b _ => boxSweep num_quad_points dof b) box).2 j) ∧
      ∃ q ∈ List.range num_quad_points,
        (l.foldl (fun b _ => boxSweep num_quad_points dof b) box).2 j = dof.q_points q j) := by
  have hstep : ∀ b : (Fin dim → α) × (Fin dim → α),
      (∃ q ∈ List.range num_quad_points, b.1 j = dof.q_points q j) →
      (∃ q ∈ List.range num_quad_points, b.2 j = dof.q_points q j) →
      ((∀ q ∈ List.range num_quad_points,
          (boxSweep num_quad_points dof b).1 j ≤ dof.q_points q j) ∧
        ∃ q ∈ List.range num_quad_points,
          (boxSweep num_quad_points dof b).1 j = dof.q_points q j) ∧
      ((∀ q ∈ List.range num_quad_points,
          dof.q_points q j ≤ (boxSweep num_quad_points dof b).2 j) ∧
        ∃ q ∈ List.range num_quad_points,
          (boxSweep num_quad_points dof b).2 j = dof.q_points q j) := by
    intro b hb1 hb2
    rw [boxSweep_fst, boxSweep_snd]
    refine ⟨⟨fun q hq => foldl_min_le_of_mem (fun q => dof.q_points q j) _ _ q hq, ?_⟩,
      ⟨fun q hq => le_foldl_max_of_mem (fun q => dof.q_points q j) _ _ q hq, ?_⟩⟩
    · rcases foldl_min_attained (fun q => dof.q_points q j) (List.range num_quad_points)
        (b.1 j) with h | h
      · obtain ⟨q, hq, he⟩ := hb1
        exact ⟨q, hq, by rw [h, he]⟩
      · exact h
    · rcases foldl_max_attained (fun q => dof.q_points q j) (List.range num_quad_points)
        (b.2 j) with h | h
      · obtain ⟨q, hq, he⟩ := hb2
        exact ⟨q, hq, by rw [h, he]⟩
      · exact h
  induction l generalizing box with
  | nil => exact absurd rfl hl
  | cons x rest ih =>
    rw [List.foldl_cons]
    have hs := hstep box h1 h2
    cases rest with
    | nil => exact hs
    | cons y rest2 => exact ih (by simp) _ hs.1.2 hs.2.2

theorem ele_box_extremes (num_quad_points : Nat) (dof : Cell dim α) (j : Fin dim)
    (hn : 0 < num_quad_points) :
    ((∀ q ∈ List.range num_quad_points,
        (ele_box num_quad_points dof).1 j ≤ dof.q_points q j) ∧
      ∃ q ∈ List.range num_quad_points,
        (ele_box num_quad_points dof).1 j = dof.q_points q j) ∧
    ((∀ q ∈ List.range num_quad_points,
        dof.q_points q j ≤ (ele_box num_quad_points dof).2 j) ∧
      ∃ q ∈ List.range num_quad_points,
        (ele_box num_quad_points dof).2 j = dof.q_points q j) := by
  unfold ele_box
  have hne : List.finRange dim ≠ [] := by
    intro h
    have hlen : (List.finRange dim).length = dim := List.length_finRange dim
    rw [h] at hlen
    have hj := j.isLt
    simp at hlen
    omega
  exact sweeps_give_extremes num_quad_points dof j (List.finRange dim) hne
    (dof.q_points 0, dof.q_points 0)
    ⟨0, List.mem_range.mpr hn, rfl⟩ ⟨0, List.mem_range.mpr hn, rfl⟩

/-- C21. For a cell with at least one sample point and draws in [0,1), on every
axis `j` the value `ele_origin_j` is the least and `ele_max_j` the greatest
coordinate of the sample points, and the sampled position
`pos_j = ele_origin_j + (ele_max_j - ele_origin_j) * r_j` satisfies
`ele_origin_j <= pos_j <= ele_max_j`. -/
theorem sampled_position_in_bounding_box (rand : Nat → α) (num_quad_points : Nat)
    (dof : Cell dim α) (draws : Nat) (j : Fin dim)
    (hn : 0 < num_quad_points)
    (hr : ∀ k, 0 ≤ rand k ∧ rand k < 1) :
    ((∀ q, q < num_quad_points → (ele_box num_quad_points dof).1 j ≤ dof.q_points q j) ∧
      ∃ q, q < num_quad_points ∧ (ele_box num_quad_points dof).1 j = dof.q_points q j) ∧
    ((∀ q, q < num_quad_points → dof.q_points q j ≤ (ele_box num_quad_points dof).2 j) ∧
      ∃ q, q < num_quad_points ∧ (ele_box num_quad_points dof).2 j = dof.q_points q j) ∧
    nuc_ele_pos rand num_quad_points dof draws j =
      (ele_box num_quad_points dof).1 j +
        ((ele_box num_quad_points dof).2 j - (ele_box num_quad_points dof).1 j) *
          rand (draws + j.val) ∧
    (ele_box num_quad_points dof).1 j ≤ nuc_ele_pos rand num_quad_points dof draws j ∧
    nuc_ele_pos rand num_quad_points dof draws j ≤ (ele_box num_quad_points dof).2 j := by
  obtain ⟨⟨hlow, q1, hq1, he1⟩, ⟨hhigh, q2, hq2, he2⟩⟩ :=
    ele_box_extremes num_quad_points dof j hn
  have hle : (ele_box num_quad_points dof).1 j ≤ (ele_box num_quad_points dof).2 j :=
    le_trans (hlow 0 (List.mem_range.mpr hn)) (hhigh 0 (List.mem_range.mpr hn))
  have h0 := (hr (draws + j.val)).1
  have h1 := (hr (draws + j.val)).2
  refine ⟨⟨fun q hq => hlow q (List.mem_range.mpr hq), q1, List.mem_range.mp hq1, he1⟩,
    ⟨fun q hq => hhigh q (List.mem_range.mpr hq), q2, List.mem_range.mp hq2, he2⟩, rfl, ?_, ?_⟩
  · unfold nuc_ele_pos
    nlinarith
  · unfold nuc_ele_pos
    nlinarith

/-- C21 on the cell with corners (40, 40) and (60, 60) and all draws 1/2, for
axis 0. -/
theorem sampled_position_in_bounding_box_witness :
    (ele_box 4 (Examples.squareCell ℚ 40 40 20 0)).1 0 ≤
        nuc_ele_pos (fun _ => (1 / 2 : ℚ)) 4 (Examples.squareCell ℚ 40 40 20 0) 1 0 ∧
      nuc_ele_pos (fun _ => (1 / 2 : ℚ)) 4 (Examples.squareCell ℚ 40 40 20 0) 1 0 ≤
        (ele_box 4 (Examples.squareCell ℚ 40 40 20 0)).2 0 :=
  (sampled_position_in_bounding_box (fun _ => (1 / 2 : ℚ)) 4
    (Examples.squareCell ℚ 40 40 20 0) 1 0 (by decide) (fun _ => by norm_num)).2.2.2

end MatrixFreePDE
